import Mathlib

/-!
# dashboard-heatmap: the OHLCV aggregation server (`server.go`)

A shallow embedding of the ranking, filtering and row-decoding code of `server.go`
together with the standard-library routines it calls (`sort.Slice`,
`strconv.ParseFloat`), followed by the properties settled for it.

Conventions of the embedding.

* A Go slice is a `List`; `data.Swap` and `data.Less` act on indices of it.
* Loops are structural recursions on the loop counter, or on a bound computed from
  the loop's own exit test, so every definition is total and executable.
* A Go `panic` is the error result of an `Except`.
-/

namespace Heatmap

/-! ## `sort.Slice` (Go standard library, package `sort`)

`server.go` sorts the tickers with `sort.Slice`. The functions below follow
`sort/zsortfunc.go` of Go 1.19 and later (pattern-defeating quicksort), function by
function and under the library's names. -/

section SortSlice

variable {α : Type} [Inhabited α]

/-- The element `data[i]` of a slice (the zero value when `i` is out of range, which the
sort never reads). -/
def elem [Inhabited α] (data : List α) (i : ℕ) : α := data.getD i default

/-- The effect of `data.Swap(i, j)` on the slice contents (nothing is done for an index out
of range, which the sort never swaps). -/
def swapAt [Inhabited α] (data : List α) (i j : ℕ) : List α :=
  if i < data.length ∧ j < data.length then (data.set i (elem data j)).set j (elem data i)
  else data

/-- Inner loop of `insertionSort_func`:
`for j := i; j > a && data.Less(j, j-1); j-- { data.Swap(j, j-1) }`. -/
def insertionSort_inner (less : α → α → Bool) (a : ℕ) : ℕ → List α → List α
  | 0, data => data
  | j + 1, data =>
    if j + 1 > a && less (elem data (j + 1)) (elem data j) then
      insertionSort_inner less a j (swapAt data (j + 1) j)
    else data

/-- Outer loop of `insertionSort_func`, `for i := a + 1; i < b; i++`, with the number of
remaining iterations as first argument. -/
def insertionSort_outer (less : α → α → Bool) (a : ℕ) : ℕ → ℕ → List α → List α
  | 0, _, data => data
  | n + 1, i, data => insertionSort_outer less a n (i + 1) (insertionSort_inner less a i data)

/-- The function `insertionSort_func(data, a, b)`: sorts `data[a:b]` by insertion. -/
def insertionSort_func (less : α → α → Bool) (data : List α) (a b : ℕ) : List α :=
  insertionSort_outer less a (b - (a + 1)) (a + 1) data

/-- The function `siftDown_func(data, lo, hi, first)`; the first argument bounds the number
of iterations (`root` strictly increases and stays below `hi`). -/
def siftDown_func (less : α → α → Bool) (hi first : ℕ) : ℕ → List α → ℕ → List α
  | 0, data, _ => data
  | n + 1, data, root =>
    let child := 2 * root + 1
    if child ≥ hi then data
    else
      let child := if child + 1 < hi && less (elem data (first + child)) (elem data (first + child + 1))
        then child + 1 else child
      if !less (elem data (first + root)) (elem data (first + child)) then data
      else siftDown_func less hi first n (swapAt data (first + root) (first + child)) child

/-- First loop of `heapSort_func`: `for i := (hi - 1) / 2; i >= 0; i-- { siftDown(i, hi) }`. -/
def heapSort_build (less : α → α → Bool) (hi first : ℕ) : ℕ → List α → List α
  | 0, data => siftDown_func less hi first hi data 0
  | i + 1, data => heapSort_build less hi first i (siftDown_func less hi first hi data (i + 1))

/-- Second loop of `heapSort_func`:
`for i := hi - 1; i >= 0; i-- { data.Swap(first, first+i); siftDown(lo, i) }`. -/
def heapSort_pop (less : α → α → Bool) (first : ℕ) : ℕ → List α → List α
  | 0, data => siftDown_func less 0 first 0 (swapAt data first (first + 0)) 0
  | i + 1, data =>
    heapSort_pop less first i
      (siftDown_func less (i + 1) first (i + 1) (swapAt data first (first + (i + 1))) 0)

/-- The function `heapSort_func(data, a, b)`. -/
def heapSort_func (less : α → α → Bool) (data : List α) (a b : ℕ) : List α :=
  let first := a
  let hi := b - a
  let data := heapSort_build less hi first ((hi - 1) / 2) data
  if hi = 0 then data else heapSort_pop less first (hi - 1) data

/-- The loop `for i <= j && data.Less(i, a) { i++ }` of `partition_func`; returns the final `i`.
The first argument is `j + 1 - i`. -/
def partition_scanUp (less : α → α → Bool) (data : List α) (a j : ℕ) : ℕ → ℕ → ℕ
  | 0, i => i
  | n + 1, i => if i ≤ j && less (elem data i) (elem data a) then partition_scanUp less data a j n (i + 1) else i

/-- The loop `for i <= j && !data.Less(j, a) { j-- }` of `partition_func`; returns the final `j`.
At every call `i ≥ a + 1 ≥ 1`, so the loop has stopped when `j` reaches 0. -/
def partition_scanDown (less : α → α → Bool) (data : List α) (a i : ℕ) : ℕ → ℕ
  | 0 => 0
  | j + 1 => if i ≤ j + 1 && !less (elem data (j + 1)) (elem data a) then partition_scanDown less data a i j else j + 1

/-- The unbounded `for { ... }` loop of `partition_func`; returns the slice and the final `j`.
The first argument bounds the number of passes: every pass moves `i` up and `j` down, so
`j + 1 - i` passes reach `i > j`, where the loop breaks. -/
def partition_loop (less : α → α → Bool) (a : ℕ) : ℕ → List α → ℕ → ℕ → List α × ℕ
  | 0, data, _, j => (data, j)
  | n + 1, data, i, j =>
    let i := partition_scanUp less data a j (j + 1 - i) i
    let j := partition_scanDown less data a i j
    if i > j then (data, j)
    else partition_loop less a n (swapAt data i j) (i + 1) (j - 1)

/-- The function `partition_func(data, a, b, pivot)`: returns the slice, `newpivot` and
`alreadyPartitioned`. -/
def partition_func (less : α → α → Bool) (data : List α) (a b pivot : ℕ) : List α × ℕ × Bool :=
  let data := swapAt data a pivot
  let i := a + 1
  let j := b - 1
  let i := partition_scanUp less data a j (j + 1 - i) i
  let j := partition_scanDown less data a i j
  if i > j then (swapAt data j a, j, true)
  else
    let data := swapAt data i j
    let r := partition_loop less a (j - i) data (i + 1) (j - 1)
    (swapAt r.1 r.2 a, r.2, false)

/-- The loop `for i <= j && !data.Less(a, i) { i++ }` of `partitionEqual_func`. -/
def partitionEqual_scanUp (less : α → α → Bool) (data : List α) (a j : ℕ) : ℕ → ℕ → ℕ
  | 0, i => i
  | n + 1, i =>
    if i ≤ j && !less (elem data a) (elem data i) then partitionEqual_scanUp less data a j n (i + 1) else i

/-- The loop `for i <= j && data.Less(a, j) { j-- }` of `partitionEqual_func`; as in
`partition_func`, `i ≥ 1` at every call. -/
def partitionEqual_scanDown (less : α → α → Bool) (data : List α) (a i : ℕ) : ℕ → ℕ
  | 0 => 0
  | j + 1 =>
    if i ≤ j + 1 && less (elem data a) (elem data (j + 1)) then partitionEqual_scanDown less data a i j else j + 1

/-- The `for { ... }` loop of `partitionEqual_func`; returns the slice and the final `i`.
The first argument bounds the number of passes (`j + 1 - i` passes reach `i > j`). -/
def partitionEqual_loop (less : α → α → Bool) (a : ℕ) : ℕ → List α → ℕ → ℕ → List α × ℕ
  | 0, data, i, _ => (data, i)
  | n + 1, data, i, j =>
    let i := partitionEqual_scanUp less data a j (j + 1 - i) i
    let j := partitionEqual_scanDown less data a i j
    if i > j then (data, i)
    else partitionEqual_loop less a n (swapAt data i j) (i + 1) (j - 1)

/-- The function `partitionEqual_func(data, a, b, pivot)`. -/
def partitionEqual_func (less : α → α → Bool) (data : List α) (a b pivot : ℕ) : List α × ℕ :=
  let data := swapAt data a pivot
  partitionEqual_loop less a (b - a) data (a + 1) (b - 1)

/-- The scan `for i < b && !data.Less(i, i-1) { i++ }` of `partialInsertionSort_func`.
The first argument is `b - i`. -/
def partialInsertionSort_scan (less : α → α → Bool) (data : List α) (b : ℕ) : ℕ → ℕ → ℕ
  | 0, i => i
  | n + 1, i =>
    if i < b && !less (elem data i) (elem data (i - 1)) then partialInsertionSort_scan less data b n (i + 1)
    else i

/-- Shift the smaller one to the left:
`for j := i - 1; j >= 1; j-- { if !data.Less(j, j-1) { break }; data.Swap(j, j-1) }`. -/
def partialInsertionSort_left (less : α → α → Bool) : ℕ → List α → List α
  | 0, data => data
  | j + 1, data =>
    if !less (elem data (j + 1)) (elem data j) then data
    else partialInsertionSort_left less j (swapAt data (j + 1) j)

/-- Shift the greater one to the right:
`for j := i + 1; j < b; j++ { if !data.Less(j, j-1) { break }; data.Swap(j, j-1) }`.
The first argument is `b - j`. -/
def partialInsertionSort_right (less : α → α → Bool) : ℕ → ℕ → List α → List α
  | 0, _, data => data
  | n + 1, j, data =>
    if !less (elem data j) (elem data (j - 1)) then data
    else partialInsertionSort_right less n (j + 1) (swapAt data j (j - 1))

/-- The loop `for j := 0; j < maxSteps; j++` of `partialInsertionSort_func`, with the number
of remaining steps as first argument; returns the slice and whether it is sorted. -/
def partialInsertionSort_steps (less : α → α → Bool) (a b : ℕ) :
    ℕ → List α → ℕ → List α × Bool
  | 0, data, _ => (data, false)
  | n + 1, data, i =>
    let i := partialInsertionSort_scan less data b (b - i) i
    if i = b then (data, true)
    else if b - a < 50 then (data, false)
    else
      let data := swapAt data i (i - 1)
      let data := if i - a ≥ 2 then partialInsertionSort_left less (i - 1) data else data
      let data := if b - i ≥ 2 then partialInsertionSort_right less (b - (i + 1)) (i + 1) data
        else data
      partialInsertionSort_steps less a b n data i

/-- The function `partialInsertionSort_func(data, a, b)` (`maxSteps = 5`,
`shortestShifting = 50`). -/
def partialInsertionSort_func (less : α → α → Bool) (data : List α) (a b : ℕ) : List α × Bool :=
  partialInsertionSort_steps less a b 5 data (a + 1)

/-- The method `(*xorshift).Next` on a `uint64` state. -/
def xorshift_Next (r : ℕ) : ℕ :=
  let r := r ^^^ ((r <<< 13) % 2 ^ 64)
  let r := r ^^^ (r >>> 7)
  r ^^^ ((r <<< 17) % 2 ^ 64)

/-- Bit-length loop: halve until zero (at most `n` halvings are needed for `n`). -/
def bits_Len_loop : ℕ → ℕ → ℕ
  | 0, _ => 0
  | k + 1, n => if n = 0 then 0 else bits_Len_loop k (n / 2) + 1

/-- The function `bits.Len`: the number of bits needed to represent `n`. -/
def bits_Len (n : ℕ) : ℕ := bits_Len_loop n n

/-- The function `nextPowerOfTwo(length)`, `1 << bits.Len(length)`. -/
def nextPowerOfTwo (length : ℕ) : ℕ := 1 <<< bits_Len length

/-- The loop `for i := 0; i < 3; i++` of `breakPatterns_func`; the first argument counts the
remaining iterations. -/
def breakPatterns_loop (a length modulus idx : ℕ) : ℕ → ℕ → ℕ → List α → List α
  | 0, _, _, data => data
  | n + 1, i, random, data =>
    let random := xorshift_Next random
    let other := random &&& (modulus - 1)
    let other := if other ≥ length then other - length else other
    breakPatterns_loop a length modulus idx n (i + 1) random (swapAt data (idx - 1 + i) (a + other))

/-- The function `breakPatterns_func(data, a, b)` of `sort/zsortfunc.go` (Go 1.19):
`idx := a + (length/4)*2 - 1` and, for `i = 0, 1, 2`, `data.Swap(idx-1+i, a+other)`. On a
range of length 16 the three positions are 6, 7, 8 when `a = 0` and 7, 8, 9 when `a = 1`.
The general properties proved below use of it only that it swaps elements of `data[a:b]`
with one another, whatever the three positions are. -/
def breakPatterns_func (data : List α) (a b : ℕ) : List α :=
  let length := b - a
  if length ≥ 8 then
    let random := length
    let modulus := nextPowerOfTwo length
    let idx := a + (length / 4) * 2 - 1
    breakPatterns_loop a length modulus idx 3 0 random data
  else data

/-- The function `order2_func(data, a, b, swaps)`; the counter `*swaps` is returned as third
component. -/
def order2_func (less : α → α → Bool) (data : List α) (a b swaps : ℕ) : ℕ × ℕ × ℕ :=
  if less (elem data b) (elem data a) then (b, a, swaps + 1) else (a, b, swaps)

/-- The function `median_func(data, a, b, c, swaps)`; returns the index and the counter. -/
def median_func (less : α → α → Bool) (data : List α) (a b c swaps : ℕ) : ℕ × ℕ :=
  let r₁ := order2_func less data a b swaps
  let r₂ := order2_func less data r₁.2.1 c r₁.2.2
  let r₃ := order2_func less data r₁.1 r₂.1 r₂.2.2
  (r₃.2.1, r₃.2.2)

/-- The function `medianAdjacent_func(data, a, swaps)`. -/
def medianAdjacent_func (less : α → α → Bool) (data : List α) (a swaps : ℕ) : ℕ × ℕ :=
  median_func less data (a - 1) a (a + 1) swaps

/-- The type `sortedHint`. -/
inductive sortedHint
  | unknownHint
  | increasingHint
  | decreasingHint
  deriving DecidableEq, Repr

/-- The function `choosePivot_func(data, a, b)` (`shortestNinther = 50`, `maxSwaps = 12`). -/
def choosePivot_func (less : α → α → Bool) (data : List α) (a b : ℕ) : ℕ × sortedHint :=
  let l := b - a
  let i := a + l / 4 * 1
  let j := a + l / 4 * 2
  let k := a + l / 4 * 3
  let r :=
    if l ≥ 8 then
      let t :=
        if l ≥ 50 then
          let ri := medianAdjacent_func less data i 0
          let rj := medianAdjacent_func less data j ri.2
          let rk := medianAdjacent_func less data k rj.2
          (ri.1, rj.1, rk.1, rk.2)
        else (i, j, k, 0)
      median_func less data t.1 t.2.1 t.2.2.1 t.2.2.2
    else (j, 0)
  if r.2 = 0 then (r.1, sortedHint.increasingHint)
  else if r.2 = 12 then (r.1, sortedHint.decreasingHint)
  else (r.1, sortedHint.unknownHint)

/-- The loop of `reverseRange_func`: `for i < j { data.Swap(i, j); i++; j-- }`.
The first argument bounds the number of passes (`j - i` passes reach `i ≥ j`). -/
def reverseRange_loop : ℕ → ℕ → ℕ → List α → List α
  | 0, _, _, data => data
  | n + 1, i, j, data =>
    if i < j then reverseRange_loop n (i + 1) (j - 1) (swapAt data i j) else data

/-- The function `reverseRange_func(data, a, b)`. -/
def reverseRange_func (data : List α) (a b : ℕ) : List α :=
  reverseRange_loop (b - 1 - a) a (b - 1) data

/-- The function `pdqsort_func(data, a, b, limit)`. Each pass of its `for` loop either
returns or continues on a strictly shorter range, and the recursive call is on a strictly
shorter range; the first argument bounds both (it is `b - a + 1` at the call from `Slice`).
`wasBalanced` and `wasPartitioned` are the loop's local flags. -/
def pdqsort_loop (less : α → α → Bool) :
    ℕ → List α → ℕ → ℕ → ℕ → Bool → Bool → List α
  | 0, data, _, _, _, _, _ => data
  | n + 1, data, a, b, limit, wasBalanced, wasPartitioned =>
    let length := b - a
    if length ≤ 12 then insertionSort_func less data a b
    else if limit = 0 then heapSort_func less data a b
    else
      let data := if !wasBalanced then breakPatterns_func data a b else data
      let limit := if !wasBalanced then limit - 1 else limit
      let ph := choosePivot_func less data a b
      let data := if ph.2 = sortedHint.decreasingHint then reverseRange_func data a b else data
      let pivot := if ph.2 = sortedHint.decreasingHint then (b - 1) - (ph.1 - a) else ph.1
      let hint := if ph.2 = sortedHint.decreasingHint then sortedHint.increasingHint else ph.2
      let pis :=
        if wasBalanced && wasPartitioned && hint = sortedHint.increasingHint
        then partialInsertionSort_func less data a b else (data, false)
      if pis.2 then pis.1
      else
        let data := pis.1
        if a > 0 && !less (elem data (a - 1)) (elem data pivot) then
          let r := partitionEqual_func less data a b pivot
          pdqsort_loop less n r.1 r.2 b limit wasBalanced wasPartitioned
        else
          let r := partition_func less data a b pivot
          let data := r.1
          let mid := r.2.1
          let wasPartitioned := r.2.2
          let leftLen := mid - a
          let rightLen := b - mid
          let balanceThreshold := length / 8
          if leftLen < rightLen then
            let wasBalanced := decide (leftLen ≥ balanceThreshold)
            let data := pdqsort_loop less n data a mid limit true true
            pdqsort_loop less n data (mid + 1) b limit wasBalanced wasPartitioned
          else
            let wasBalanced := decide (rightLen ≥ balanceThreshold)
            let data := pdqsort_loop less n data (mid + 1) b limit true true
            pdqsort_loop less n data a mid limit wasBalanced wasPartitioned

/-- The function `pdqsort_func(data, a, b, limit)`. -/
def pdqsort_func (less : α → α → Bool) (data : List α) (a b limit : ℕ) : List α :=
  pdqsort_loop less (b - a + 1) data a b limit true true

/-- The function `sort.Slice(x, less)`, with `less` given on elements (the source's closure
compares `x[i]` with `x[j]`); returns the slice contents after the in-place sort. -/
def Slice (x : List α) (less : α → α → Bool) : List α :=
  let length := x.length
  let limit := bits_Len length
  pdqsort_func less x 0 length limit

end SortSlice

/-! ## `float64` and `strconv.ParseFloat` (Go standard library) -/

/-- A `float64` value as comparison sees it: NaN, an infinity, or the finite value
`m * 2 ^ e` (every finite `float64` is such a dyadic number; the two zeros compare equal
and are both `fin 0 0`). -/
inductive Float64
  | NaN
  | Inf (neg : Bool)
  | fin (m : ℤ) (e : ℤ)
  deriving DecidableEq, Repr

namespace Float64

/-- The Go comparison `x > y` on `float64`: false as soon as one side is NaN. -/
def gt : Float64 → Float64 → Bool
  | NaN, _ => false
  | _, NaN => false
  | Inf nx, Inf ny => nx = false && ny = true
  | Inf nx, fin _ _ => nx = false
  | fin _ _, Inf ny => ny = true
  | fin m₁ e₁, fin m₂ e₂ =>
    decide (m₂ * 2 ^ (e₂ - min e₁ e₂).toNat < m₁ * 2 ^ (e₁ - min e₁ e₂).toNat)

/-- The Go comparison `x >= y` on `float64`: false as soon as one side is NaN. -/
def ge : Float64 → Float64 → Bool
  | NaN, _ => false
  | _, NaN => false
  | Inf nx, Inf ny => nx = false || ny = true
  | Inf nx, fin _ _ => nx = false
  | fin _ _, Inf ny => ny = true
  | fin m₁ e₁, fin m₂ e₂ =>
    decide (m₂ * 2 ^ (e₂ - min e₁ e₂).toNat ≤ m₁ * 2 ^ (e₁ - min e₁ e₂).toNat)

/-- Whether the value is NaN. -/
def isNaN : Float64 → Bool
  | NaN => true
  | _ => false

/-- The conversion `int64(f)`: the fraction is discarded (truncation towards zero); for a
value outside the `int64` range, and for NaN and the infinities, the Go specification leaves
the result to the implementation, and the value produced on amd64 is used here. -/
def toInt64 : Float64 → ℤ
  | fin m e =>
    let t := if 0 ≤ e then m * 2 ^ e.toNat else Int.tdiv m (2 ^ (-e).toNat)
    if -2 ^ 63 ≤ t ∧ t < 2 ^ 63 then t else -2 ^ 63
  | _ => -2 ^ 63

/-- The `float64` holding the integer `n` exactly (for `|n| ≤ 2 ^ 53`). -/
def ofInt (n : ℤ) : Float64 := fin n 0

end Float64

/-- The bytes of a Go string (Go strings are byte sequences; the strings of this program
come out of `encoding/json`, which yields valid UTF-8). -/
def bytes (s : String) : List ℕ := s.toUTF8.data.toList.map UInt8.toNat

/-- The error kinds of `strconv.NumError`. -/
inductive NumError
  | ErrSyntax
  | ErrRange
  deriving DecidableEq, Repr

/-- The helper `lower(c)` of `strconv`: `c | ('x' - 'X')`. -/
def lower (c : ℕ) : ℕ := c ||| 32

/-- The function `commonPrefixLenIgnoreCase(s, pre)` of `strconv`; `pre` is lower-case. -/
def commonPrefixLenIgnoreCase : List ℕ → List ℕ → ℕ
  | c :: s, p :: pre =>
    let c := if 'A'.toNat ≤ c ∧ c ≤ 'Z'.toNat then c + ('a'.toNat - 'A'.toNat) else c
    if c ≠ p then 0 else commonPrefixLenIgnoreCase s pre + 1
  | _, _ => 0

/-- The function `special(s)` of `strconv`: the value and the number of bytes consumed when `s`
starts with an infinity or NaN literal. -/
def special (s : List ℕ) : Option (Float64 × ℕ) :=
  let inf (neg : Bool) (nsign : ℕ) (s : List ℕ) : Option (Float64 × ℕ) :=
    let n := commonPrefixLenIgnoreCase s (bytes "infinity")
    let n := if 3 < n ∧ n < 8 then 3 else n
    if n = 3 ∨ n = 8 then some (Float64.Inf neg, nsign + n) else none
  match s with
  | [] => none
  | c :: rest =>
    if c = '+'.toNat then inf false 1 rest
    else if c = '-'.toNat then inf true 1 rest
    else if c = 'i'.toNat ∨ c = 'I'.toNat then inf false 0 s
    else if c = 'n'.toNat ∨ c = 'N'.toNat then
      if commonPrefixLenIgnoreCase s (bytes "nan") = 3 then some (Float64.NaN, 3) else none
    else none

/-- The locals of the digit loop of `readFloat`; `mantissa` keeps every digit (the source
keeps the first 19 and a `trunc` flag, and rounds from the full decimal when it is set). -/
structure readFloat_state where
  mantissa : ℕ
  nd : ℕ
  dp : ℤ
  sawdot : Bool
  sawdigits : Bool
  underscores : Bool
  deriving Repr

/-- The digit loop of `readFloat` (label `loop`); returns the locals and the unread bytes. -/
def readFloat_digits (base : ℕ) : List ℕ → readFloat_state → readFloat_state × List ℕ
  | [], st => (st, [])
  | c :: cs, st =>
    if c = '_'.toNat then readFloat_digits base cs { st with underscores := true }
    else if c = '.'.toNat then
      if st.sawdot then (st, c :: cs)
      else readFloat_digits base cs { st with sawdot := true, dp := st.nd }
    else if '0'.toNat ≤ c ∧ c ≤ '9'.toNat then
      if c = '0'.toNat ∧ st.nd = 0 then
        readFloat_digits base cs { st with sawdigits := true, dp := st.dp - 1 }
      else
        readFloat_digits base cs
          { st with sawdigits := true, nd := st.nd + 1,
                    mantissa := st.mantissa * base + (c - '0'.toNat) }
    else if base = 16 ∧ 'a'.toNat ≤ lower c ∧ lower c ≤ 'f'.toNat then
      readFloat_digits base cs
        { st with sawdigits := true, nd := st.nd + 1,
                  mantissa := st.mantissa * 16 + (lower c - 'a'.toNat + 10) }
    else (st, c :: cs)

/-- The exponent-digit loop of `readFloat`; returns `e`, whether an underscore was seen, and
the unread bytes. -/
def readFloat_exp : List ℕ → ℕ → Bool → ℕ × Bool × List ℕ
  | [], e, u => (e, u, [])
  | c :: cs, e, u =>
    if c = '_'.toNat then readFloat_exp cs e true
    else if '0'.toNat ≤ c ∧ c ≤ '9'.toNat then
      readFloat_exp cs (if e < 10000 then e * 10 + (c - '0'.toNat) else e) u
    else (e, u, c :: cs)

/-- The number-proper loop of `underscoreOK`; `saw` is the kind of the last byte
(`'0'` digit or base prefix, `'_'` underscore, `'!'` other, `'^'` start). -/
def underscoreOK_loop (hex : Bool) : List ℕ → Char → Bool
  | [], saw => saw ≠ '_'
  | c :: cs, saw =>
    if ('0'.toNat ≤ c ∧ c ≤ '9'.toNat) ∨ (hex ∧ 'a'.toNat ≤ lower c ∧ lower c ≤ 'f'.toNat) then
      underscoreOK_loop hex cs '0'
    else if c = '_'.toNat then
      if saw ≠ '0' then false else underscoreOK_loop hex cs '_'
    else if saw = '_' then false
    else underscoreOK_loop hex cs '!'

/-- The function `underscoreOK(s)` of `strconv`. -/
def underscoreOK (s : List ℕ) : Bool :=
  let s := match s with
    | c :: rest => if c = '-'.toNat ∨ c = '+'.toNat then rest else s
    | [] => s
  match s with
  | c₀ :: c₁ :: rest =>
    if c₀ = '0'.toNat ∧ (lower c₁ = 'b'.toNat ∨ lower c₁ = 'o'.toNat ∨ lower c₁ = 'x'.toNat) then
      underscoreOK_loop (lower c₁ = 'x'.toNat) rest '0'
    else underscoreOK_loop false s '^'
  | _ => underscoreOK_loop false s '^'

/-- The function `readFloat(s)` of `strconv`, up to the exact value read: on success the
sign, the digits as a number, the base of the exponent (10, or 2 for a hexadecimal literal),
the exponent, and the unread bytes. -/
def readFloat (s : List ℕ) : Option (Bool × ℕ × ℕ × ℤ × List ℕ) :=
  match s with
  | [] => none
  | c :: rest =>
    let neg := decide (c = '-'.toNat)
    let s₁ := if c = '+'.toNat ∨ c = '-'.toNat then rest else s
    let hex := match s₁ with
      | c₀ :: c₁ :: _ :: _ => decide (c₀ = '0'.toNat ∧ lower c₁ = 'x'.toNat)
      | _ => false
    let base := if hex then 16 else 10
    let s₂ := if hex then s₁.drop 2 else s₁
    let r := readFloat_digits base s₂ ⟨0, 0, 0, false, false, false⟩
    let st := r.1
    if !st.sawdigits then none
    else
      let dp : ℤ := if !st.sawdot then st.nd else st.dp
      let dp := if hex then dp * 4 else dp
      let nd : ℤ := if hex then st.nd * 4 else st.nd
      let consumed := s.take (s.length - r.2.length)
      match r.2 with
      | c :: cs =>
        if lower c = (if hex then 'p'.toNat else 'e'.toNat) then
          match cs with
          | [] => none
          | c₁ :: cs₁ =>
            let esign : ℤ := if c₁ = '-'.toNat then -1 else 1
            let cs₂ := if c₁ = '+'.toNat ∨ c₁ = '-'.toNat then cs₁ else cs
            match cs₂ with
            | [] => none
            | c₂ :: _ =>
              if c₂ < '0'.toNat ∨ c₂ > '9'.toNat then none
              else
                let x := readFloat_exp cs₂ 0 st.underscores
                let consumed := s.take (s.length - x.2.2.length)
                if x.2.1 && !underscoreOK consumed then none
                else some (neg, st.mantissa, if hex then 2 else 10, dp + x.1 * esign - nd, x.2.2)
        else if hex then none
        else if st.underscores && !underscoreOK consumed then none
        else some (neg, st.mantissa, 10, dp - nd, c :: cs)
      | [] =>
        if hex then none
        else if st.underscores && !underscoreOK consumed then none
        else some (neg, st.mantissa, 10, dp - nd, [])

/-- Rounding of the positive rational `num / den` to the nearest `float64`, ties to even
(IEEE 754 round-to-nearest-even, as `strconv` does); a result beyond the largest finite
`float64` is an infinity together with `ErrRange`. -/
def roundFloat64 (neg : Bool) (num den : ℕ) : Float64 × Option NumError :=
  if num = 0 then (Float64.fin 0 0, none)
  else
    -- `2 ^ e₀ ≤ num / den < 2 ^ (e₀ + 2)` for `e₀ = bits_Len num - bits_Len den - 1`
    let e₀ : ℤ := (bits_Len num : ℤ) - bits_Len den - 1
    let e : ℤ := if num * 2 ^ (-(e₀ + 1)).toNat < den * 2 ^ (e₀ + 1).toNat then e₀ else e₀ + 1
    let e : ℤ := max e (-1022)
    let u : ℤ := e - 52
    let n := num * 2 ^ (-u).toNat
    let d := den * 2 ^ u.toNat
    let q := n / d
    let r := n % d
    let q := if 2 * r > d ∨ (2 * r = d ∧ q % 2 = 1) then q + 1 else q
    -- `q * 2 ^ u ≥ 2 ^ 1024`
    if (bits_Len q : ℤ) + u > 1024 then (Float64.Inf neg, some NumError.ErrRange)
    else if q = 0 then (Float64.fin 0 0, none)
    else (Float64.fin (if neg then -(q : ℤ) else q) u, none)

/-- The function `strconv.ParseFloat(s, 64)`: the value and the error kind (`none` for a nil
error). -/
def ParseFloat (s : String) : Float64 × Option NumError :=
  let b := bytes s
  match special b with
  | some (val, n) => if n ≠ b.length then (Float64.fin 0 0, some NumError.ErrSyntax) else (val, none)
  | none =>
    match readFloat b with
    | none => (Float64.fin 0 0, some NumError.ErrSyntax)
    | some (neg, mantissa, base, exp, rest) =>
      if rest ≠ [] then (Float64.fin 0 0, some NumError.ErrSyntax)
      else roundFloat64 neg (mantissa * base ^ exp.toNat) (base ^ (-exp).toNat)

/-! ## `server.go`: ticker snapshot, ranking -/

/-- The struct `TickerData`. -/
structure TickerData where
  Symbol : String
  QuoteVolume : String
  deriving DecidableEq, Repr, Inhabited

/-- The outcome of the calls `http.Get`, `ioutil.ReadAll` and `json.Unmarshal` in
`fetch24hTickerData`: one of the three errors, or the decoded `tickerData`. -/
inductive TickerFetch
  | getError
  | readError
  | unmarshalError
  | decoded (tickerData : List TickerData)

/-- The slice expression `s[lo:]` on a string; panics when `lo` is out of range. -/
def sliceFrom (s : List ℕ) (lo : ℤ) : Except String (List ℕ) :=
  if 0 ≤ lo ∧ lo ≤ s.length then .ok (s.drop lo.toNat)
  else .error "slice bounds out of range"

/-- The filter condition of `fetch24hTickerData`:
`len(ticker.Symbol) >= 4 && ticker.Symbol[len(ticker.Symbol)-4:] == "USDT"`. -/
def isUSDTPair (ticker : TickerData) : Except String Bool :=
  let sym := bytes ticker.Symbol
  if sym.length ≥ 4 then do
    let suffix ← sliceFrom sym ((sym.length : ℤ) - 4)
    pure (suffix == bytes "USDT")
  else pure false

/-- The filter loop of `fetch24hTickerData`, `for _, ticker := range tickerData`, with
`usdtTickerData` as accumulator. -/
def fetch24hTickerData_filter :
    List TickerData → List TickerData → Except String (List TickerData)
  | [], usdtTickerData => pure usdtTickerData
  | ticker :: rest, usdtTickerData => do
    if ← isUSDTPair ticker then
      fetch24hTickerData_filter rest (usdtTickerData ++ [ticker])
    else
      fetch24hTickerData_filter rest usdtTickerData

/-- The function `fetch24hTickerData`, given the outcome of its upstream calls: a panic, or
`none` for a non-nil `error`, or the filtered tickers. -/
def fetch24hTickerData (upstream : TickerFetch) : Except String (Option (List TickerData)) :=
  match upstream with
  | .decoded tickerData => do
    let usdtTickerData ← fetch24hTickerData_filter tickerData []
    pure (some usdtTickerData)
  | _ => pure none

/-- The closure passed to `sort.Slice` in `getTop50SymbolsByQuoteVolume`, on the two elements
`tickerData[i]` and `tickerData[j]`; the errors of `ParseFloat` are discarded. -/
def lessByQuoteVolume (ti tj : TickerData) : Bool :=
  let volumeI := (ParseFloat ti.QuoteVolume).1
  let volumeJ := (ParseFloat tj.QuoteVolume).1
  Float64.gt volumeI volumeJ

/-- The slice `tickerData` after `sort.Slice` in `getTop50SymbolsByQuoteVolume`. -/
def sortByQuoteVolume (tickerData : List TickerData) : List TickerData :=
  Slice tickerData lessByQuoteVolume

/-- The extraction loop of `getTop50SymbolsByQuoteVolume`:
`for i, ticker := range tickerData { if i >= 50 { break }; append }`. -/
def getTop50_loop : List TickerData → ℕ → List String → List String
  | [], _, top50Symbols => top50Symbols
  | ticker :: rest, i, top50Symbols =>
    if i ≥ 50 then top50Symbols
    else getTop50_loop rest (i + 1) (top50Symbols ++ [ticker.Symbol])

/-- The function `getTop50SymbolsByQuoteVolume`. -/
def getTop50SymbolsByQuoteVolume (tickerData : List TickerData) : List String :=
  getTop50_loop (sortByQuoteVolume tickerData) 0 []

/-! ## `server.go`: candlestick rows -/

/-- The struct `OHLCVData`. -/
structure OHLCVData where
  Symbol : String
  OpenTime : ℤ
  Open : String
  High : String
  Low : String
  Close : String
  Volume : String
  CloseTime : ℤ
  QuoteAssetVolume : String
  NumberOfTrades : ℤ
  TakerBuyBaseAssetVolume : String
  TakerBuyQuoteAssetVolume : String
  deriving DecidableEq, Repr

/-- A value of type `interface{}` as `json.Unmarshal` produces it. -/
inductive JSONValue
  | null
  | bool (b : Bool)
  | number (f : Float64)
  | string (s : String)
  | array (elems : List JSONValue)
  | object (members : List (String × JSONValue))

/-- The type assertion `v.(float64)`; panics on any other dynamic type. -/
def assertFloat64 : JSONValue → Except String Float64
  | .number f => .ok f
  | _ => .error "interface conversion: interface {} is not float64"

/-- The type assertion `v.(string)`; panics on any other dynamic type. -/
def assertString : JSONValue → Except String String
  | .string s => .ok s
  | _ => .error "interface conversion: interface {} is not string"

/-- The index expression `data[i]`; panics when `i` is out of range. -/
def index (data : List JSONValue) (i : ℕ) : Except String JSONValue :=
  match data[i]? with
  | some v => .ok v
  | none => .error "index out of range"

/-- The composite literal `OHLCVData{...}` of `fetchOHLCVForSymbol`, its fields evaluated in
order (`int` is the 64-bit integer type here, as on every 64-bit platform). -/
def buildOHLCV (symbol : String) (data : List JSONValue) : Except String OHLCVData := do
  let openTime ← index data 0 >>= assertFloat64
  let «open» ← index data 1 >>= assertString
  let high ← index data 2 >>= assertString
  let low ← index data 3 >>= assertString
  let close ← index data 4 >>= assertString
  let volume ← index data 5 >>= assertString
  let closeTime ← index data 6 >>= assertFloat64
  let quoteAssetVolume ← index data 7 >>= assertString
  let numberOfTrades ← index data 8 >>= assertFloat64
  let takerBuyBase ← index data 9 >>= assertString
  let takerBuyQuote ← index data 10 >>= assertString
  pure {
    Symbol := symbol
    OpenTime := openTime.toInt64
    Open := «open»
    High := high
    Low := low
    Close := close
    Volume := volume
    CloseTime := closeTime.toInt64
    QuoteAssetVolume := quoteAssetVolume
    NumberOfTrades := numberOfTrades.toInt64
    TakerBuyBaseAssetVolume := takerBuyBase
    TakerBuyQuoteAssetVolume := takerBuyQuote }

/-- One pass of the row loop of `fetchOHLCVForSymbol` on the global `ohlcvData`: a row of
fewer than 11 elements is skipped, any other row is decoded and appended under the mutex. -/
def fetchOHLCVForSymbol_row (symbol : String) (data : List JSONValue)
    (ohlcvData : List OHLCVData) : Except String (List OHLCVData) :=
  if data.length < 11 then pure ohlcvData
  else do
    let ohlcv ← buildOHLCV symbol data
    pure (ohlcvData ++ [ohlcv])

/-- The row loop of `fetchOHLCVForSymbol`, `for _, data := range rawData`. -/
def fetchOHLCVForSymbol_rows (symbol : String) :
    List (List JSONValue) → List OHLCVData → Except String (List OHLCVData)
  | [], ohlcvData => pure ohlcvData
  | data :: rest, ohlcvData => do
    let ohlcvData ← fetchOHLCVForSymbol_row symbol data ohlcvData
    fetchOHLCVForSymbol_rows symbol rest ohlcvData

/-- The outcome of the calls `http.Get`, `ioutil.ReadAll` and `json.Unmarshal` in
`fetchOHLCVForSymbol`: one of the three errors, or the decoded `rawData`. -/
inductive KlinesFetch
  | getError
  | readError
  | unmarshalError
  | decoded (rawData : List (List JSONValue))

/-- The rows a call of `fetchOHLCVForSymbol` goes through: none after an upstream error (the
function logs and returns). -/
def KlinesFetch.rows : KlinesFetch → List (List JSONValue)
  | .decoded rawData => rawData
  | _ => []

/-- The function `fetchOHLCVForSymbol` run on its own, given the outcome of its upstream
calls; the global `ohlcvData` is passed in and out. -/
def fetchOHLCVForSymbol (upstream : KlinesFetch) (symbol : String)
    (ohlcvData : List OHLCVData) : Except String (List OHLCVData) :=
  fetchOHLCVForSymbol_rows symbol upstream.rows ohlcvData

/-! ## `server.go`: the handler and its goroutines -/

/-- The row loop of `fetchOHLCVForSymbol` inside the goroutine that `getOHLCVData` launches,
on the global `ohlcvData`: the slice the loop leaves and the panic that ended it, if any. A
type assertion panics before the append of its row, so the records of the rows before it
stay in the slice and the rows after it are never reached. -/
def fetchOHLCVForSymbol_unwind (symbol : String) :
    List (List JSONValue) → List OHLCVData → List OHLCVData × Option String
  | [], ohlcvData => (ohlcvData, none)
  | data :: rest, ohlcvData =>
    match fetchOHLCVForSymbol_row symbol data ohlcvData with
    | .ok ohlcvData => fetchOHLCVForSymbol_unwind symbol rest ohlcvData
    | .error msg => (ohlcvData, some msg)

/-- A goroutine launched by `getOHLCVData`: the symbol it was given and the rows its loop has
still to go through. -/
structure Goroutine where
  symbol : String
  pending : List (List JSONValue)

/-- One step on the global `ohlcvData`. The slice is one variable of the process, shared by
every request it serves: next to the passes of the goroutines of the request at hand there
are the steps of a request served at the same time, its reset
`ohlcvData = make([]OHLCVData, 0)` and the appends of its goroutines. -/
inductive Event
  | pass (k : ℕ)
  | reset
  | append (ohlcv : OHLCVData)

/-- The goroutines of the request at hand, the global `ohlcvData`, and the panics raised so
far. -/
structure Run where
  goroutines : List Goroutine
  ohlcvData : List OHLCVData
  panics : List String

/-- Goroutine `k` runs one pass of its row loop (nothing happens when it has finished). The
append to `ohlcvData` is guarded by the mutex `mu`, so a pass is one indivisible step on the
shared slice. When a type assertion panics the goroutine unwinds: the slice is left as it
is, the remaining rows are dropped, and the deferred `wg.Done()` runs, so the goroutine
counts as finished at the barrier. -/
def stepGoroutine (k : ℕ) (run : Run) : Run :=
  match run.goroutines[k]? with
  | some ⟨symbol, data :: rest⟩ =>
    match fetchOHLCVForSymbol_row symbol data run.ohlcvData with
    | .ok ohlcvData => ⟨run.goroutines.set k ⟨symbol, rest⟩, ohlcvData, run.panics⟩
    | .error msg => ⟨run.goroutines.set k ⟨symbol, []⟩, run.ohlcvData, run.panics ++ [msg]⟩
  | _ => run

/-- One event on the run. -/
def stepEvent : Event → Run → Run
  | .pass k, run => stepGoroutine k run
  | .reset, run => ⟨run.goroutines, [], run.panics⟩
  | .append ohlcv, run => ⟨run.goroutines, run.ohlcvData ++ [ohlcv], run.panics⟩

/-- The events happen in the order given. -/
def runEvents : List Event → Run → Run
  | [], run => run
  | e :: events, run => runEvents events (stepEvent e run)

/-- Every goroutine runs to the end of its loop, or to its panic, one after the other. -/
def runToCompletion :
    List Goroutine → List OHLCVData → List String → List OHLCVData × List String
  | [], ohlcvData, panics => (ohlcvData, panics)
  | g :: gs, ohlcvData, panics =>
    let r := fetchOHLCVForSymbol_unwind g.symbol g.pending ohlcvData
    runToCompletion gs r.1 (panics ++ r.2.toList)

/-- The goroutines between their launch and the return of `wg.Wait()`: the events happen as
listed, and whatever passes they leave undone are run before the barrier opens. Every
interleaving of the passes is the run of some list of events. The result is the slice
`ohlcvData` read after the barrier, and the panics raised on the way. An unrecovered panic
ends the process, but only after the deferred `wg.Done()` of its goroutine has run; until
the process is gone the other goroutines and the handler go on. The run is therefore carried
to the barrier, and a non-empty list of panics says that the process exits, at the barrier
or earlier. -/
def runGoroutines (events : List Event) (gs : List Goroutine) (ohlcvData : List OHLCVData) :
    List OHLCVData × List String :=
  let run := runEvents events ⟨gs, ohlcvData, []⟩
  runToCompletion run.goroutines run.ohlcvData run.panics

/-- What `getOHLCVData` writes to the `http.ResponseWriter`. -/
inductive Response
  | status500 (body : String)
  | status200 (body : List OHLCVData)
  deriving DecidableEq, Repr

/-- One call of `getOHLCVData`: the response the handler writes, the global `ohlcvData` it
leaves, the symbols it launched a goroutine for, and the panics of these goroutines. With a
panic the process exits; the response is then the one the handler writes if it gets to
`Encode` before the exit. -/
structure Handled where
  response : Response
  ohlcvData : List OHLCVData
  launched : List String
  panics : List String

/-- The function `getOHLCVData`, given the outcome of the ticker call, the outcome of the
klines call of each launched goroutine (by launch index and symbol), and the events on the
global `ohlcvData` between the reset and `Encode`. The outer error is a panic of the handler
itself. -/
def getOHLCVData (ticker : TickerFetch) (klines : ℕ → String → KlinesFetch)
    (events : List Event) (ohlcvData : List OHLCVData) : Except String Handled := do
  match ← fetch24hTickerData ticker with
  | none => pure ⟨Response.status500 "Failed to fetch 24-hour ticker data", ohlcvData, [], []⟩
  | some tickerData =>
    let top50Symbols := getTop50SymbolsByQuoteVolume tickerData
    let ohlcvData : List OHLCVData := []
    let gs := top50Symbols.enum.map (fun p => Goroutine.mk p.2 (klines p.1 p.2).rows)
    let r := runGoroutines events gs ohlcvData
    pure ⟨Response.status200 r.1, r.1, top50Symbols, r.2⟩

/-! ## Vocabulary of the properties -/

/-- The row has numbers at positions 0, 6, 8 and strings at positions 1, 2, 3, 4, 5, 7, 9,
10. -/
def WellTypedRow (data : List JSONValue) : Prop :=
  (∀ i ∈ [0, 6, 8], ∃ f, data[i]? = some (JSONValue.number f)) ∧
  (∀ i ∈ [1, 2, 3, 4, 5, 7, 9, 10], ∃ s, data[i]? = some (JSONValue.string s))

/-- The finite `float64` value `f` is the integer `n`. -/
def Float64.IsInt : Float64 → ℤ → Prop
  | Float64.fin m e, n => if 0 ≤ e then n = m * 2 ^ e.toNat else m = n * 2 ^ (-e).toNat
  | _, _ => False

/-- The finite `float64` value `f`, truncated toward zero, is the integer `n`: for a value
`m / 2 ^ k` that is not negative, `n ≤ m / 2 ^ k < n + 1`, and for a negative one,
`n - 1 < m / 2 ^ k ≤ n`. -/
def Float64.TruncatesTo : Float64 → ℤ → Prop
  | Float64.fin m e, n =>
    if 0 ≤ e then n = m * 2 ^ e.toNat
    else
      (0 ≤ m → n * 2 ^ (-e).toNat ≤ m ∧ m < (n + 1) * 2 ^ (-e).toNat) ∧
      (m < 0 → (n - 1) * 2 ^ (-e).toNat < m ∧ m ≤ n * 2 ^ (-e).toNat)
  | _, _ => False

/-- The integer `x` is what the number `f` converts to, as far as the integer part of `f`
lies in the `int64` range: `x` is `f` truncated toward zero whenever that truncation is at
least `-2 ^ 63` and less than `2 ^ 63`. -/
def Float64.ConvertsTo (f : Float64) (x : ℤ) : Prop :=
  ∀ n, f.TruncatesTo n → -2 ^ 63 ≤ n → n < 2 ^ 63 → x = n

/-- The record `r` carries `symbol` and the fields of the row `data`: the numbers at
positions 0, 6, 8 truncated toward zero (as far as that lies in the `int64` range), and the
strings at the other positions unchanged. -/
def RecordOf (symbol : String) (data : List JSONValue) (r : OHLCVData) : Prop :=
  r.Symbol = symbol ∧
  (∃ f, data[0]? = some (JSONValue.number f) ∧ f.ConvertsTo r.OpenTime) ∧
  data[1]? = some (JSONValue.string r.Open) ∧
  data[2]? = some (JSONValue.string r.High) ∧
  data[3]? = some (JSONValue.string r.Low) ∧
  data[4]? = some (JSONValue.string r.Close) ∧
  data[5]? = some (JSONValue.string r.Volume) ∧
  (∃ f, data[6]? = some (JSONValue.number f) ∧ f.ConvertsTo r.CloseTime) ∧
  data[7]? = some (JSONValue.string r.QuoteAssetVolume) ∧
  (∃ f, data[8]? = some (JSONValue.number f) ∧ f.ConvertsTo r.NumberOfTrades) ∧
  data[9]? = some (JSONValue.string r.TakerBuyBaseAssetVolume) ∧
  data[10]? = some (JSONValue.string r.TakerBuyQuoteAssetVolume)

/-- The records the goroutines append when each runs alone on an empty slice, one goroutine
after the other. -/
def recordsOf (gs : List Goroutine) : List OHLCVData :=
  (gs.map (fun g => (fetchOHLCVForSymbol_unwind g.symbol g.pending []).1)).flatten

/-- The panics the goroutines raise when each runs alone, one goroutine after the other. -/
def panicsOf (gs : List Goroutine) : List String :=
  (gs.map (fun g => (fetchOHLCVForSymbol_unwind g.symbol g.pending []).2.toList)).flatten

/-- The value `json.Unmarshal` stores in an `interface{}` for a JSON number literal:
`strconv.ParseFloat(literal, 64)`. -/
def jsonNumber (literal : String) : JSONValue := .number (ParseFloat literal).1

/-- The klines row of end-to-end scenario 2, as `json.Unmarshal` decodes it: the close time
at position 6 is a JSON string. -/
def scenario2Row : List JSONValue :=
  [.number (.ofInt 1600000000000), .string "1.0", .string "2.0", .string "0.5", .string "1.5",
   .string "100", .string "1600000059999", .string "150.0", .number (.ofInt 10), .string "50",
   .string "75"]

/-- A klines row as the upstream API documents it: the row of scenario 2 with the close time
at position 6 a JSON number. -/
def klinesRow : List JSONValue :=
  [.number (.ofInt 1600000000000), .string "1.0", .string "2.0", .string "0.5", .string "1.5",
   .string "100", .number (.ofInt 1600000059999), .string "150.0", .number (.ofInt 10),
   .string "50", .string "75"]

/-- A row of eleven elements with a type mismatch: a JSON number at position 1, where the
code asserts a string. -/
def mistypedRow : List JSONValue :=
  [.number (.ofInt 1600000000000), .number (.ofInt 1), .string "2.0", .string "0.5",
   .string "1.5", .string "100", .number (.ofInt 1600000059999), .string "150.0",
   .number (.ofInt 10), .string "50", .string "75"]

/-- The record of `klinesRow` for a symbol. -/
def klinesRecord (symbol : String) : OHLCVData :=
  { Symbol := symbol, OpenTime := 1600000000000, Open := "1.0", High := "2.0", Low := "0.5",
    Close := "1.5", Volume := "100", CloseTime := 1600000059999, QuoteAssetVolume := "150.0",
    NumberOfTrades := 10, TakerBuyBaseAssetVolume := "50", TakerBuyQuoteAssetVolume := "75" }

/-- The row `klinesRow` with the number of trades at position 8 given as the JSON number
`9223372036854775807`, the largest `int64`. -/
def hugeTradesRow : List JSONValue :=
  [.number (.ofInt 1600000000000), .string "1.0", .string "2.0", .string "0.5", .string "1.5",
   .string "100", .number (.ofInt 1600000059999), .string "150.0",
   jsonNumber "9223372036854775807", .string "50", .string "75"]

/-- The row `klinesRow` with the open time at position 0 given as the JSON number `1.5`. -/
def fractionalRow : List JSONValue :=
  [jsonNumber "1.5", .string "1.0", .string "2.0", .string "0.5", .string "1.5",
   .string "100", .number (.ofInt 1600000059999), .string "150.0", .number (.ofInt 10),
   .string "50", .string "75"]

/-- Two goroutines: the response for `BTCUSDT` has a mistyped row between two valid rows, the
response for `ETHUSDT` is one valid row. -/
def mistypedTasks : List Goroutine :=
  [⟨"BTCUSDT", [klinesRow, mistypedRow, klinesRow]⟩, ⟨"ETHUSDT", [klinesRow]⟩]

/-- A ticker response with the two pairs `BTCUSDT` and `ETHUSDT`, in this order of quote
volume. -/
def twoTickers : TickerFetch :=
  .decoded [⟨"BTCUSDT", "1000000"⟩, ⟨"ETHUSDT", "500"⟩]

/-- Klines outcomes: every call returns one valid row. -/
def validKlines : ℕ → String → KlinesFetch :=
  fun _ _ => .decoded [klinesRow]

/-- Klines outcomes: the call of the first goroutine fails as a whole with a transport
error, every other call returns one valid row. -/
def oneFailedKlines : ℕ → String → KlinesFetch :=
  fun i _ => if i = 0 then .getError else .decoded [klinesRow]

/-- Klines outcomes: every call succeeds; the response of the first goroutine has a mistyped
row between two valid rows, every other response is one valid row. -/
def mistypedKlines : ℕ → String → KlinesFetch :=
  fun i _ => if i = 0 then .decoded [klinesRow, mistypedRow, klinesRow] else .decoded [klinesRow]

/-- The Go comparison `x == y` on `float64`: false as soon as one side is NaN. -/
def Float64.eq : Float64 → Float64 → Bool
  | Float64.NaN, _ => false
  | _, Float64.NaN => false
  | Float64.Inf nx, Float64.Inf ny => nx = ny
  | Float64.Inf _, Float64.fin _ _ => false
  | Float64.fin _ _, Float64.Inf _ => false
  | Float64.fin m₁ e₁, Float64.fin m₂ e₂ =>
    decide (m₂ * 2 ^ (e₂ - min e₁ e₂).toNat = m₁ * 2 ^ (e₁ - min e₁ e₂).toNat)

/-- The position of a non-NaN `float64` on the extended rational line (NaN, which no
comparison orders, is sent to the bottom). -/
def Float64.rank : Float64 → WithBot (WithTop ℚ)
  | Float64.NaN => ⊥
  | Float64.Inf true => ⊥
  | Float64.Inf false => ((⊤ : WithTop ℚ) : WithBot (WithTop ℚ))
  | Float64.fin m e => (((m * 2 ^ e : ℚ) : WithTop ℚ) : WithBot (WithTop ℚ))

/-- The volume `getTop50SymbolsByQuoteVolume` sorts a ticker by: the value `ParseFloat`
returns for its `QuoteVolume`, the error discarded. -/
def quoteVolume (t : TickerData) : Float64 := (ParseFloat t.QuoteVolume).1

/-- The volume as the specification reads it: the parsed value, an unparsable string
counting as 0. -/
def claimedVolume (t : TickerData) : Float64 :=
  match ParseFloat t.QuoteVolume with
  | (v, none) => v
  | (_, some _) => Float64.fin 0 0

/-- Thirteen tickers, all of volume 1 but the last, of volume 2. -/
def tickers13 : List TickerData :=
  [⟨"S0", "1"⟩, ⟨"S1", "1"⟩, ⟨"S2", "1"⟩, ⟨"S3", "1"⟩, ⟨"S4", "1"⟩, ⟨"S5", "1"⟩, ⟨"S6", "1"⟩,
   ⟨"S7", "1"⟩, ⟨"S8", "1"⟩, ⟨"S9", "1"⟩, ⟨"S10", "1"⟩, ⟨"S11", "1"⟩, ⟨"S12", "2"⟩]

section OrderVocabulary

variable {α : Type} [Inhabited α] {K : Type} [LinearOrder K]

/-- On the elements the sort reads from `data`, `less` is the strict order of the keys. -/
def Ordered (less : α → α → Bool) (key : α → K) (data : List α) : Prop :=
  ∀ i j, less (elem data i) (elem data j) = true ↔ key (elem data i) < key (elem data j)

/-- The range `data[a:b]` is in non-decreasing key order (stated on neighbours). -/
def SortedOn (key : α → K) (data : List α) (a b : ℕ) : Prop :=
  ∀ k, a ≤ k → k + 1 < b → key (elem data k) ≤ key (elem data (k + 1))

/-- The slice `data'` has the length of `data`, differs from it inside `[a, b)` only, and
every element of `data'[a:b]` is an element of `data[a:b]`. -/
def Within (a b : ℕ) (data data' : List α) : Prop :=
  data'.length = data.length ∧
  (∀ k, k < a ∨ b ≤ k → elem data' k = elem data k) ∧
  (∀ k, a ≤ k → k < b → ∃ k', a ≤ k' ∧ k' < b ∧ elem data' k = elem data k')

/-- The element before the range, if there is one, is a lower bound of `data[a:b]`. -/
def LowerBound (key : α → K) (data : List α) (a b : ℕ) : Prop :=
  0 < a → ∀ k, a ≤ k → k < b → key (elem data (a - 1)) ≤ key (elem data k)

end OrderVocabulary

/-- Max-heap order of the keys in the heap laid out from index `first`: every node `c < hi`
whose parent `(c - 1) / 2` is at least `lo` and is not `root` has a key at most its parent's
(`root = hi` excepts no node). -/
def HeapExcept {α : Type} [Inhabited α] {K : Type} [LinearOrder K] (key : α → K)
    (data : List α) (first lo hi root : ℕ) : Prop :=
  ∀ c, 1 ≤ c → c < hi → lo ≤ (c - 1) / 2 → (c - 1) / 2 ≠ root →
    key (elem data (first + c)) ≤ key (elem data (first + (c - 1) / 2))

/-! ## Swaps: permutation and frame lemmas -/

section SwapLemmas

variable {α : Type} [Inhabited α]

theorem length_swapAt (data : List α) (i j : ℕ) : (swapAt data i j).length = data.length := by
  unfold swapAt
  split <;> simp

theorem elem_swapAt {data : List α} {i j : ℕ} (hi : i < data.length) (hj : j < data.length)
    (k : ℕ) :
    elem (swapAt data i j) k =
      if k = j then elem data i else if k = i then elem data j else elem data k := by
  unfold swapAt
  rw [if_pos ⟨hi, hj⟩]
  unfold elem
  simp only [List.getD_eq_getElem?_getD, List.getElem?_set, List.length_set]
  by_cases hkj : k = j
  · subst hkj
    simp [hj]
  · by_cases hki : k = i
    · subst hki
      simp [hi, hkj, Ne.symm hkj]
    · simp [hkj, hki, Ne.symm hkj, Ne.symm hki]

theorem perm_cons_set (x : α) : ∀ (l : List α) (j : ℕ), j < l.length →
    (l.getD j default :: l.set j x).Perm (x :: l)
  | [], _, h => by simp at h
  | a :: t, 0, _ => by
    simpa using List.Perm.swap x a t
  | a :: t, j + 1, h => by
    have ih := perm_cons_set x t j (by simpa using h)
    simp only [List.getD_cons_succ, List.set_cons_succ]
    exact (List.Perm.swap _ _ _).trans (((List.Perm.cons a ih)).trans (List.Perm.swap _ _ _))

theorem perm_set_set : ∀ (l : List α) (i j : ℕ), i < l.length → j < l.length →
    ((l.set i (l.getD j default)).set j (l.getD i default)).Perm l
  | [], _, _, h, _ => by simp at h
  | a :: t, 0, 0, _, _ => by simp
  | a :: t, 0, j + 1, _, hj => by
    simpa using perm_cons_set a t j (by simpa using hj)
  | a :: t, i + 1, 0, hi, _ => by
    simpa using perm_cons_set a t i (by simpa using hi)
  | a :: t, i + 1, j + 1, hi, hj => by
    simpa using perm_set_set t i j (by simpa using hi) (by simpa using hj)

theorem swapAt_perm (data : List α) (i j : ℕ) : (swapAt data i j).Perm data := by
  unfold swapAt
  split
  · next h => exact perm_set_set data i j h.1 h.2
  · exact List.Perm.refl _

end SwapLemmas

/-! ## `sort.Slice` permutes the slice -/

section PermLemmas
variable {α : Type} [Inhabited α] (less : α → α → Bool)

theorem insertionSort_inner_perm (a : ℕ) : ∀ (j : ℕ) (data : List α),
    (insertionSort_inner less a j data).Perm data
  | 0, data => List.Perm.refl _
  | j + 1, data => by
    unfold insertionSort_inner
    split
    · exact (insertionSort_inner_perm a j _).trans (swapAt_perm _ _ _)
    · exact List.Perm.refl _

theorem insertionSort_outer_perm (a : ℕ) : ∀ (n i : ℕ) (data : List α),
    (insertionSort_outer less a n i data).Perm data
  | 0, _, data => List.Perm.refl _
  | n + 1, i, data => by
    unfold insertionSort_outer
    exact (insertionSort_outer_perm a n _ _).trans (insertionSort_inner_perm less a _ _)

theorem insertionSort_func_perm (data : List α) (a b : ℕ) :
    (insertionSort_func less data a b).Perm data :=
  insertionSort_outer_perm less a _ _ _

theorem siftDown_func_perm (hi first : ℕ) : ∀ (n : ℕ) (data : List α) (root : ℕ),
    (siftDown_func less hi first n data root).Perm data
  | 0, data, _ => List.Perm.refl _
  | n + 1, data, root => by
    unfold siftDown_func
    simp only
    split
    · exact List.Perm.refl _
    · generalize (if (decide (2 * root + 1 + 1 < hi) &&
          less (elem data (first + (2 * root + 1))) (elem data (first + (2 * root + 1) + 1))) = true
          then 2 * root + 1 + 1 else 2 * root + 1) = child
      split
      · exact List.Perm.refl _
      · exact (siftDown_func_perm hi first n _ _).trans (swapAt_perm _ _ _)

theorem heapSort_build_perm (hi first : ℕ) : ∀ (i : ℕ) (data : List α),
    (heapSort_build less hi first i data).Perm data
  | 0, data => siftDown_func_perm less hi first _ _ _
  | i + 1, data => by
    unfold heapSort_build
    exact (heapSort_build_perm hi first i _).trans (siftDown_func_perm less hi first _ _ _)

theorem heapSort_pop_perm (first : ℕ) : ∀ (i : ℕ) (data : List α),
    (heapSort_pop less first i data).Perm data
  | 0, data => by
    unfold heapSort_pop
    exact (siftDown_func_perm less _ _ _ _ _).trans (swapAt_perm _ _ _)
  | i + 1, data => by
    unfold heapSort_pop
    exact (heapSort_pop_perm first i _).trans
      ((siftDown_func_perm less _ _ _ _ _).trans (swapAt_perm _ _ _))

theorem heapSort_func_perm (data : List α) (a b : ℕ) :
    (heapSort_func less data a b).Perm data := by
  unfold heapSort_func
  simp only
  split
  · exact heapSort_build_perm less _ _ _ _
  · exact (heapSort_pop_perm less _ _ _).trans (heapSort_build_perm less _ _ _ _)

theorem partition_loop_perm (a : ℕ) : ∀ (n : ℕ) (data : List α) (i j : ℕ),
    (partition_loop less a n data i j).1.Perm data
  | 0, data, _, _ => List.Perm.refl _
  | n + 1, data, i, j => by
    unfold partition_loop
    simp only
    split
    · exact List.Perm.refl _
    · exact (partition_loop_perm a n _ _ _).trans (swapAt_perm _ _ _)

theorem partition_func_perm (data : List α) (a b pivot : ℕ) :
    (partition_func less data a b pivot).1.Perm data := by
  unfold partition_func
  simp only
  split
  · exact (swapAt_perm _ _ _).trans (swapAt_perm _ _ _)
  · exact (swapAt_perm _ _ _).trans ((partition_loop_perm less a _ _ _ _).trans
      ((swapAt_perm _ _ _).trans (swapAt_perm _ _ _)))

theorem partitionEqual_loop_perm (a : ℕ) : ∀ (n : ℕ) (data : List α) (i j : ℕ),
    (partitionEqual_loop less a n data i j).1.Perm data
  | 0, data, _, _ => List.Perm.refl _
  | n + 1, data, i, j => by
    unfold partitionEqual_loop
    simp only
    split
    · exact List.Perm.refl _
    · exact (partitionEqual_loop_perm a n _ _ _).trans (swapAt_perm _ _ _)

theorem partitionEqual_func_perm (data : List α) (a b pivot : ℕ) :
    (partitionEqual_func less data a b pivot).1.Perm data := by
  unfold partitionEqual_func
  exact (partitionEqual_loop_perm less a _ _ _ _).trans (swapAt_perm _ _ _)

theorem partialInsertionSort_left_perm : ∀ (j : ℕ) (data : List α),
    (partialInsertionSort_left less j data).Perm data
  | 0, data => List.Perm.refl _
  | j + 1, data => by
    unfold partialInsertionSort_left
    split
    · exact List.Perm.refl _
    · exact (partialInsertionSort_left_perm j _).trans (swapAt_perm _ _ _)

theorem partialInsertionSort_right_perm : ∀ (n j : ℕ) (data : List α),
    (partialInsertionSort_right less n j data).Perm data
  | 0, _, data => List.Perm.refl _
  | n + 1, j, data => by
    unfold partialInsertionSort_right
    split
    · exact List.Perm.refl _
    · exact (partialInsertionSort_right_perm n _ _).trans (swapAt_perm _ _ _)

theorem partialInsertionSort_steps_perm (a b : ℕ) : ∀ (n : ℕ) (data : List α) (i : ℕ),
    (partialInsertionSort_steps less a b n data i).1.Perm data
  | 0, data, _ => List.Perm.refl _
  | n + 1, data, i => by
    unfold partialInsertionSort_steps
    simp only
    split
    · exact List.Perm.refl _
    · split
      · exact List.Perm.refl _
      · refine (partialInsertionSort_steps_perm a b n _ _).trans ?_
        have h₁ := swapAt_perm data
          (partialInsertionSort_scan less data b (b - i) i)
          (partialInsertionSort_scan less data b (b - i) i - 1)
        split
        · split
          · exact (partialInsertionSort_right_perm less _ _ _).trans
              ((partialInsertionSort_left_perm less _ _).trans h₁)
          · exact (partialInsertionSort_right_perm less _ _ _).trans h₁
        · split
          · exact (partialInsertionSort_left_perm less _ _).trans h₁
          · exact h₁

theorem partialInsertionSort_func_perm (data : List α) (a b : ℕ) :
    (partialInsertionSort_func less data a b).1.Perm data :=
  partialInsertionSort_steps_perm less a b _ _ _

theorem breakPatterns_loop_perm (a length modulus idx : ℕ) : ∀ (n i random : ℕ) (data : List α),
    (breakPatterns_loop a length modulus idx n i random data).Perm data
  | 0, _, _, data => List.Perm.refl _
  | n + 1, i, random, data => by
    unfold breakPatterns_loop
    exact (breakPatterns_loop_perm a length modulus idx n _ _ _).trans (swapAt_perm _ _ _)

theorem breakPatterns_func_perm (data : List α) (a b : ℕ) :
    (breakPatterns_func data a b).Perm data := by
  unfold breakPatterns_func
  simp only
  split
  · exact breakPatterns_loop_perm _ _ _ _ _ _ _ _
  · exact List.Perm.refl _

theorem reverseRange_loop_perm : ∀ (n i j : ℕ) (data : List α),
    (reverseRange_loop n i j data).Perm data
  | 0, _, _, data => List.Perm.refl _
  | n + 1, i, j, data => by
    unfold reverseRange_loop
    split
    · exact (reverseRange_loop_perm n _ _ _).trans (swapAt_perm _ _ _)
    · exact List.Perm.refl _

theorem reverseRange_func_perm (data : List α) (a b : ℕ) :
    (reverseRange_func data a b).Perm data :=
  reverseRange_loop_perm _ _ _ _

theorem pdqsort_loop_perm : ∀ (n : ℕ) (data : List α) (a b limit : ℕ) (wb wp : Bool),
    (pdqsort_loop less n data a b limit wb wp).Perm data
  | 0, data, _, _, _, _, _ => List.Perm.refl _
  | n + 1, data, a, b, limit, wb, wp => by
    unfold pdqsort_loop
    simp only
    have h₁ : (if (!wb) = true then breakPatterns_func data a b else data).Perm data := by
      split
      · exact breakPatterns_func_perm _ _ _
      · exact List.Perm.refl _
    generalize (if (!wb) = true then breakPatterns_func data a b else data) = d₁ at h₁ ⊢
    have h₂ : (if (choosePivot_func less d₁ a b).2 = sortedHint.decreasingHint
        then reverseRange_func d₁ a b else d₁).Perm data := by
      split
      · exact (reverseRange_func_perm _ _ _).trans h₁
      · exact h₁
    generalize (if (choosePivot_func less d₁ a b).2 = sortedHint.decreasingHint
        then reverseRange_func d₁ a b else d₁) = d₂ at h₂ ⊢
    generalize (if (choosePivot_func less d₁ a b).2 = sortedHint.decreasingHint
        then b - 1 - ((choosePivot_func less d₁ a b).1 - a)
        else (choosePivot_func less d₁ a b).1) = pivot
    generalize (if (choosePivot_func less d₁ a b).2 = sortedHint.decreasingHint
        then sortedHint.increasingHint else (choosePivot_func less d₁ a b).2) = hint
    have h₃ : (if (wb && wp && decide (hint = sortedHint.increasingHint)) = true
        then partialInsertionSort_func less d₂ a b else (d₂, false)).1.Perm data := by
      split
      · exact (partialInsertionSort_func_perm less _ _ _).trans h₂
      · exact h₂
    generalize (if (wb && wp && decide (hint = sortedHint.increasingHint)) = true
        then partialInsertionSort_func less d₂ a b else (d₂, false)) = pis at h₃ ⊢
    split
    · exact insertionSort_func_perm less _ _ _
    · split
      · exact heapSort_func_perm less _ _ _
      · split
        · exact h₃
        · split
          · exact (pdqsort_loop_perm n _ _ _ _ _ _).trans
              ((partitionEqual_func_perm less _ _ _ _).trans h₃)
          · split
            · exact (pdqsort_loop_perm n _ _ _ _ _ _).trans
                ((pdqsort_loop_perm n _ _ _ _ _ _).trans
                  ((partition_func_perm less _ _ _ _).trans h₃))
            · exact (pdqsort_loop_perm n _ _ _ _ _ _).trans
                ((pdqsort_loop_perm n _ _ _ _ _ _).trans
                  ((partition_func_perm less _ _ _ _).trans h₃))

theorem Slice_perm (x : List α) : (Slice x less).Perm x :=
  pdqsort_loop_perm less _ _ _ _ _ _ _

end PermLemmas
/-! ## Ranking: count, origin and duplicates of the output; the `USDT` filter -/

theorem getTop50_loop_eq : ∀ (l : List TickerData) (i : ℕ) (acc : List String),
    getTop50_loop l i acc = acc ++ (l.take (50 - i)).map TickerData.Symbol
  | [], _, acc => by simp [getTop50_loop]
  | t :: rest, i, acc => by
    unfold getTop50_loop
    by_cases h : i ≥ 50
    · simp [h, Nat.sub_eq_zero_of_le h]
    · rw [if_neg h, getTop50_loop_eq rest (i + 1)]
      have : 50 - i = (50 - (i + 1)) + 1 := by omega
      rw [this]
      simp

theorem getTop50_eq (tickerData : List TickerData) :
    getTop50SymbolsByQuoteVolume tickerData =
      ((sortByQuoteVolume tickerData).take 50).map TickerData.Symbol := by
  simp [getTop50SymbolsByQuoteVolume, getTop50_loop_eq]

theorem sortByQuoteVolume_perm (tickerData : List TickerData) :
    (sortByQuoteVolume tickerData).Perm tickerData :=
  Slice_perm _ _

/-- C1. For a ticker list of length `n`, `getTop50SymbolsByQuoteVolume` returns exactly
`min n 50` symbols, which form a sub-multiset of the input symbols (each output symbol is
the symbol of a distinct input ticker); for `n ≤ 50` the output is a permutation of all the
input symbols, and for the empty list it is empty. -/
theorem C1_top50_count_and_origin (tickerData : List TickerData) :
    (getTop50SymbolsByQuoteVolume tickerData).length = min tickerData.length 50 ∧
    (getTop50SymbolsByQuoteVolume tickerData).Subperm (tickerData.map TickerData.Symbol) ∧
    (tickerData.length ≤ 50 →
      (getTop50SymbolsByQuoteVolume tickerData).Perm (tickerData.map TickerData.Symbol)) ∧
    (getTop50SymbolsByQuoteVolume tickerData).length ≤ 50 ∧
    getTop50SymbolsByQuoteVolume [] = [] := by
  have hp := sortByQuoteVolume_perm tickerData
  have hlen : (sortByQuoteVolume tickerData).length = tickerData.length := hp.length_eq
  refine ⟨?_, ?_, ?_, ?_, ?_⟩
  · rw [getTop50_eq]
    simp [hlen, Nat.min_comm]
  · rw [getTop50_eq]
    exact ((List.take_sublist _ _).map _).subperm.trans (hp.map _).subperm
  · intro h
    rw [getTop50_eq, List.take_of_length_le (by omega)]
    exact hp.map _
  · rw [getTop50_eq]
    simp [hlen]
  · rfl

theorem C1_top50_witness :
    ([⟨"A", "1"⟩, ⟨"B", "3"⟩, ⟨"C", "2"⟩] : List TickerData).length ≤ 50 ∧
    getTop50SymbolsByQuoteVolume [⟨"A", "1"⟩, ⟨"B", "3"⟩, ⟨"C", "2"⟩] = ["B", "C", "A"] ∧
    (getTop50SymbolsByQuoteVolume [⟨"A", "1"⟩, ⟨"B", "3"⟩, ⟨"C", "2"⟩]).Perm
      (([⟨"A", "1"⟩, ⟨"B", "3"⟩, ⟨"C", "2"⟩] : List TickerData).map TickerData.Symbol) :=
  ⟨by decide, by decide,
    (C1_top50_count_and_origin [⟨"A", "1"⟩, ⟨"B", "3"⟩, ⟨"C", "2"⟩]).2.2.1 (by decide)⟩

/-- C2, counterexample. Two input tickers with the same symbol `"A"` give the output
`["A", "A"]`, in which `"A"` stands at two positions. -/
theorem C2_duplicates_counterexample :
    getTop50SymbolsByQuoteVolume [⟨"A", "1"⟩, ⟨"A", "2"⟩] = ["A", "A"] ∧
    ¬ (getTop50SymbolsByQuoteVolume [⟨"A", "1"⟩, ⟨"A", "2"⟩]).Nodup := by
  decide

/-- C2, amended. When the symbols of the input tickers are pairwise distinct, the list
returned by `getTop50SymbolsByQuoteVolume` contains no duplicates. -/
theorem C2_no_duplicates_of_distinct_symbols (tickerData : List TickerData)
    (h : (tickerData.map TickerData.Symbol).Nodup) :
    (getTop50SymbolsByQuoteVolume tickerData).Nodup := by
  rw [getTop50_eq]
  have hs : ((sortByQuoteVolume tickerData).map TickerData.Symbol).Nodup :=
    ((sortByQuoteVolume_perm tickerData).map _).nodup_iff.mpr h
  exact hs.sublist ((List.take_sublist _ _).map _)

theorem C2_no_duplicates_witness :
    ([(⟨"A", "1"⟩ : TickerData), ⟨"B", "2"⟩].map TickerData.Symbol).Nodup ∧
    (getTop50SymbolsByQuoteVolume [⟨"A", "1"⟩, ⟨"B", "2"⟩]).Nodup :=
  ⟨by decide, C2_no_duplicates_of_distinct_symbols _ (by decide)⟩

theorem isUSDTPair_eq (t : TickerData) :
    isUSDTPair t = .ok (decide (bytes "USDT" <:+ bytes t.Symbol)) := by
  unfold isUSDTPair
  simp only
  have h4 : (bytes "USDT").length = 4 := by decide
  by_cases h : (bytes t.Symbol).length ≥ 4
  · rw [if_pos h]
    have hs : sliceFrom (bytes t.Symbol) (((bytes t.Symbol).length : ℤ) - 4) =
        .ok ((bytes t.Symbol).drop ((bytes t.Symbol).length - 4)) := by
      unfold sliceFrom
      rw [if_pos (by omega)]
      congr 2
      omega
    rw [hs]
    show Except.ok _ = Except.ok _
    congr 1
    rw [Bool.eq_iff_iff]
    simp only [beq_iff_eq, decide_eq_true_eq]
    constructor
    · intro heq
      rw [← heq]
      exact List.drop_suffix _ _
    · intro hsuf
      obtain ⟨p, hp⟩ := hsuf
      have hl : (bytes t.Symbol).length = p.length + 4 := by rw [← hp]; simp [h4]
      rw [hl, ← hp]
      simp
  · rw [if_neg h]
    show Except.ok _ = Except.ok _
    congr 1
    symm
    rw [decide_eq_false_iff_not]
    intro hsuf
    have := hsuf.length_le
    omega

theorem fetch24hTickerData_filter_eq : ∀ (l acc : List TickerData),
    fetch24hTickerData_filter l acc =
      .ok (acc ++ l.filter (fun t => decide (bytes "USDT" <:+ bytes t.Symbol)))
  | [], acc => by simp [fetch24hTickerData_filter, pure, Except.pure]
  | t :: rest, acc => by
    unfold fetch24hTickerData_filter
    rw [isUSDTPair_eq]
    by_cases h : bytes "USDT" <:+ bytes t.Symbol
    · simp [h, bind, Except.bind, fetch24hTickerData_filter_eq rest]
    · simp [h, bind, Except.bind, fetch24hTickerData_filter_eq rest]

/-- C5. The filter step of `fetch24hTickerData` never indexes out of range and returns the
input tickers whose symbol has the byte string `"USDT"` as a suffix (exact, case-sensitive
match of the last four bytes), in their input order; a ticker is kept if and only if its
symbol has that suffix; a symbol shorter than four bytes is dropped; and the tickers
`BTCUSDT`, `ETHBTC` of scenario 1 filter to `BTCUSDT` alone, which ranks as `["BTCUSDT"]`. -/
theorem C5_filter_keeps_exactly_USDT_suffix (tickerData : List TickerData) :
    fetch24hTickerData_filter tickerData [] =
      .ok (tickerData.filter (fun t => decide (bytes "USDT" <:+ bytes t.Symbol))) ∧
    (∃ kept, fetch24hTickerData_filter tickerData [] = .ok kept ∧ kept.Sublist tickerData ∧
      ∀ t, t ∈ kept ↔ t ∈ tickerData ∧ bytes "USDT" <:+ bytes t.Symbol) ∧
    (∀ t : TickerData, (bytes t.Symbol).length < 4 → isUSDTPair t = .ok false) ∧
    fetch24hTickerData (.decoded [⟨"BTCUSDT", "1000000"⟩, ⟨"ETHBTC", "500"⟩]) =
      .ok (some [⟨"BTCUSDT", "1000000"⟩]) ∧
    getTop50SymbolsByQuoteVolume [⟨"BTCUSDT", "1000000"⟩] = ["BTCUSDT"] ∧
    (bytes "USDT" <:+ bytes "BTCUSDT") ∧ ¬ (bytes "USDT" <:+ bytes "btcusdt") := by
  have h := fetch24hTickerData_filter_eq tickerData []
  simp only [List.nil_append] at h
  refine ⟨h, ⟨_, h, List.filter_sublist _, ?_⟩, ?_, ?_, ?_, ?_, ?_⟩
  · intro t
    simp [List.mem_filter]
  · intro t ht
    rw [isUSDTPair_eq]
    show Except.ok _ = Except.ok _
    congr 1
    rw [decide_eq_false_iff_not]
    intro hsuf
    have := hsuf.length_le
    have h4 : (bytes "USDT").length = 4 := by decide
    omega
  · rfl
  · decide
  · decide
  · decide

theorem C5_filter_witness :
    (bytes (TickerData.mk "BTC" "7").Symbol).length < 4 ∧
    isUSDTPair ⟨"BTC", "7"⟩ = .ok false ∧
    fetch24hTickerData_filter [⟨"BTC", "7"⟩, ⟨"usdt", "1"⟩, ⟨"ETHUSDT", "2"⟩, ⟨"USDT", "3"⟩] [] =
      .ok [⟨"ETHUSDT", "2"⟩, ⟨"USDT", "3"⟩] :=
  ⟨by decide,
    (C5_filter_keeps_exactly_USDT_suffix []).2.2.1 ⟨"BTC", "7"⟩ (by decide), rfl⟩

/-! ## `float64` comparisons on the extended rational line -/

theorem Float64.scale (m e μ : ℤ) (h : μ ≤ e) :
    (m : ℚ) * 2 ^ e = ((m * 2 ^ (e - μ).toNat : ℤ) : ℚ) * (2 : ℚ) ^ μ := by
  push_cast
  rw [mul_assoc, ← zpow_natCast, ← zpow_add₀ (two_ne_zero)]
  congr 2
  rw [Int.toNat_of_nonneg (by omega)]
  omega

theorem Float64.fin_lt_iff (m₁ e₁ m₂ e₂ : ℤ) :
    m₂ * 2 ^ (e₂ - min e₁ e₂).toNat < m₁ * 2 ^ (e₁ - min e₁ e₂).toNat ↔
      ((m₂ : ℚ) * 2 ^ e₂ < (m₁ : ℚ) * 2 ^ e₁) := by
  rw [Float64.scale m₂ e₂ (min e₁ e₂) (min_le_right _ _),
    Float64.scale m₁ e₁ (min e₁ e₂) (min_le_left _ _)]
  have hpos : (0 : ℚ) < 2 ^ (min e₁ e₂) := by positivity
  rw [mul_lt_mul_right hpos, Int.cast_lt]

theorem Float64.fin_eq_iff (m₁ e₁ m₂ e₂ : ℤ) :
    m₂ * 2 ^ (e₂ - min e₁ e₂).toNat = m₁ * 2 ^ (e₁ - min e₁ e₂).toNat ↔
      ((m₂ : ℚ) * 2 ^ e₂ = (m₁ : ℚ) * 2 ^ e₁) := by
  rw [Float64.scale m₂ e₂ (min e₁ e₂) (min_le_right _ _),
    Float64.scale m₁ e₁ (min e₁ e₂) (min_le_left _ _)]
  have hpos : (0 : ℚ) < 2 ^ (min e₁ e₂) := by positivity
  rw [mul_left_inj' hpos.ne', Int.cast_inj]

theorem Float64.fin_le_iff (m₁ e₁ m₂ e₂ : ℤ) :
    m₂ * 2 ^ (e₂ - min e₁ e₂).toNat ≤ m₁ * 2 ^ (e₁ - min e₁ e₂).toNat ↔
      ((m₂ : ℚ) * 2 ^ e₂ ≤ (m₁ : ℚ) * 2 ^ e₁) := by
  rw [Float64.scale m₂ e₂ (min e₁ e₂) (min_le_right _ _),
    Float64.scale m₁ e₁ (min e₁ e₂) (min_le_left _ _)]
  have hpos : (0 : ℚ) < 2 ^ (min e₁ e₂) := by positivity
  rw [mul_le_mul_right hpos, Int.cast_le]

theorem Float64.gt_iff_of_not_isNaN {x y : Float64} (hx : x.isNaN = false)
    (hy : y.isNaN = false) : x.gt y = true ↔ y.rank < x.rank := by
  cases x with
  | NaN => simp [Float64.isNaN] at hx
  | Inf nx =>
    cases y with
    | NaN => simp [Float64.isNaN] at hy
    | Inf ny => cases nx <;> cases ny <;> simp [Float64.gt, Float64.rank]
    | fin m e =>
      cases nx
      · simp only [Float64.gt, Float64.rank, decide_True, true_iff]
        exact WithBot.coe_lt_coe.mpr (WithTop.coe_lt_top _)
      · simp only [Float64.gt, Float64.rank, not_lt_bot, iff_false]
        simp
  | fin m₁ e₁ =>
    cases y with
    | NaN => simp [Float64.isNaN] at hy
    | Inf ny =>
      cases ny
      · simp only [Float64.gt, Float64.rank, WithBot.coe_lt_coe, not_top_lt, iff_false]
        simp
      · simp only [Float64.gt, Float64.rank, decide_True, true_iff]
        exact WithBot.bot_lt_coe _
    | fin m₂ e₂ =>
      simp only [Float64.gt, Float64.rank, decide_eq_true_eq, WithBot.coe_lt_coe,
        WithTop.coe_lt_coe]
      exact Float64.fin_lt_iff m₁ e₁ m₂ e₂

theorem Float64.ge_iff_of_not_isNaN {x y : Float64} (hx : x.isNaN = false)
    (hy : y.isNaN = false) : x.ge y = true ↔ y.rank ≤ x.rank := by
  cases x with
  | NaN => simp [Float64.isNaN] at hx
  | Inf nx =>
    cases y with
    | NaN => simp [Float64.isNaN] at hy
    | Inf ny => cases nx <;> cases ny <;> simp [Float64.ge, Float64.rank]
    | fin m e =>
      cases nx
      · simp only [Float64.ge, Float64.rank, decide_True, true_iff]
        exact WithBot.coe_le_coe.mpr le_top
      · simp only [Float64.ge, Float64.rank, le_bot_iff, WithBot.coe_ne_bot, iff_false]
        simp
  | fin m₁ e₁ =>
    cases y with
    | NaN => simp [Float64.isNaN] at hy
    | Inf ny =>
      cases ny
      · simp only [Float64.ge, Float64.rank, WithBot.coe_le_coe, top_le_iff,
          WithTop.coe_ne_top, iff_false]
        simp
      · simp only [Float64.ge, Float64.rank, decide_True, true_iff]
        exact bot_le
    | fin m₂ e₂ =>
      simp only [Float64.ge, Float64.rank, decide_eq_true_eq, WithBot.coe_le_coe,
        WithTop.coe_le_coe]
      exact Float64.fin_le_iff m₁ e₁ m₂ e₂

theorem Float64.gt_not_isNaN {x y : Float64} (h : x.gt y = true) :
    x.isNaN = false ∧ y.isNaN = false := by
  cases x <;> cases y <;> simp_all [Float64.gt, Float64.isNaN]

theorem Float64.eq_rank {x v : Float64} (h : x.eq v = true) :
    x.isNaN = false ∧ v.isNaN = false ∧ x.rank = v.rank := by
  cases x with
  | NaN => simp [Float64.eq] at h
  | Inf nx =>
    cases v with
    | NaN => simp [Float64.eq] at h
    | Inf nv => cases nx <;> cases nv <;> simp_all [Float64.eq, Float64.isNaN]
    | fin m e => simp [Float64.eq] at h
  | fin m₁ e₁ =>
    cases v with
    | NaN => simp [Float64.eq] at h
    | Inf nv => simp [Float64.eq] at h
    | fin m₂ e₂ =>
      simp only [Float64.eq, decide_eq_true_eq] at h
      refine ⟨rfl, rfl, ?_⟩
      simp only [Float64.rank]
      rw [(Float64.fin_eq_iff m₁ e₁ m₂ e₂).mp h]

theorem Float64.gt_not_both_eq {x y v : Float64} (h : x.gt y = true) :
    ¬ (y.eq v = true ∧ x.eq v = true) := by
  rintro ⟨hy, hx⟩
  obtain ⟨hxn, hyn⟩ := Float64.gt_not_isNaN h
  have hlt := (Float64.gt_iff_of_not_isNaN hxn hyn).mp h
  rw [(Float64.eq_rank hy).2.2, (Float64.eq_rank hx).2.2] at hlt
  exact lt_irrefl _ hlt

/-! ## Insertion sort keeps equal elements in their order -/

section Stability

variable {α : Type} [Inhabited α] (less : α → α → Bool)

theorem swapAt_cons_succ (x : α) (t : List α) (i j : ℕ) :
    swapAt (x :: t) (i + 1) (j + 1) = x :: swapAt t i j := by
  unfold swapAt
  by_cases h : i < t.length ∧ j < t.length
  · have h' : i + 1 < (x :: t).length ∧ j + 1 < (x :: t).length := by
      simpa using h
    rw [if_pos h, if_pos h']
    simp [elem]
  · have h' : ¬ (i + 1 < (x :: t).length ∧ j + 1 < (x :: t).length) := by
      simpa using h
    rw [if_neg h, if_neg h']

theorem filter_swapAt_adjacent (p : α → Bool) : ∀ (data : List α) (j : ℕ),
    ¬ (p (elem data j) = true ∧ p (elem data (j + 1)) = true) →
    (swapAt data (j + 1) j).filter p = data.filter p
  | [], _, _ => by simp [swapAt]
  | [x], j, _ => by simp [swapAt]
  | x :: y :: t, 0, h => by
    have hs : swapAt (x :: y :: t) 1 0 = y :: x :: t := by simp [swapAt, elem]
    rw [hs]
    have h' : ¬ (p x = true ∧ p y = true) := by simpa [elem] using h
    cases hx : p x <;> cases hy : p y <;> simp_all [List.filter_cons]
  | x :: y :: t, j + 1, h => by
    rw [swapAt_cons_succ]
    have h' : ¬ (p (elem (y :: t) j) = true ∧ p (elem (y :: t) (j + 1)) = true) := by
      simpa [elem] using h
    simp only [List.filter_cons, filter_swapAt_adjacent p (y :: t) j h']

theorem insertionSort_inner_filter (p : α → Bool)
    (hp : ∀ x y, less x y = true → ¬ (p y = true ∧ p x = true)) (a : ℕ) :
    ∀ (j : ℕ) (data : List α), (insertionSort_inner less a j data).filter p = data.filter p
  | 0, data => rfl
  | j + 1, data => by
    unfold insertionSort_inner
    split
    · next hc =>
      simp only [Bool.and_eq_true, decide_eq_true_eq] at hc
      rw [insertionSort_inner_filter p hp a j, filter_swapAt_adjacent p data j (hp _ _ hc.2)]
    · rfl

theorem insertionSort_outer_filter (p : α → Bool)
    (hp : ∀ x y, less x y = true → ¬ (p y = true ∧ p x = true)) (a : ℕ) :
    ∀ (n i : ℕ) (data : List α), (insertionSort_outer less a n i data).filter p = data.filter p
  | 0, _, data => rfl
  | n + 1, i, data => by
    unfold insertionSort_outer
    rw [insertionSort_outer_filter p hp a n, insertionSort_inner_filter less p hp]

theorem Slice_eq_insertionSort (x : List α) (h : x.length ≤ 12) :
    Slice x less = insertionSort_func less x 0 x.length := by
  unfold Slice pdqsort_func pdqsort_loop
  simp [h]

theorem Slice_filter_of_length_le (p : α → Bool)
    (hp : ∀ x y, less x y = true → ¬ (p y = true ∧ p x = true)) (x : List α)
    (h : x.length ≤ 12) : (Slice x less).filter p = x.filter p := by
  rw [Slice_eq_insertionSort less x h]
  exact insertionSort_outer_filter less p hp 0 _ _ _

end Stability

set_option maxRecDepth 100000 in
/-- C4, counterexample. On thirteen tickers `S0 … S12`, all of volume 1 except `S12` of
volume 2, the sort moves `S6` in front of `S0` and `S1` behind `S11`: the tickers of volume
1 do not keep their input order, in the sorted slice and in the output. -/
theorem C4_unstable_counterexample :
    getTop50SymbolsByQuoteVolume tickers13 =
      ["S12", "S6", "S2", "S3", "S4", "S5", "S0", "S7", "S8", "S9", "S10", "S11", "S1"] ∧
    (tickers13.filter (fun t => (quoteVolume t).eq (quoteVolume ⟨"S0", "1"⟩))).map
        TickerData.Symbol =
      ["S0", "S1", "S2", "S3", "S4", "S5", "S6", "S7", "S8", "S9", "S10", "S11"] ∧
    ((sortByQuoteVolume tickers13).filter
        (fun t => (quoteVolume t).eq (quoteVolume ⟨"S0", "1"⟩))).map TickerData.Symbol =
      ["S6", "S2", "S3", "S4", "S5", "S0", "S7", "S8", "S9", "S10", "S11", "S1"] ∧
    (sortByQuoteVolume tickers13).filter
        (fun t => (quoteVolume t).eq (quoteVolume ⟨"S0", "1"⟩)) ≠
      tickers13.filter (fun t => (quoteVolume t).eq (quoteVolume ⟨"S0", "1"⟩)) := by
  decide

/-- C4, amended. For every ticker list of at most 12 tickers (which `sort.Slice` sorts by
plain insertion) the ranking sort is stable: for every volume `v`, the tickers whose parsed
quote volume equals `v` stand in the sorted slice in their input order; all of them are
within the top 50, so the output lists their symbols in that order. -/
theorem C4_stable_up_to_12_tickers (tickerData : List TickerData)
    (h : tickerData.length ≤ 12) (v : Float64) :
    (sortByQuoteVolume tickerData).filter (fun t => (quoteVolume t).eq v) =
      tickerData.filter (fun t => (quoteVolume t).eq v) ∧
    getTop50SymbolsByQuoteVolume tickerData =
      (sortByQuoteVolume tickerData).map TickerData.Symbol := by
  constructor
  · refine Slice_filter_of_length_le lessByQuoteVolume _ ?_ tickerData h
    intro x y hxy
    exact Float64.gt_not_both_eq hxy
  · rw [getTop50_eq, List.take_of_length_le]
    rw [(sortByQuoteVolume_perm tickerData).length_eq]
    omega

theorem C4_stable_witness :
    ([⟨"A", "5"⟩, ⟨"B", "7"⟩, ⟨"C", "5"⟩] : List TickerData).length ≤ 12 ∧
    ((sortByQuoteVolume [⟨"A", "5"⟩, ⟨"B", "7"⟩, ⟨"C", "5"⟩]).filter
        (fun t => (quoteVolume t).eq (quoteVolume ⟨"A", "5"⟩)) =
      ([⟨"A", "5"⟩, ⟨"B", "7"⟩, ⟨"C", "5"⟩] : List TickerData).filter
        (fun t => (quoteVolume t).eq (quoteVolume ⟨"A", "5"⟩)) ∧
    getTop50SymbolsByQuoteVolume [⟨"A", "5"⟩, ⟨"B", "7"⟩, ⟨"C", "5"⟩] =
      (sortByQuoteVolume [⟨"A", "5"⟩, ⟨"B", "7"⟩, ⟨"C", "5"⟩]).map TickerData.Symbol) :=
  ⟨by decide, C4_stable_up_to_12_tickers _ (by decide) _⟩

/-! ## `sort.Slice` sorts: frames and insertion sort -/

section Frames

variable {α : Type} [Inhabited α] {K : Type} [LinearOrder K]

theorem SortedOn.le {key : α → K} {data : List α} {a b : ℕ} (h : SortedOn key data a b)
    {i j : ℕ} (hai : a ≤ i) (hij : i ≤ j) (hjb : j < b) :
    key (elem data i) ≤ key (elem data j) := by
  induction j with
  | zero =>
    have : i = 0 := by omega
    subst this
    exact le_refl _
  | succ j ih =>
    rcases Nat.eq_or_lt_of_le hij with rfl | hlt
    · exact le_refl _
    · exact (ih (by omega) (by omega)).trans (h j (by omega) hjb)

theorem SortedOn.of_le {key : α → K} {data : List α} {a b : ℕ} (h : b ≤ a + 1) :
    SortedOn key data a b := by
  intro k hk hkb
  omega

theorem SortedOn.restrict {key : α → K} {data : List α} {a b a' b' : ℕ}
    (h : SortedOn key data a b) (ha : a ≤ a') (hb : b' ≤ b) : SortedOn key data a' b' :=
  fun k hk hkb => h k (by omega) (by omega)

theorem Within.refl (a b : ℕ) (data : List α) : Within a b data data :=
  ⟨rfl, fun _ _ => rfl, fun k hk hkb => ⟨k, hk, hkb, rfl⟩⟩

theorem Within.trans {a b : ℕ} {d₁ d₂ d₃ : List α} (h₁ : Within a b d₁ d₂)
    (h₂ : Within a b d₂ d₃) : Within a b d₁ d₃ := by
  refine ⟨h₂.1.trans h₁.1, fun k hk => (h₂.2.1 k hk).trans (h₁.2.1 k hk), fun k hk hkb => ?_⟩
  obtain ⟨k₂, hk₂, hk₂b, he₂⟩ := h₂.2.2 k hk hkb
  obtain ⟨k₁, hk₁, hk₁b, he₁⟩ := h₁.2.2 k₂ hk₂ hk₂b
  exact ⟨k₁, hk₁, hk₁b, he₂.trans he₁⟩

theorem Within.mono {a b a' b' : ℕ} {d₁ d₂ : List α} (h : Within a b d₁ d₂)
    (ha : a' ≤ a) (hb : b ≤ b') : Within a' b' d₁ d₂ := by
  refine ⟨h.1, fun k hk => h.2.1 k (by omega), fun k hk hkb => ?_⟩
  by_cases hin : a ≤ k ∧ k < b
  · obtain ⟨k₁, hk₁, hk₁b, he⟩ := h.2.2 k hin.1 hin.2
    exact ⟨k₁, by omega, by omega, he⟩
  · exact ⟨k, hk, hkb, h.2.1 k (by omega)⟩

theorem Within.swap {a b : ℕ} {data : List α} {i j : ℕ} (hai : a ≤ i) (hib : i < b)
    (haj : a ≤ j) (hjb : j < b) (hb : b ≤ data.length) :
    Within a b data (swapAt data i j) := by
  have hi : i < data.length := by omega
  have hj : j < data.length := by omega
  refine ⟨length_swapAt _ _ _, fun k hk => ?_, fun k hk hkb => ?_⟩
  · rw [elem_swapAt hi hj, if_neg (by omega), if_neg (by omega)]
  · rw [elem_swapAt hi hj]
    split_ifs
    · exact ⟨i, hai, hib, rfl⟩
    · exact ⟨j, haj, hjb, rfl⟩
    · exact ⟨k, hk, hkb, rfl⟩

theorem Within.elem_mem {a b : ℕ} {d₁ d₂ : List α} (h : Within a b d₁ d₂) (k : ℕ) :
    ∃ k', elem d₂ k = elem d₁ k' := by
  by_cases hin : a ≤ k ∧ k < b
  · obtain ⟨k₁, -, -, he⟩ := h.2.2 k hin.1 hin.2
    exact ⟨k₁, he⟩
  · exact ⟨k, h.2.1 k (by omega)⟩

theorem Within.forall {a b : ℕ} {d₁ d₂ : List α} (h : Within a b d₁ d₂) {P : α → Prop}
    (hP : ∀ k, a ≤ k → k < b → P (elem d₁ k)) : ∀ k, a ≤ k → k < b → P (elem d₂ k) := by
  intro k hk hkb
  obtain ⟨k₁, hk₁, hk₁b, he⟩ := h.2.2 k hk hkb
  rw [he]
  exact hP k₁ hk₁ hk₁b

theorem Within.ordered {a b : ℕ} {d₁ d₂ : List α} (h : Within a b d₁ d₂)
    {less : α → α → Bool} {key : α → K} (hO : Ordered less key d₁) : Ordered less key d₂ := by
  intro i j
  obtain ⟨i₁, hi⟩ := h.elem_mem i
  obtain ⟨j₁, hj⟩ := h.elem_mem j
  rw [hi, hj]
  exact hO i₁ j₁

theorem Within.lowerBound {a b : ℕ} {d₁ d₂ : List α} (h : Within a b d₁ d₂) {key : α → K}
    (hL : LowerBound key d₁ a b) : LowerBound key d₂ a b := by
  intro ha k hk hkb
  rw [h.2.1 (a - 1) (by omega)]
  exact h.forall (P := fun x => key (elem d₁ (a - 1)) ≤ key x) (hL ha) k hk hkb

theorem Within.sortedOn_outside {a b : ℕ} {d₁ d₂ : List α} (h : Within a b d₁ d₂)
    {key : α → K} {a' b' : ℕ} (hs : SortedOn key d₁ a' b') (hd : b' ≤ a ∨ b ≤ a') :
    SortedOn key d₂ a' b' := by
  intro k hk hkb
  rw [h.2.1 k (by omega), h.2.1 (k + 1) (by omega)]
  exact hs k hk hkb

end Frames

section InsertionSort

variable {α : Type} [Inhabited α] {K : Type} [LinearOrder K]
  (less : α → α → Bool) (key : α → K)

theorem insertionSort_inner_spec (a i : ℕ) : ∀ (j : ℕ) (data : List α),
    Ordered less key data → i < data.length → a ≤ j → j ≤ i →
    SortedOn key data a j → SortedOn key data j (i + 1) →
    (a < j → j < i → key (elem data (j - 1)) ≤ key (elem data (j + 1))) →
    SortedOn key (insertionSort_inner less a j data) a (i + 1) ∧
      Within a (i + 1) data (insertionSort_inner less a j data)
  | 0, data, _, _, ha, _, _, h₂, _ => by
    have : a = 0 := by omega
    subst this
    exact ⟨h₂, Within.refl _ _ _⟩
  | j + 1, data, hO, hi, ha, hji, h₁, h₂, h₃ => by
    unfold insertionSort_inner
    by_cases hc : (decide (j + 1 > a) && less (elem data (j + 1)) (elem data j)) = true
    · rw [if_pos hc]
      simp only [Bool.and_eq_true, decide_eq_true_eq] at hc
      obtain ⟨haj, hlt⟩ := hc
      have hlt' := (hO _ _).mp hlt
      have hj1 : j + 1 < data.length := by omega
      have hj0 : j < data.length := by omega
      have hw : Within a (i + 1) data (swapAt data (j + 1) j) :=
        Within.swap (by omega) (by omega) (by omega) (by omega) (by omega)
      have hs := fun k => elem_swapAt hj1 hj0 k
      obtain ⟨ih₁, ih₂⟩ := insertionSort_inner_spec a i j (swapAt data (j + 1) j)
        (hw.ordered hO) (by rw [length_swapAt]; exact hi) (by omega) (by omega)
        (by
          intro k hk hkj
          rw [hs k, hs (k + 1), if_neg (by omega), if_neg (by omega), if_neg (by omega),
            if_neg (by omega)]
          exact h₁ k hk (by omega))
        (by
          intro k hk hki
          rw [hs k, hs (k + 1)]
          by_cases hkj : k = j
          · subst hkj
            rw [if_pos rfl, if_neg (by omega), if_pos rfl]
            exact le_of_lt hlt'
          · by_cases hkj1 : k = j + 1
            · subst hkj1
              rw [if_neg (by omega), if_pos rfl, if_neg (by omega), if_neg (by omega)]
              have := h₃ (by omega) (by omega)
              simpa using this
            · rw [if_neg hkj, if_neg hkj1, if_neg (by omega), if_neg (by omega)]
              exact h₂ k (by omega) hki)
        (by
          intro haj' hji'
          rw [hs (j - 1), hs (j + 1), if_neg (by omega), if_neg (by omega), if_neg (by omega),
            if_pos rfl]
          have := h₁ (j - 1) (by omega) (by omega)
          rwa [Nat.sub_add_cancel (by omega)] at this)
      exact ⟨ih₁, hw.trans ih₂⟩
    · rw [if_neg hc]
      refine ⟨fun k hk hki => ?_, Within.refl _ _ _⟩
      by_cases hkj : k + 1 < j + 1
      · exact h₁ k hk hkj
      · by_cases hkj' : k = j
        · subst hkj'
          simp only [Bool.and_eq_true, decide_eq_true_eq, not_and] at hc
          have hnl := hc (by omega)
          rw [hO] at hnl
          exact not_lt.mp hnl
        · exact h₂ k (by omega) hki

theorem insertionSort_outer_spec (a b : ℕ) : ∀ (n i : ℕ) (data : List α),
    Ordered less key data → b ≤ data.length → a < i → i + n = b →
    SortedOn key data a i →
    SortedOn key (insertionSort_outer less a n i data) a b ∧
      Within a b data (insertionSort_outer less a n i data)
  | 0, i, data, _, _, _, hin, hs => by
    have : i = b := by omega
    subst this
    exact ⟨hs, Within.refl _ _ _⟩
  | n + 1, i, data, hO, hb, hai, hin, hs => by
    unfold insertionSort_outer
    obtain ⟨h₁, h₂⟩ := insertionSort_inner_spec less key a i i data hO (by omega) (by omega)
      (le_refl _) hs (SortedOn.of_le (by omega)) (by omega)
    obtain ⟨ih₁, ih₂⟩ := insertionSort_outer_spec a b n (i + 1) _ (h₂.ordered hO)
      (by rw [h₂.1]; exact hb) (by omega) (by omega) h₁
    exact ⟨ih₁, (h₂.mono (le_refl _) (by omega)).trans ih₂⟩

theorem insertionSort_func_spec (data : List α) (a b : ℕ) (hO : Ordered less key data)
    (hb : b ≤ data.length) :
    SortedOn key (insertionSort_func less data a b) a b ∧
      Within a b data (insertionSort_func less data a b) := by
  unfold insertionSort_func
  by_cases hab : a + 1 ≤ b
  · exact insertionSort_outer_spec less key a b _ _ data hO hb (by omega) (by omega)
      (SortedOn.of_le (by omega))
  · have : b - (a + 1) = 0 := by omega
    rw [this]
    exact ⟨SortedOn.of_le (by omega), Within.refl _ _ _⟩

end InsertionSort

section Partition

variable {α : Type} [Inhabited α] {K : Type} [LinearOrder K]
  (less : α → α → Bool) (key : α → K)

theorem partition_scanUp_spec (data : List α) (hO : Ordered less key data) (a j : ℕ) :
    ∀ (n i : ℕ), j + 1 ≤ i + n →
    i ≤ partition_scanUp less data a j n i ∧
    (i ≤ j + 1 → partition_scanUp less data a j n i ≤ j + 1) ∧
    (∀ k, i ≤ k → k < partition_scanUp less data a j n i →
      key (elem data k) < key (elem data a)) ∧
    (partition_scanUp less data a j n i ≤ j →
      ¬ key (elem data (partition_scanUp less data a j n i)) < key (elem data a))
  | 0, i, hn => by
    unfold partition_scanUp
    exact ⟨le_refl _, fun h => h, fun k hk hki => by omega, fun h => by omega⟩
  | n + 1, i, hn => by
    unfold partition_scanUp
    by_cases hc : (decide (i ≤ j) && less (elem data i) (elem data a)) = true
    · rw [if_pos hc]
      simp only [Bool.and_eq_true, decide_eq_true_eq] at hc
      obtain ⟨h₁, h₂, h₃, h₄⟩ := partition_scanUp_spec data hO a j n (i + 1) (by omega)
      refine ⟨by omega, fun _ => h₂ (by omega), fun k hk hki => ?_, h₄⟩
      by_cases hki' : k = i
      · subst hki'
        exact (hO _ _).mp hc.2
      · exact h₃ k (by omega) hki
    · rw [if_neg hc]
      simp only [Bool.and_eq_true, decide_eq_true_eq, not_and] at hc
      refine ⟨le_refl _, fun h => h, fun k hk hki => by omega, fun h => ?_⟩
      have := hc h
      rwa [hO] at this

theorem partition_scanDown_spec (data : List α) (hO : Ordered less key data) (a i : ℕ)
    (hi : 1 ≤ i) : ∀ (j : ℕ),
    partition_scanDown less data a i j ≤ j ∧
    (i ≤ j + 1 → i ≤ partition_scanDown less data a i j + 1) ∧
    (∀ k, partition_scanDown less data a i j < k → k ≤ j →
      ¬ key (elem data k) < key (elem data a)) ∧
    (i ≤ partition_scanDown less data a i j →
      key (elem data (partition_scanDown less data a i j)) < key (elem data a))
  | 0 => by
    unfold partition_scanDown
    exact ⟨le_refl _, fun h => h, fun k hk hkj => by omega, fun h => by omega⟩
  | j + 1 => by
    unfold partition_scanDown
    by_cases hc : (decide (i ≤ j + 1) && !less (elem data (j + 1)) (elem data a)) = true
    · rw [if_pos hc]
      simp only [Bool.and_eq_true, decide_eq_true_eq, Bool.not_eq_true'] at hc
      obtain ⟨h₁, h₂, h₃, h₄⟩ := partition_scanDown_spec data hO a i hi j
      refine ⟨by omega, fun _ => ?_, fun k hk hkj => ?_, h₄⟩
      · by_cases hij : i ≤ j
        · exact h₂ (by omega)
        · omega
      · by_cases hkj' : k = j + 1
        · subst hkj'
          rw [← hO, hc.2]
          simp
        · exact h₃ k hk (by omega)
    · rw [if_neg hc]
      simp only [Bool.and_eq_true, decide_eq_true_eq, Bool.not_eq_true', not_and,
        Bool.not_eq_false] at hc
      refine ⟨le_refl _, fun h => h, fun k hk hkj => by omega, fun h => ?_⟩
      exact (hO _ _).mp (hc h)

theorem partition_loop_spec (a b : ℕ) : ∀ (n : ℕ) (data : List α) (i j : ℕ),
    Ordered less key data → b ≤ data.length → a < i → j < b → i ≤ j + 1 → j + 1 ≤ i + n →
    (∀ k, a < k → k < i → key (elem data k) < key (elem data a)) →
    (∀ k, j < k → k < b → ¬ key (elem data k) < key (elem data a)) →
    Within (a + 1) b data (partition_loop less a n data i j).1 ∧
    a ≤ (partition_loop less a n data i j).2 ∧ (partition_loop less a n data i j).2 < b ∧
    (∀ k, a < k → k ≤ (partition_loop less a n data i j).2 →
      key (elem (partition_loop less a n data i j).1 k) < key (elem data a)) ∧
    (∀ k, (partition_loop less a n data i j).2 < k → k < b →
      ¬ key (elem (partition_loop less a n data i j).1 k) < key (elem data a))
  | 0, data, i, j, _, _, hai, hjb, hij, hn, h₁, h₂ => by
    unfold partition_loop
    exact ⟨Within.refl _ _ _, by omega, hjb, fun k hk hkj => h₁ k hk (by omega), h₂⟩
  | n + 1, data, i, j, hO, hb, hai, hjb, hij, hn, h₁, h₂ => by
    unfold partition_loop
    simp only
    obtain ⟨u₁, u₂, u₃, u₄⟩ := partition_scanUp_spec less key data hO a j (j + 1 - i) i (by omega)
    generalize partition_scanUp less data a j (j + 1 - i) i = i' at u₁ u₂ u₃ u₄ ⊢
    obtain ⟨d₁, d₂, d₃, d₄⟩ := partition_scanDown_spec less key data hO a i' (by omega) j
    generalize partition_scanDown less data a i' j = j' at d₁ d₂ d₃ d₄ ⊢
    have hi'j : i' ≤ j + 1 := u₂ hij
    have hj'i : i' ≤ j' + 1 := d₂ hi'j
    have hlow : ∀ k, a < k → k < i' → key (elem data k) < key (elem data a) := by
      intro k hk hki
      by_cases hki' : k < i
      · exact h₁ k hk hki'
      · exact u₃ k (by omega) hki
    have hhigh : ∀ k, j' < k → k < b → ¬ key (elem data k) < key (elem data a) := by
      intro k hk hkb
      by_cases hkj : j < k
      · exact h₂ k hkj hkb
      · exact d₃ k hk (by omega)
    by_cases hc : i' > j'
    · rw [if_pos hc]
      exact ⟨Within.refl _ _ _, by omega, by omega, fun k hk hkj => hlow k hk (by omega), hhigh⟩
    · rw [if_neg hc]
      have hij' : i' ≤ j' := by omega
      have hni : ¬ key (elem data i') < key (elem data a) := u₄ (by omega)
      have hlj : key (elem data j') < key (elem data a) := d₄ hij'
      have hne : i' ≠ j' := by
        intro he
        rw [he] at hni
        exact hni hlj
      have hil : i' < data.length := by omega
      have hjl : j' < data.length := by omega
      have hw : Within (a + 1) b data (swapAt data i' j') :=
        Within.swap (by omega) (by omega) (by omega) (by omega) hb
      have hs := fun k => elem_swapAt hil hjl k
      have hpa : elem (swapAt data i' j') a = elem data a := by
        rw [hs a, if_neg (by omega), if_neg (by omega)]
      obtain ⟨r₁, r₂, r₃, r₄, r₅⟩ := partition_loop_spec a b n (swapAt data i' j') (i' + 1)
        (j' - 1) (hw.ordered hO) (by rw [length_swapAt]; exact hb) (by omega) (by omega)
        (by omega) (by omega)
        (by
          intro k hk hki
          rw [hpa, hs k]
          by_cases hkj : k = j'
          · omega
          · rw [if_neg hkj]
            by_cases hki' : k = i'
            · rw [if_pos hki']
              exact hlj
            · rw [if_neg hki']
              exact hlow k hk (by omega))
        (by
          intro k hk hkb
          rw [hpa, hs k]
          by_cases hkj : k = j'
          · rw [if_pos hkj]
            exact hni
          · rw [if_neg hkj, if_neg (by omega)]
            exact hhigh k (by omega) hkb)
      rw [hpa] at r₄ r₅
      exact ⟨hw.trans r₁, r₂, r₃, r₄, r₅⟩

theorem partition_finish (data : List α) (a b m : ℕ) (hb : b ≤ data.length) (ham : a ≤ m)
    (hmb : m < b)
    (h₁ : ∀ k, a < k → k ≤ m → key (elem data k) < key (elem data a))
    (h₂ : ∀ k, m < k → k < b → ¬ key (elem data k) < key (elem data a)) :
    Within a b data (swapAt data m a) ∧
    (∀ k, a ≤ k → k < m → key (elem (swapAt data m a) k) < key (elem (swapAt data m a) m)) ∧
    (∀ k, m < k → k < b → key (elem (swapAt data m a) m) ≤ key (elem (swapAt data m a) k)) := by
  have hml : m < data.length := by omega
  have hal : a < data.length := by omega
  have hs := fun k => elem_swapAt hml hal k
  refine ⟨Within.swap ham hmb (le_refl _) (by omega) hb, fun k hk hkm => ?_, fun k hk hkb => ?_⟩
  · have hm1 : elem (swapAt data m a) m = elem data a := by
      rw [hs m, if_neg (by omega), if_pos rfl]
    rw [hm1, hs k]
    by_cases hka : k = a
    · rw [if_pos hka]
      exact h₁ m (by omega) (le_refl _)
    · rw [if_neg hka, if_neg (by omega)]
      exact h₁ k (by omega) (by omega)
  · have hk1 : elem (swapAt data m a) k = elem data k := by
      rw [hs k, if_neg (by omega), if_neg (by omega)]
    have hm1 : elem (swapAt data m a) m = elem data a := by
      rw [hs m]
      by_cases hma : m = a
      · rw [if_pos hma, hma]
      · rw [if_neg hma, if_pos rfl]
    rw [hk1, hm1]
    exact not_lt.mp (h₂ k hk hkb)

theorem partition_func_spec (data : List α) (a b pivot : ℕ) (hO : Ordered less key data)
    (hb : b ≤ data.length) (hap : a ≤ pivot) (hpb : pivot < b) :
    Within a b data (partition_func less data a b pivot).1 ∧
    a ≤ (partition_func less data a b pivot).2.1 ∧
    (partition_func less data a b pivot).2.1 < b ∧
    (∀ k, a ≤ k → k < (partition_func less data a b pivot).2.1 →
      key (elem (partition_func less data a b pivot).1 k) <
        key (elem (partition_func less data a b pivot).1 (partition_func less data a b pivot).2.1)) ∧
    (∀ k, (partition_func less data a b pivot).2.1 < k → k < b →
      key (elem (partition_func less data a b pivot).1 (partition_func less data a b pivot).2.1) ≤
        key (elem (partition_func less data a b pivot).1 k)) := by
  unfold partition_func
  simp only
  have hw₀ : Within a b data (swapAt data a pivot) :=
    Within.swap (le_refl _) (by omega) hap hpb hb
  have hO₀ := hw₀.ordered hO
  have hb₀ : b ≤ (swapAt data a pivot).length := by rw [length_swapAt]; exact hb
  generalize swapAt data a pivot = d₀ at hw₀ hO₀ hb₀ ⊢
  obtain ⟨u₁, u₂, u₃, u₄⟩ := partition_scanUp_spec less key d₀ hO₀ a (b - 1) (b - 1 + 1 - (a + 1))
    (a + 1) (by omega)
  generalize partition_scanUp less d₀ a (b - 1) (b - 1 + 1 - (a + 1)) (a + 1) = i' at u₁ u₂ u₃ u₄ ⊢
  obtain ⟨d₁, d₂, d₃, d₄⟩ := partition_scanDown_spec less key d₀ hO₀ a i' (by omega) (b - 1)
  generalize partition_scanDown less d₀ a i' (b - 1) = j' at d₁ d₂ d₃ d₄ ⊢
  have hi'j : i' ≤ b - 1 + 1 := u₂ (by omega)
  have hj'i : i' ≤ j' + 1 := d₂ hi'j
  have hlow : ∀ k, a < k → k < i' → key (elem d₀ k) < key (elem d₀ a) :=
    fun k hk hki => u₃ k (by omega) hki
  have hhigh : ∀ k, j' < k → k < b → ¬ key (elem d₀ k) < key (elem d₀ a) :=
    fun k hk hkb => d₃ k hk (by omega)
  by_cases hc : i' > j'
  · rw [if_pos hc]
    simp only
    obtain ⟨f₁, f₂, f₃⟩ := partition_finish key d₀ a b j' hb₀ (by omega) (by omega)
      (fun k hk hkj => hlow k hk (by omega)) hhigh
    exact ⟨hw₀.trans f₁, by omega, by omega, f₂, f₃⟩
  · rw [if_neg hc]
    simp only
    have hij' : i' ≤ j' := by omega
    have hni : ¬ key (elem d₀ i') < key (elem d₀ a) := u₄ (by omega)
    have hlj : key (elem d₀ j') < key (elem d₀ a) := d₄ hij'
    have hne : i' ≠ j' := by
      intro he
      rw [he] at hni
      exact hni hlj
    have hil : i' < d₀.length := by omega
    have hjl : j' < d₀.length := by omega
    have hw : Within (a + 1) b d₀ (swapAt d₀ i' j') :=
      Within.swap (by omega) (by omega) (by omega) (by omega) hb₀
    have hs := fun k => elem_swapAt hil hjl k
    have hpa : elem (swapAt d₀ i' j') a = elem d₀ a := by
      rw [hs a, if_neg (by omega), if_neg (by omega)]
    obtain ⟨r₁, r₂, r₃, r₄, r₅⟩ := partition_loop_spec less key a b (j' - i') (swapAt d₀ i' j')
      (i' + 1) (j' - 1) (hw.ordered hO₀) (by rw [length_swapAt]; exact hb₀) (by omega)
      (by omega) (by omega) (by omega)
      (by
        intro k hk hki
        rw [hpa, hs k]
        by_cases hkj : k = j'
        · omega
        · rw [if_neg hkj]
          by_cases hki' : k = i'
          · rw [if_pos hki']
            exact hlj
          · rw [if_neg hki']
            exact hlow k hk (by omega))
      (by
        intro k hk hkb
        rw [hpa, hs k]
        by_cases hkj : k = j'
        · rw [if_pos hkj]
          exact hni
        · rw [if_neg hkj, if_neg (by omega)]
          exact hhigh k (by omega) hkb)
    generalize partition_loop less a (j' - i') (swapAt d₀ i' j') (i' + 1) (j' - 1) = r
      at r₁ r₂ r₃ r₄ r₅ ⊢
    have hra : elem r.1 a = elem (swapAt d₀ i' j') a := r₁.2.1 a (by omega)
    rw [← hra] at r₄ r₅
    obtain ⟨f₁, f₂, f₃⟩ := partition_finish key r.1 a b r.2 (by rw [r₁.1, length_swapAt]; exact hb₀)
      r₂ r₃ r₄ r₅
    exact ⟨hw₀.trans (((hw.trans r₁).mono (by omega) (le_refl _)).trans f₁), r₂, r₃, f₂, f₃⟩

end Partition

section PartitionEqual

variable {α : Type} [Inhabited α] {K : Type} [LinearOrder K]
  (less : α → α → Bool) (key : α → K)

theorem partitionEqual_scanUp_spec (data : List α) (hO : Ordered less key data) (a j : ℕ) :
    ∀ (n i : ℕ), j + 1 ≤ i + n →
    i ≤ partitionEqual_scanUp less data a j n i ∧
    (i ≤ j + 1 → partitionEqual_scanUp less data a j n i ≤ j + 1) ∧
    (∀ k, i ≤ k → k < partitionEqual_scanUp less data a j n i →
      ¬ key (elem data a) < key (elem data k)) ∧
    (partitionEqual_scanUp less data a j n i ≤ j →
      key (elem data a) < key (elem data (partitionEqual_scanUp less data a j n i)))
  | 0, i, hn => by
    unfold partitionEqual_scanUp
    exact ⟨le_refl _, fun h => h, fun k hk hki => by omega, fun h => by omega⟩
  | n + 1, i, hn => by
    unfold partitionEqual_scanUp
    by_cases hc : (decide (i ≤ j) && !less (elem data a) (elem data i)) = true
    · rw [if_pos hc]
      simp only [Bool.and_eq_true, decide_eq_true_eq, Bool.not_eq_true'] at hc
      obtain ⟨h₁, h₂, h₃, h₄⟩ := partitionEqual_scanUp_spec data hO a j n (i + 1) (by omega)
      refine ⟨by omega, fun _ => h₂ (by omega), fun k hk hki => ?_, h₄⟩
      by_cases hki' : k = i
      · subst hki'
        rw [← hO, hc.2]
        simp
      · exact h₃ k (by omega) hki
    · rw [if_neg hc]
      simp only [Bool.and_eq_true, decide_eq_true_eq, Bool.not_eq_true', not_and,
        Bool.not_eq_false] at hc
      exact ⟨le_refl _, fun h => h, fun k hk hki => by omega, fun h => (hO _ _).mp (hc h)⟩

theorem partitionEqual_scanDown_spec (data : List α) (hO : Ordered less key data) (a i : ℕ)
    (hi : 1 ≤ i) : ∀ (j : ℕ),
    partitionEqual_scanDown less data a i j ≤ j ∧
    (i ≤ j + 1 → i ≤ partitionEqual_scanDown less data a i j + 1) ∧
    (∀ k, partitionEqual_scanDown less data a i j < k → k ≤ j →
      key (elem data a) < key (elem data k)) ∧
    (i ≤ partitionEqual_scanDown less data a i j →
      ¬ key (elem data a) < key (elem data (partitionEqual_scanDown less data a i j)))
  | 0 => by
    unfold partitionEqual_scanDown
    exact ⟨le_refl _, fun h => h, fun k hk hkj => by omega, fun h => by omega⟩
  | j + 1 => by
    unfold partitionEqual_scanDown
    by_cases hc : (decide (i ≤ j + 1) && less (elem data a) (elem data (j + 1))) = true
    · rw [if_pos hc]
      simp only [Bool.and_eq_true, decide_eq_true_eq] at hc
      obtain ⟨h₁, h₂, h₃, h₄⟩ := partitionEqual_scanDown_spec data hO a i hi j
      refine ⟨by omega, fun _ => ?_, fun k hk hkj => ?_, h₄⟩
      · by_cases hij : i ≤ j
        · exact h₂ (by omega)
        · omega
      · by_cases hkj' : k = j + 1
        · subst hkj'
          exact (hO _ _).mp hc.2
        · exact h₃ k hk (by omega)
    · rw [if_neg hc]
      simp only [Bool.and_eq_true, decide_eq_true_eq, not_and] at hc
      refine ⟨le_refl _, fun h => h, fun k hk hkj => by omega, fun h => ?_⟩
      have := hc h
      rwa [hO] at this

theorem partitionEqual_loop_spec (a b : ℕ) : ∀ (n : ℕ) (data : List α) (i j : ℕ),
    Ordered less key data → b ≤ data.length → a < i → j < b → i ≤ j + 1 → j + 1 ≤ i + n →
    (∀ k, a < k → k < i → ¬ key (elem data a) < key (elem data k)) →
    (∀ k, j < k → k < b → key (elem data a) < key (elem data k)) →
    Within (a + 1) b data (partitionEqual_loop less a n data i j).1 ∧
    a < (partitionEqual_loop less a n data i j).2 ∧
    (partitionEqual_loop less a n data i j).2 ≤ b ∧
    (∀ k, a < k → k < (partitionEqual_loop less a n data i j).2 →
      ¬ key (elem data a) < key (elem (partitionEqual_loop less a n data i j).1 k)) ∧
    (∀ k, (partitionEqual_loop less a n data i j).2 ≤ k → k < b →
      key (elem data a) < key (elem (partitionEqual_loop less a n data i j).1 k))
  | 0, data, i, j, _, _, hai, hjb, hij, hn, h₁, h₂ => by
    unfold partitionEqual_loop
    exact ⟨Within.refl _ _ _, hai, by omega, h₁, fun k hk hkb => h₂ k (by omega) hkb⟩
  | n + 1, data, i, j, hO, hb, hai, hjb, hij, hn, h₁, h₂ => by
    unfold partitionEqual_loop
    simp only
    obtain ⟨u₁, u₂, u₃, u₄⟩ := partitionEqual_scanUp_spec less key data hO a j (j + 1 - i) i
      (by omega)
    generalize partitionEqual_scanUp less data a j (j + 1 - i) i = i' at u₁ u₂ u₃ u₄ ⊢
    obtain ⟨d₁, d₂, d₃, d₄⟩ := partitionEqual_scanDown_spec less key data hO a i' (by omega) j
    generalize partitionEqual_scanDown less data a i' j = j' at d₁ d₂ d₃ d₄ ⊢
    have hi'j : i' ≤ j + 1 := u₂ hij
    have hj'i : i' ≤ j' + 1 := d₂ hi'j
    have hlow : ∀ k, a < k → k < i' → ¬ key (elem data a) < key (elem data k) := by
      intro k hk hki
      by_cases hki' : k < i
      · exact h₁ k hk hki'
      · exact u₃ k (by omega) hki
    have hhigh : ∀ k, j' < k → k < b → key (elem data a) < key (elem data k) := by
      intro k hk hkb
      by_cases hkj : j < k
      · exact h₂ k hkj hkb
      · exact d₃ k hk (by omega)
    by_cases hc : i' > j'
    · rw [if_pos hc]
      exact ⟨Within.refl _ _ _, by omega, by omega, hlow, fun k hk hkb => hhigh k (by omega) hkb⟩
    · rw [if_neg hc]
      have hij' : i' ≤ j' := by omega
      have hgi : key (elem data a) < key (elem data i') := u₄ (by omega)
      have hnj : ¬ key (elem data a) < key (elem data j') := d₄ hij'
      have hne : i' ≠ j' := by
        intro he
        rw [he] at hgi
        exact hnj hgi
      have hil : i' < data.length := by omega
      have hjl : j' < data.length := by omega
      have hw : Within (a + 1) b data (swapAt data i' j') :=
        Within.swap (by omega) (by omega) (by omega) (by omega) hb
      have hs := fun k => elem_swapAt hil hjl k
      have hpa : elem (swapAt data i' j') a = elem data a := by
        rw [hs a, if_neg (by omega), if_neg (by omega)]
      obtain ⟨r₁, r₂, r₃, r₄, r₅⟩ := partitionEqual_loop_spec a b n (swapAt data i' j') (i' + 1)
        (j' - 1) (hw.ordered hO) (by rw [length_swapAt]; exact hb) (by omega) (by omega)
        (by omega) (by omega)
        (by
          intro k hk hki
          rw [hpa, hs k]
          by_cases hkj : k = j'
          · omega
          · rw [if_neg hkj]
            by_cases hki' : k = i'
            · rw [if_pos hki']
              exact hnj
            · rw [if_neg hki']
              exact hlow k hk (by omega))
        (by
          intro k hk hkb
          rw [hpa, hs k]
          by_cases hkj : k = j'
          · rw [if_pos hkj]
            exact hgi
          · rw [if_neg hkj, if_neg (by omega)]
            exact hhigh k (by omega) hkb)
      rw [hpa] at r₄ r₅
      exact ⟨hw.trans r₁, by omega, r₃, r₄, r₅⟩

theorem partitionEqual_func_spec (data : List α) (a b pivot : ℕ) (hO : Ordered less key data)
    (hb : b ≤ data.length) (hap : a ≤ pivot) (hpb : pivot < b) :
    Within a b data (partitionEqual_func less data a b pivot).1 ∧
    a < (partitionEqual_func less data a b pivot).2 ∧
    (partitionEqual_func less data a b pivot).2 ≤ b ∧
    (∀ k, a ≤ k → k < (partitionEqual_func less data a b pivot).2 →
      ¬ key (elem data pivot) < key (elem (partitionEqual_func less data a b pivot).1 k)) ∧
    (∀ k, (partitionEqual_func less data a b pivot).2 ≤ k → k < b →
      key (elem data pivot) < key (elem (partitionEqual_func less data a b pivot).1 k)) := by
  unfold partitionEqual_func
  simp only
  have hw₀ : Within a b data (swapAt data a pivot) :=
    Within.swap (le_refl _) (by omega) hap hpb hb
  have hpa : elem (swapAt data a pivot) a = elem data pivot := by
    rw [elem_swapAt (by omega) (by omega)]
    by_cases h : a = pivot
    · rw [if_pos h, h]
    · rw [if_neg h, if_pos rfl]
  have hO₀ := hw₀.ordered hO
  have hb₀ : b ≤ (swapAt data a pivot).length := by rw [length_swapAt]; exact hb
  generalize swapAt data a pivot = d₀ at hw₀ hO₀ hb₀ hpa ⊢
  obtain ⟨r₁, r₂, r₃, r₄, r₅⟩ := partitionEqual_loop_spec less key a b (b - a) d₀ (a + 1) (b - 1)
    hO₀ hb₀ (by omega) (by omega) (by omega) (by omega) (fun k hk hki => by omega)
    (fun k hk hkb => by omega)
  generalize partitionEqual_loop less a (b - a) d₀ (a + 1) (b - 1) = r at r₁ r₂ r₃ r₄ r₅ ⊢
  rw [hpa] at r₄ r₅
  refine ⟨hw₀.trans (r₁.mono (by omega) (le_refl _)), r₂, r₃, fun k hk hkr => ?_, r₅⟩
  by_cases hka : k = a
  · rw [hka, r₁.2.1 a (by omega), hpa]
    exact lt_irrefl _
  · exact r₄ k (by omega) hkr

end PartitionEqual

section PartialInsertionSort

variable {α : Type} [Inhabited α] {K : Type} [LinearOrder K]
  (less : α → α → Bool) (key : α → K)

theorem partialInsertionSort_scan_spec (data : List α) (hO : Ordered less key data) (b : ℕ) :
    ∀ (n i : ℕ), b ≤ i + n →
    i ≤ partialInsertionSort_scan less data b n i ∧
    (i ≤ b → partialInsertionSort_scan less data b n i ≤ b) ∧
    (∀ k, i ≤ k → k < partialInsertionSort_scan less data b n i →
      key (elem data (k - 1)) ≤ key (elem data k)) ∧
    (partialInsertionSort_scan less data b n i < b →
      key (elem data (partialInsertionSort_scan less data b n i)) <
        key (elem data (partialInsertionSort_scan less data b n i - 1)))
  | 0, i, hn => by
    unfold partialInsertionSort_scan
    exact ⟨le_refl _, fun h => h, fun k hk hki => by omega, fun h => by omega⟩
  | n + 1, i, hn => by
    unfold partialInsertionSort_scan
    by_cases hc : (decide (i < b) && !less (elem data i) (elem data (i - 1))) = true
    · rw [if_pos hc]
      simp only [Bool.and_eq_true, decide_eq_true_eq, Bool.not_eq_true'] at hc
      obtain ⟨h₁, h₂, h₃, h₄⟩ := partialInsertionSort_scan_spec data hO b n (i + 1) (by omega)
      refine ⟨by omega, fun _ => h₂ (by omega), fun k hk hki => ?_, h₄⟩
      by_cases hki' : k = i
      · subst hki'
        apply not_lt.mp
        rw [← hO, hc.2]
        simp
      · exact h₃ k (by omega) hki
    · rw [if_neg hc]
      simp only [Bool.and_eq_true, decide_eq_true_eq, Bool.not_eq_true', not_and,
        Bool.not_eq_false] at hc
      exact ⟨le_refl _, fun h => h, fun k hk hki => by omega, fun h => (hO _ _).mp (hc h)⟩

theorem partialInsertionSort_left_spec (a i : ℕ) : ∀ (j : ℕ) (data : List α),
    Ordered less key data → i < data.length → a ≤ j → j ≤ i →
    LowerBound key data a (i + 1) →
    SortedOn key data a j → SortedOn key data j (i + 1) →
    (a < j → j < i → key (elem data (j - 1)) ≤ key (elem data (j + 1))) →
    SortedOn key (partialInsertionSort_left less j data) a (i + 1) ∧
      Within a (i + 1) data (partialInsertionSort_left less j data)
  | 0, data, _, _, ha, _, _, _, h₂, _ => by
    have : a = 0 := by omega
    subst this
    exact ⟨h₂, Within.refl _ _ _⟩
  | j + 1, data, hO, hi, ha, hji, hL, h₁, h₂, h₃ => by
    unfold partialInsertionSort_left
    by_cases hc : (!less (elem data (j + 1)) (elem data j)) = true
    · rw [if_pos hc]
      simp only [Bool.not_eq_true'] at hc
      refine ⟨fun k hk hki => ?_, Within.refl _ _ _⟩
      by_cases hkj : k + 1 < j + 1
      · exact h₁ k hk hkj
      · by_cases hkj' : k = j
        · subst hkj'
          apply not_lt.mp
          rw [← hO, hc]
          simp
        · exact h₂ k (by omega) hki
    · rw [if_neg hc]
      simp only [Bool.not_eq_true', Bool.not_eq_false] at hc
      have hlt' := (hO _ _).mp hc
      have haj : a < j + 1 := by
        by_contra hcon
        have hae : a = j + 1 := by omega
        have := hL (by omega) (j + 1) (by omega) (by omega)
        rw [hae] at this
        simp only [Nat.add_sub_cancel] at this
        exact absurd hlt' (not_lt.mpr this)
      have hj1 : j + 1 < data.length := by omega
      have hj0 : j < data.length := by omega
      have hw : Within a (i + 1) data (swapAt data (j + 1) j) :=
        Within.swap (by omega) (by omega) (by omega) (by omega) (by omega)
      have hs := fun k => elem_swapAt hj1 hj0 k
      obtain ⟨ih₁, ih₂⟩ := partialInsertionSort_left_spec a i j (swapAt data (j + 1) j)
        (hw.ordered hO) (by rw [length_swapAt]; exact hi) (by omega) (by omega)
        (hw.lowerBound hL)
        (by
          intro k hk hkj
          rw [hs k, hs (k + 1), if_neg (by omega), if_neg (by omega), if_neg (by omega),
            if_neg (by omega)]
          exact h₁ k hk (by omega))
        (by
          intro k hk hki
          rw [hs k, hs (k + 1)]
          by_cases hkj : k = j
          · subst hkj
            rw [if_pos rfl, if_neg (by omega), if_pos rfl]
            exact le_of_lt hlt'
          · by_cases hkj1 : k = j + 1
            · subst hkj1
              rw [if_neg (by omega), if_pos rfl, if_neg (by omega), if_neg (by omega)]
              have := h₃ (by omega) (by omega)
              simpa using this
            · rw [if_neg hkj, if_neg hkj1, if_neg (by omega), if_neg (by omega)]
              exact h₂ k (by omega) hki)
        (by
          intro haj' hji'
          rw [hs (j - 1), hs (j + 1), if_neg (by omega), if_neg (by omega), if_neg (by omega),
            if_pos rfl]
          have := h₁ (j - 1) (by omega) (by omega)
          rwa [Nat.sub_add_cancel (by omega)] at this)
      exact ⟨ih₁, hw.trans ih₂⟩

theorem partialInsertionSort_right_within (i b : ℕ) : ∀ (n j : ℕ) (data : List α),
    b ≤ data.length → i < j → j + n = b →
    Within i b data (partialInsertionSort_right less n j data)
  | 0, _, data, _, _, _ => Within.refl _ _ _
  | n + 1, j, data, hb, hij, hn => by
    unfold partialInsertionSort_right
    split
    · exact Within.refl _ _ _
    · have hw : Within i b data (swapAt data j (j - 1)) :=
        Within.swap (by omega) (by omega) (by omega) (by omega) hb
      exact hw.trans (partialInsertionSort_right_within i b n (j + 1) _
        (by rw [length_swapAt]; exact hb) (by omega) (by omega))

theorem partialInsertionSort_steps_spec (a b : ℕ) : ∀ (n : ℕ) (data : List α) (i : ℕ),
    Ordered less key data → b ≤ data.length → a < i → i ≤ b →
    LowerBound key data a b → SortedOn key data a i →
    Within a b data (partialInsertionSort_steps less a b n data i).1 ∧
    ((partialInsertionSort_steps less a b n data i).2 = true →
      SortedOn key (partialInsertionSort_steps less a b n data i).1 a b)
  | 0, data, i, _, _, _, _, _, _ => by
    unfold partialInsertionSort_steps
    exact ⟨Within.refl _ _ _, fun h => by simp at h⟩
  | n + 1, data, i, hO, hb, hai, hib, hL, hs => by
    unfold partialInsertionSort_steps
    simp only
    obtain ⟨u₁, u₂, u₃, u₄⟩ := partialInsertionSort_scan_spec less key data hO b (b - i) i
      (by omega)
    generalize partialInsertionSort_scan less data b (b - i) i = i' at u₁ u₂ u₃ u₄ ⊢
    have hi'b : i' ≤ b := u₂ hib
    have hs' : SortedOn key data a i' := by
      intro k hk hki
      by_cases hki' : k + 1 < i
      · exact hs k hk hki'
      · have := u₃ (k + 1) (by omega) hki
        simpa using this
    by_cases hc₁ : i' = b
    · rw [if_pos hc₁]
      exact ⟨Within.refl _ _ _, fun _ => hc₁ ▸ hs'⟩
    · rw [if_neg hc₁]
      by_cases hc₂ : b - a < 50
      · rw [if_pos hc₂]
        exact ⟨Within.refl _ _ _, fun h => by simp at h⟩
      · rw [if_neg hc₂]
        have hlt : key (elem data i') < key (elem data (i' - 1)) := u₄ (by omega)
        have hw₁ : Within a b data (swapAt data i' (i' - 1)) :=
          Within.swap (by omega) (by omega) (by omega) (by omega) hb
        have hsw := fun k => elem_swapAt (show i' < data.length by omega)
          (show i' - 1 < data.length by omega) k
        have hs₁ : SortedOn key (swapAt data i' (i' - 1)) a (i' - 1) := by
          intro k hk hki
          rw [hsw k, hsw (k + 1), if_neg (by omega), if_neg (by omega), if_neg (by omega),
            if_neg (by omega)]
          exact hs' k hk (by omega)
        have hO₁ := hw₁.ordered hO
        have hL₁ := hw₁.lowerBound hL
        have hb₁ : b ≤ (swapAt data i' (i' - 1)).length := by rw [length_swapAt]; exact hb
        generalize swapAt data i' (i' - 1) = d₁ at hw₁ hs₁ hO₁ hL₁ hb₁ ⊢
        have h₂ : ∃ d₂, (if i' - a ≥ 2 then partialInsertionSort_left less (i' - 1) d₁ else d₁)
            = d₂ ∧ Within a b d₁ d₂ ∧ SortedOn key d₂ a i' := by
          refine ⟨_, rfl, ?_⟩
          by_cases hc₃ : i' - a ≥ 2
          · rw [if_pos hc₃]
            obtain ⟨l₁, l₂⟩ := partialInsertionSort_left_spec less key a (i' - 1) (i' - 1) d₁ hO₁
              (by omega) (by omega) (le_refl _)
              (fun ha k hk hkb => hL₁ ha k hk (by omega)) hs₁ (SortedOn.of_le (by omega))
              (by omega)
            have he : i' - 1 + 1 = i' := by omega
            rw [he] at l₁ l₂
            exact ⟨l₂.mono (le_refl _) hi'b, l₁⟩
          · rw [if_neg hc₃]
            exact ⟨Within.refl _ _ _, SortedOn.of_le (by omega)⟩
        obtain ⟨d₂, hd₂, hw₂, hs₂⟩ := h₂
        rw [hd₂]
        have hb₂ : b ≤ d₂.length := by rw [hw₂.1]; exact hb₁
        have h₃ : ∃ d₃, (if b - i' ≥ 2 then
            partialInsertionSort_right less (b - (i' + 1)) (i' + 1) d₂ else d₂) = d₃ ∧
            Within i' b d₂ d₃ := by
          refine ⟨_, rfl, ?_⟩
          by_cases hc₄ : b - i' ≥ 2
          · rw [if_pos hc₄]
            exact partialInsertionSort_right_within less i' b _ _ d₂ hb₂ (by omega) (by omega)
          · rw [if_neg hc₄]
            exact Within.refl _ _ _
        obtain ⟨d₃, hd₃, hw₃⟩ := h₃
        rw [hd₃]
        have hw₁₃ : Within a b data d₃ :=
          hw₁.trans (hw₂.trans (hw₃.mono (by omega) (le_refl _)))
        obtain ⟨r₁, r₂⟩ := partialInsertionSort_steps_spec a b n d₃ i' (hw₁₃.ordered hO)
          (by rw [hw₁₃.1]; exact hb) (by omega) hi'b (hw₁₃.lowerBound hL)
          (hw₃.sortedOn_outside hs₂ (Or.inl (le_refl _)))
        exact ⟨hw₁₃.trans r₁, r₂⟩

theorem partialInsertionSort_func_spec (data : List α) (a b : ℕ) (hO : Ordered less key data)
    (hb : b ≤ data.length) (hab : a < b) (hL : LowerBound key data a b) :
    Within a b data (partialInsertionSort_func less data a b).1 ∧
    ((partialInsertionSort_func less data a b).2 = true →
      SortedOn key (partialInsertionSort_func less data a b).1 a b) :=
  partialInsertionSort_steps_spec less key a b 5 data (a + 1) hO hb (by omega) (by omega) hL
    (SortedOn.of_le (by omega))

end PartialInsertionSort

section PivotAndPatterns

variable {α : Type} [Inhabited α]

theorem bits_Len_loop_spec : ∀ (k n : ℕ), n ≤ k →
    (n = 0 → bits_Len_loop k n = 0) ∧
    (0 < n → n < 2 ^ bits_Len_loop k n ∧ 2 ^ bits_Len_loop k n ≤ 2 * n)
  | 0, n, h => by
    have : n = 0 := by omega
    subst this
    exact ⟨fun _ => rfl, fun h0 => absurd h0 (lt_irrefl _)⟩
  | k + 1, n, h => by
    unfold bits_Len_loop
    by_cases hn : n = 0
    · rw [if_pos hn]
      exact ⟨fun _ => rfl, fun h0 => by omega⟩
    · rw [if_neg hn]
      refine ⟨fun h0 => absurd h0 hn, fun _ => ?_⟩
      obtain ⟨h₁, h₂⟩ := bits_Len_loop_spec k (n / 2) (by omega)
      by_cases hm : n / 2 = 0
      · rw [h₁ hm]
        have : n = 1 := by omega
        subst this
        simp
      · obtain ⟨h₃, h₄⟩ := h₂ (by omega)
        rw [pow_succ]
        generalize 2 ^ bits_Len_loop k (n / 2) = p at h₃ h₄ ⊢
        omega

theorem nextPowerOfTwo_le (length : ℕ) (h : 0 < length) :
    nextPowerOfTwo length ≤ 2 * length ∧ nextPowerOfTwo length = 2 ^ bits_Len length := by
  unfold nextPowerOfTwo
  rw [Nat.one_shiftLeft]
  exact ⟨((bits_Len_loop_spec length length (le_refl _)).2 h).2, rfl⟩

theorem breakPatterns_loop_within (a b length modulus idx s : ℕ) (hlen : length = b - a)
    (h8 : 8 ≤ length) (hmod : modulus = 2 ^ s) (hmod2 : modulus ≤ 2 * length)
    (hidx : idx = a + (length / 4) * 2 - 1) :
    ∀ (n i random : ℕ) (data : List α), b ≤ data.length → i + n ≤ 3 →
    Within a b data (breakPatterns_loop a length modulus idx n i random data)
  | 0, _, _, data, _, _ => Within.refl _ _ _
  | n + 1, i, random, data, hb, hin => by
    unfold breakPatterns_loop
    simp only
    have hlt : xorshift_Next random &&& (modulus - 1) < modulus := by
      rw [hmod, Nat.and_pow_two_sub_one_eq_mod]
      exact Nat.mod_lt _ (by positivity)
    generalize xorshift_Next random &&& (modulus - 1) = other at hlt ⊢
    have hother : (if other ≥ length then other - length else other) < length := by
      split <;> omega
    generalize (if other ≥ length then other - length else other) = other' at hother ⊢
    have hw : Within a b data (swapAt data (idx - 1 + i) (a + other')) :=
      Within.swap (by omega) (by omega) (by omega) (by omega) hb
    exact hw.trans (breakPatterns_loop_within a b length modulus idx s hlen h8 hmod hmod2 hidx n
      (i + 1) _ _ (by rw [length_swapAt]; exact hb) (by omega))

theorem breakPatterns_func_within (data : List α) (a b : ℕ) (hb : b ≤ data.length) :
    Within a b data (breakPatterns_func data a b) := by
  unfold breakPatterns_func
  simp only
  split
  · next h8 =>
    obtain ⟨h₁, h₂⟩ := nextPowerOfTwo_le (b - a) (by omega)
    exact breakPatterns_loop_within a b (b - a) _ _ _ rfl h8 h₂ h₁ rfl 3 0 _ data hb (by omega)
  · exact Within.refl _ _ _

theorem reverseRange_loop_within (a b : ℕ) : ∀ (n i j : ℕ) (data : List α),
    b ≤ data.length → a ≤ i → j < b →
    Within a b data (reverseRange_loop n i j data)
  | 0, _, _, data, _, _, _ => Within.refl _ _ _
  | n + 1, i, j, data, hb, hai, hjb => by
    unfold reverseRange_loop
    split
    · have hw : Within a b data (swapAt data i j) :=
        Within.swap hai (by omega) (by omega) hjb hb
      exact hw.trans (reverseRange_loop_within a b n (i + 1) (j - 1) _
        (by rw [length_swapAt]; exact hb) (by omega) (by omega))
    · exact Within.refl _ _ _

theorem reverseRange_func_within (data : List α) (a b : ℕ) (hb : b ≤ data.length)
    (hab : a < b) : Within a b data (reverseRange_func data a b) :=
  reverseRange_loop_within a b _ _ _ data hb (le_refl _) (by omega)

theorem order2_func_fst (less : α → α → Bool) (data : List α) (a b swaps : ℕ) :
    ((order2_func less data a b swaps).1 = a ∧ (order2_func less data a b swaps).2.1 = b) ∨
    ((order2_func less data a b swaps).1 = b ∧ (order2_func less data a b swaps).2.1 = a) := by
  unfold order2_func
  split
  · exact Or.inr ⟨rfl, rfl⟩
  · exact Or.inl ⟨rfl, rfl⟩

theorem median_func_mem (less : α → α → Bool) (data : List α) (a b c swaps : ℕ) :
    (median_func less data a b c swaps).1 = a ∨ (median_func less data a b c swaps).1 = b ∨
      (median_func less data a b c swaps).1 = c := by
  unfold median_func
  simp only
  have h₁ := order2_func_fst less data a b swaps
  generalize order2_func less data a b swaps = r₁ at h₁ ⊢
  have h₂ := order2_func_fst less data r₁.2.1 c r₁.2.2
  generalize order2_func less data r₁.2.1 c r₁.2.2 = r₂ at h₂ ⊢
  have h₃ := order2_func_fst less data r₁.1 r₂.1 r₂.2.2
  generalize order2_func less data r₁.1 r₂.1 r₂.2.2 = r₃ at h₃ ⊢
  omega

theorem median_func_bounds (less : α → α → Bool) (data : List α) (a b c swaps lo hi : ℕ)
    (ha : lo ≤ a ∧ a < hi) (hb : lo ≤ b ∧ b < hi) (hc : lo ≤ c ∧ c < hi) :
    lo ≤ (median_func less data a b c swaps).1 ∧ (median_func less data a b c swaps).1 < hi := by
  rcases median_func_mem less data a b c swaps with h | h | h <;> rw [h] <;> assumption

theorem choosePivot_func_bounds (less : α → α → Bool) (data : List α) (a b : ℕ)
    (hab : a < b) :
    a ≤ (choosePivot_func less data a b).1 ∧ (choosePivot_func less data a b).1 < b := by
  have key : ∀ r : ℕ × ℕ,
      (if r.2 = 0 then (r.1, sortedHint.increasingHint)
        else if r.2 = 12 then (r.1, sortedHint.decreasingHint)
        else (r.1, sortedHint.unknownHint)).1 = r.1 := by
    intro r
    split
    · rfl
    · split <;> rfl
  unfold choosePivot_func
  simp only
  rw [key]
  by_cases h8 : b - a ≥ 8
  · rw [if_pos h8]
    by_cases h50 : b - a ≥ 50
    · rw [if_pos h50]
      simp only
      unfold medianAdjacent_func
      apply median_func_bounds
      · exact median_func_bounds less data _ _ _ _ a b ⟨by omega, by omega⟩
          ⟨by omega, by omega⟩ ⟨by omega, by omega⟩
      · exact median_func_bounds less data _ _ _ _ a b ⟨by omega, by omega⟩
          ⟨by omega, by omega⟩ ⟨by omega, by omega⟩
      · exact median_func_bounds less data _ _ _ _ a b ⟨by omega, by omega⟩
          ⟨by omega, by omega⟩ ⟨by omega, by omega⟩
    · rw [if_neg h50]
      simp only
      exact median_func_bounds less data _ _ _ _ a b ⟨by omega, by omega⟩
        ⟨by omega, by omega⟩ ⟨by omega, by omega⟩
  · rw [if_neg h8]
    simp only
    constructor <;> omega

end PivotAndPatterns

section HeapSort

variable {α : Type} [Inhabited α] {K : Type} [LinearOrder K]
  (less : α → α → Bool) (key : α → K)

theorem siftDown_func_spec (hi first lo : ℕ) : ∀ (n : ℕ) (data : List α) (root : ℕ),
    Ordered less key data → first + hi ≤ data.length → lo ≤ root → hi ≤ root + n →
    HeapExcept key data first lo hi root →
    (1 ≤ root → lo ≤ (root - 1) / 2 → ∀ c, 1 ≤ c → c < hi → (c - 1) / 2 = root →
      key (elem data (first + c)) ≤ key (elem data (first + (root - 1) / 2))) →
    HeapExcept key (siftDown_func less hi first n data root) first lo hi hi ∧
      Within first (first + hi) data (siftDown_func less hi first n data root)
  | 0, data, root, _, _, _, hn, hH, _ => by
    unfold siftDown_func
    refine ⟨fun c hc hchi hlo _ => hH c hc hchi hlo (by omega), Within.refl _ _ _⟩
  | n + 1, data, root, hO, hlen, hlo, hn, hH, hG => by
    unfold siftDown_func
    simp only
    by_cases hc₁ : 2 * root + 1 ≥ hi
    · rw [if_pos hc₁]
      exact ⟨fun c hc hchi hlo' _ => hH c hc hchi hlo' (by omega), Within.refl _ _ _⟩
    · rw [if_neg hc₁]
      have hchild : ∃ child, (if (decide (2 * root + 1 + 1 < hi) &&
          less (elem data (first + (2 * root + 1))) (elem data (first + (2 * root + 1) + 1))) = true
          then 2 * root + 1 + 1 else 2 * root + 1) = child ∧ child < hi ∧
          (child - 1) / 2 = root ∧ 1 ≤ child ∧
          ∀ x, 1 ≤ x → x < hi → (x - 1) / 2 = root →
            key (elem data (first + x)) ≤ key (elem data (first + child)) := by
        refine ⟨_, rfl, ?_⟩
        by_cases hcc : (decide (2 * root + 1 + 1 < hi) &&
          less (elem data (first + (2 * root + 1))) (elem data (first + (2 * root + 1) + 1))) = true
        · rw [if_pos hcc]
          simp only [Bool.and_eq_true, decide_eq_true_eq] at hcc
          refine ⟨hcc.1, by omega, by omega, fun x hx hxhi hxp => ?_⟩
          have hlt := (hO _ _).mp hcc.2
          have hx' : x = 2 * root + 1 ∨ x = 2 * root + 1 + 1 := by omega
          rcases hx' with rfl | rfl
          · exact le_of_lt hlt
          · exact le_refl _
        · rw [if_neg hcc]
          simp only [Bool.and_eq_true, decide_eq_true_eq, not_and] at hcc
          refine ⟨by omega, by omega, by omega, fun x hx hxhi hxp => ?_⟩
          have hx' : x = 2 * root + 1 ∨ x = 2 * root + 1 + 1 := by omega
          rcases hx' with rfl | rfl
          · exact le_refl _
          · have := hcc hxhi
            rw [hO] at this
            exact not_lt.mp this
      obtain ⟨child, hce, hchi, hcp, hc1, hcmax⟩ := hchild
      rw [hce]
      by_cases hc₂ : (!less (elem data (first + root)) (elem data (first + child))) = true
      · rw [if_pos hc₂]
        simp only [Bool.not_eq_true'] at hc₂
        have hle : key (elem data (first + child)) ≤ key (elem data (first + root)) := by
          apply not_lt.mp
          rw [← hO, hc₂]
          simp
        refine ⟨fun c hc hchi' hlo' _ => ?_, Within.refl _ _ _⟩
        by_cases hpr : (c - 1) / 2 = root
        · rw [hpr]
          exact (hcmax c hc hchi' hpr).trans hle
        · exact hH c hc hchi' hlo' hpr
      · rw [if_neg hc₂]
        simp only [Bool.not_eq_true', Bool.not_eq_false] at hc₂
        have hlt : key (elem data (first + root)) < key (elem data (first + child)) :=
          (hO _ _).mp hc₂
        have hrl : first + root < data.length := by omega
        have hcl : first + child < data.length := by omega
        have hw : Within first (first + hi) data (swapAt data (first + root) (first + child)) :=
          Within.swap (by omega) (by omega) (by omega) (by omega) hlen
        have hs := fun k => elem_swapAt hrl hcl k
        have hsr : elem (swapAt data (first + root) (first + child)) (first + root) =
            elem data (first + child) := by
          rw [hs, if_neg (by omega), if_pos rfl]
        have hsc : elem (swapAt data (first + root) (first + child)) (first + child) =
            elem data (first + root) := by
          rw [hs, if_pos rfl]
        have hso : ∀ x, x ≠ root → x ≠ child →
            elem (swapAt data (first + root) (first + child)) (first + x) =
              elem data (first + x) := by
          intro x hxr hxc
          rw [hs, if_neg (by omega), if_neg (by omega)]
        obtain ⟨ih₁, ih₂⟩ := siftDown_func_spec hi first lo n
          (swapAt data (first + root) (first + child)) child (hw.ordered hO)
          (by rw [length_swapAt]; exact hlen) (by omega) (by omega)
          (by
            intro x hx hxhi hxlo hxp
            by_cases hpr : (x - 1) / 2 = root
            · rw [hpr, hsr]
              by_cases hxc : x = child
              · rw [hxc, hsc]
                exact le_of_lt hlt
              · rw [hso x (by omega) hxc]
                exact hcmax x hx hxhi hpr
            · have hxc : x ≠ child := by
                intro h
                rw [h] at hpr
                exact hpr hcp
              rw [hso ((x - 1) / 2) hpr hxp]
              by_cases hxr : x = root
              · rw [hxr, hsr]
                rw [hxr] at hxlo hx
                exact hG hx hxlo child hc1 hchi hcp
              · rw [hso x hxr hxc]
                exact hH x hx hxhi hxlo hpr)
          (by
            intro _ _ x hx hxhi hxp
            rw [hcp, hsr, hso x (by omega) (by omega)]
            have := hH x hx hxhi (by omega) (by omega)
            rwa [hxp] at this)
        exact ⟨ih₁, hw.trans ih₂⟩

theorem heapSort_build_spec (hi first : ℕ) : ∀ (i : ℕ) (data : List α),
    Ordered less key data → first + hi ≤ data.length →
    HeapExcept key data first (i + 1) hi hi →
    HeapExcept key (heapSort_build less hi first i data) first 0 hi hi ∧
      Within first (first + hi) data (heapSort_build less hi first i data)
  | 0, data, hO, hlen, hH => by
    unfold heapSort_build
    exact siftDown_func_spec less key hi first 0 hi data 0 hO hlen (le_refl _) (by omega)
      (fun c hc hchi hlo hp => hH c hc hchi (by omega) (by omega)) (fun h => by omega)
  | i + 1, data, hO, hlen, hH => by
    unfold heapSort_build
    obtain ⟨s₁, s₂⟩ := siftDown_func_spec less key hi first (i + 1) hi data (i + 1) hO hlen
      (le_refl _) (by omega)
      (fun c hc hchi hlo hp => hH c hc hchi (by omega) (by omega)) (fun _ h => by omega)
    obtain ⟨b₁, b₂⟩ := heapSort_build_spec hi first i _ (s₂.ordered hO)
      (by rw [s₂.1]; exact hlen) s₁
    exact ⟨b₁, s₂.trans b₂⟩

theorem heap_root_max {data : List α} {first n : ℕ} (hH : HeapExcept key data first 0 n n) :
    ∀ x, x < n → key (elem data (first + x)) ≤ key (elem data (first + 0)) := by
  intro x
  induction x using Nat.strong_induction_on with
  | _ x ih =>
    intro hx
    by_cases h0 : x = 0
    · rw [h0]
    · exact (hH x (by omega) hx (Nat.zero_le _) (by omega)).trans
        (ih ((x - 1) / 2) (by omega) (by omega))

theorem heapSort_pop_spec (first hi : ℕ) : ∀ (i : ℕ) (data : List α),
    Ordered less key data → first + hi ≤ data.length → i < hi →
    HeapExcept key data first 0 (i + 1) (i + 1) →
    SortedOn key data (first + i + 1) (first + hi) →
    (∀ x y, x ≤ i → i < y → y < hi →
      key (elem data (first + x)) ≤ key (elem data (first + y))) →
    SortedOn key (heapSort_pop less first i data) first (first + hi) ∧
      Within first (first + hi) data (heapSort_pop less first i data)
  | 0, data, hO, hlen, hi0, _, hS, hB => by
    unfold heapSort_pop siftDown_func
    have hw : Within first (first + hi) data (swapAt data first (first + 0)) :=
      Within.swap (le_refl _) (by omega) (by omega) (by omega) hlen
    have hs : ∀ k, elem (swapAt data first (first + 0)) k = elem data k := by
      intro k
      rw [elem_swapAt (by omega) (by omega)]
      by_cases hk : k = first
      · subst hk
        simp
      · rw [if_neg (by omega), if_neg hk]
    refine ⟨fun k hk hkb => ?_, hw⟩
    rw [hs, hs]
    by_cases hk0 : k = first
    · subst hk0
      have := hB 0 1 (le_refl _) (by omega) (by omega)
      simpa using this
    · exact hS k (by omega) hkb
  | i + 1, data, hO, hlen, hi1, hH, hS, hB => by
    unfold heapSort_pop
    have hmax := heap_root_max key hH
    have hfl : first < data.length := by omega
    have hil : first + (i + 1) < data.length := by omega
    have hw₁ : Within first (first + hi) data (swapAt data first (first + (i + 1))) :=
      Within.swap (le_refl _) (by omega) (by omega) (by omega) hlen
    have hs := fun k => elem_swapAt hfl hil k
    have hsf : elem (swapAt data first (first + (i + 1))) (first + 0) =
        elem data (first + (i + 1)) := by
      rw [hs, if_neg (by omega), if_pos (by omega)]
    have hsi : elem (swapAt data first (first + (i + 1))) (first + (i + 1)) =
        elem data (first + 0) := by
      rw [hs, if_pos rfl]
      rfl
    have hso : ∀ x, x ≠ 0 → x ≠ i + 1 →
        elem (swapAt data first (first + (i + 1))) (first + x) = elem data (first + x) := by
      intro x h0 h1
      rw [hs, if_neg (by omega), if_neg (by omega)]
    have hO₁ := hw₁.ordered hO
    have hlen₁ : first + hi ≤ (swapAt data first (first + (i + 1))).length := by
      rw [length_swapAt]; exact hlen
    generalize swapAt data first (first + (i + 1)) = d₁ at hw₁ hsf hsi hso hO₁ hlen₁ ⊢
    obtain ⟨s₁, s₂⟩ := siftDown_func_spec less key (i + 1) first 0 (i + 1) d₁ 0 hO₁ (by omega)
      (le_refl _) (by omega)
      (by
        intro c hc hchi hlo hp
        rw [hso c (by omega) (by omega), hso ((c - 1) / 2) hp (by omega)]
        exact hH c hc (by omega) hlo (by omega))
      (fun h => by omega)
    have hO₂ := s₂.ordered hO₁
    have hlen₂ : first + hi ≤ (siftDown_func less (i + 1) first (i + 1) d₁ 0).length := by
      rw [s₂.1]; exact hlen₁
    have hout : ∀ y, i < y →
        elem (siftDown_func less (i + 1) first (i + 1) d₁ 0) (first + y) =
          elem d₁ (first + y) := fun y hy => s₂.2.1 (first + y) (Or.inr (by omega))
    have hB₁ : ∀ x y, x ≤ i → i < y → y < hi →
        key (elem d₁ (first + x)) ≤ key (elem d₁ (first + y)) := by
      intro x y hx hy hyhi
      have hxo : key (elem d₁ (first + x)) ≤ key (elem data (first + 0)) ∧
          (i + 1 < y → key (elem d₁ (first + x)) ≤ key (elem data (first + y))) := by
        by_cases hx0 : x = 0
        · rw [hx0, hsf]
          exact ⟨hmax (i + 1) (by omega), fun hy' => hB (i + 1) y (le_refl _) hy' hyhi⟩
        · rw [hso x hx0 (by omega)]
          exact ⟨hmax x (by omega), fun hy' => hB x y (by omega) hy' hyhi⟩
      by_cases hy1 : y = i + 1
      · rw [hy1, hsi]
        exact hxo.1
      · rw [hso y (by omega) hy1]
        exact hxo.2 (by omega)
    obtain ⟨p₁, p₂⟩ := heapSort_pop_spec first hi i _ hO₂ hlen₂ (by omega)
      (fun c hc hchi hlo hp => s₁ c hc hchi hlo (by omega))
      (by
        intro k hk hkb
        have e₁ := hout (k - first) (by omega)
        have e₂ := hout (k + 1 - first) (by omega)
        rw [show first + (k - first) = k by omega] at e₁
        rw [show first + (k + 1 - first) = k + 1 by omega] at e₂
        rw [e₁, e₂]
        by_cases hki : k = first + (i + 1)
        · rw [hki, hsi]
          have := hso (i + 2) (by omega) (by omega)
          rw [show first + (i + 1) + 1 = first + (i + 2) by omega, this]
          exact hB 0 (i + 2) (Nat.zero_le _) (by omega) (by omega)
        · have e₃ := hso (k - first) (by omega) (by omega)
          have e₄ := hso (k + 1 - first) (by omega) (by omega)
          rw [show first + (k - first) = k by omega] at e₃
          rw [show first + (k + 1 - first) = k + 1 by omega] at e₄
          rw [e₃, e₄]
          exact hS k (by omega) hkb)
      (by
        intro x y hx hy hyhi
        rw [hout y (by omega)]
        have := s₂.forall (P := fun e => key e ≤ key (elem d₁ (first + y)))
          (fun k hk hkb => by
            have := hB₁ (k - first) y (by omega) hy hyhi
            rwa [show first + (k - first) = k by omega] at this)
          (first + x) (by omega) (by omega)
        exact this)
    exact ⟨p₁, hw₁.trans ((s₂.mono (le_refl _) (by omega)).trans p₂)⟩

theorem heapSort_func_spec (data : List α) (a b : ℕ) (hO : Ordered less key data)
    (hab : a ≤ b) (hb : b ≤ data.length) :
    SortedOn key (heapSort_func less data a b) a b ∧
      Within a b data (heapSort_func less data a b) := by
  unfold heapSort_func
  simp only
  have hab' : a + (b - a) = b := by omega
  obtain ⟨b₁, b₂⟩ := heapSort_build_spec less key (b - a) a ((b - a - 1) / 2) data hO
    (by omega) (fun c hc hchi hlo _ => by omega)
  rw [hab'] at b₂
  by_cases h0 : b - a = 0
  · rw [if_pos h0]
    exact ⟨SortedOn.of_le (by omega), b₂⟩
  · rw [if_neg h0]
    obtain ⟨p₁, p₂⟩ := heapSort_pop_spec less key a (b - a) (b - a - 1) _ (b₂.ordered hO)
      (by rw [b₂.1]; omega) (by omega)
      (by
        have : b - a - 1 + 1 = b - a := by omega
        rw [this]
        exact b₁)
      (SortedOn.of_le (by omega)) (fun x y hx hy hyhi => by omega)
    rw [hab'] at p₁ p₂
    exact ⟨p₁, b₂.trans p₂⟩

end HeapSort

section Pdqsort

variable {α : Type} [Inhabited α] {K : Type} [LinearOrder K]
  (less : α → α → Bool) (key : α → K)

theorem LowerBound.shrink {data : List α} {a b b' : ℕ} (h : LowerBound key data a b)
    (hb : b' ≤ b) : LowerBound key data a b' :=
  fun ha k hk hkb => h ha k hk (by omega)

theorem sortedOn_of_partitioned {d res : List α} {a mid b : ℕ}
    (hlow : ∀ k, a ≤ k → k < mid → key (elem d k) < key (elem d mid))
    (hhigh : ∀ k, mid < k → k < b → key (elem d mid) ≤ key (elem d k))
    (hmid : elem res mid = elem d mid)
    (hl : ∀ k, a ≤ k → k < mid → ∃ k', a ≤ k' ∧ k' < mid ∧ elem res k = elem d k')
    (hr : ∀ k, mid < k → k < b → ∃ k', mid < k' ∧ k' < b ∧ elem res k = elem d k')
    (hsl : SortedOn key res a mid) (hsr : SortedOn key res (mid + 1) b) :
    SortedOn key res a b := by
  intro k hk hkb
  by_cases h₁ : k + 1 < mid
  · exact hsl k hk h₁
  · by_cases h₂ : k + 1 = mid
    · obtain ⟨k', hk', hk'm, he⟩ := hl k hk (by omega)
      rw [h₂, hmid, he]
      exact le_of_lt (hlow k' hk' hk'm)
    · by_cases h₃ : k = mid
      · obtain ⟨k', hk', hk'b, he⟩ := hr (k + 1) (by omega) hkb
        rw [he, h₃, hmid]
        exact hhigh k' hk' hk'b
      · exact hsr k (by omega) hkb

theorem pdqsort_loop_spec : ∀ (n : ℕ) (data : List α) (a b limit : ℕ) (wb wp : Bool),
    Ordered less key data → a ≤ b → b ≤ data.length → b - a < n →
    LowerBound key data a b →
    SortedOn key (pdqsort_loop less n data a b limit wb wp) a b ∧
      Within a b data (pdqsort_loop less n data a b limit wb wp)
  | 0, _, _, _, _, _, _, _, _, _, hn, _ => by omega
  | n + 1, data, a, b, limit, wb, wp, hO, hab, hb, hn, hL => by
    unfold pdqsort_loop
    simp only
    by_cases h12 : b - a ≤ 12
    · rw [if_pos h12]
      exact insertionSort_func_spec less key data a b hO hb
    · rw [if_neg h12]
      by_cases hl0 : limit = 0
      · rw [if_pos hl0]
        exact heapSort_func_spec less key data a b hO hab hb
      · rw [if_neg hl0]
        have h₁ : Within a b data (if (!wb) = true then breakPatterns_func data a b else data) := by
          split
          · exact breakPatterns_func_within data a b hb
          · exact Within.refl _ _ _
        generalize (if (!wb) = true then breakPatterns_func data a b else data) = d₁ at h₁ ⊢
        generalize (if (!wb) = true then limit - 1 else limit) = limit₁
        have hb₁ : b ≤ d₁.length := by rw [h₁.1]; exact hb
        have hph := choosePivot_func_bounds less d₁ a b (by omega)
        have h₂ : Within a b data (if (choosePivot_func less d₁ a b).2 = sortedHint.decreasingHint
            then reverseRange_func d₁ a b else d₁) := by
          split
          · exact h₁.trans (reverseRange_func_within d₁ a b hb₁ (by omega))
          · exact h₁
        generalize (if (choosePivot_func less d₁ a b).2 = sortedHint.decreasingHint
            then reverseRange_func d₁ a b else d₁) = d₂ at h₂ ⊢
        have hpv : a ≤ (if (choosePivot_func less d₁ a b).2 = sortedHint.decreasingHint
            then b - 1 - ((choosePivot_func less d₁ a b).1 - a)
            else (choosePivot_func less d₁ a b).1) ∧
            (if (choosePivot_func less d₁ a b).2 = sortedHint.decreasingHint
            then b - 1 - ((choosePivot_func less d₁ a b).1 - a)
            else (choosePivot_func less d₁ a b).1) < b := by
          split <;> omega
        generalize (if (choosePivot_func less d₁ a b).2 = sortedHint.decreasingHint
            then b - 1 - ((choosePivot_func less d₁ a b).1 - a)
            else (choosePivot_func less d₁ a b).1) = pivot at hpv ⊢
        generalize (if (choosePivot_func less d₁ a b).2 = sortedHint.decreasingHint
            then sortedHint.increasingHint else (choosePivot_func less d₁ a b).2) = hint
        have hO₂ := h₂.ordered hO
        have hL₂ := h₂.lowerBound hL
        have hb₂ : b ≤ d₂.length := by rw [h₂.1]; exact hb
        have h₃ : Within a b data
            (if (wb && wp && decide (hint = sortedHint.increasingHint)) = true
              then partialInsertionSort_func less d₂ a b else (d₂, false)).1 ∧
            ((if (wb && wp && decide (hint = sortedHint.increasingHint)) = true
              then partialInsertionSort_func less d₂ a b else (d₂, false)).2 = true →
              SortedOn key (if (wb && wp && decide (hint = sortedHint.increasingHint)) = true
                then partialInsertionSort_func less d₂ a b else (d₂, false)).1 a b) := by
          split
          · obtain ⟨q₁, q₂⟩ := partialInsertionSort_func_spec less key d₂ a b hO₂ hb₂ (by omega) hL₂
            exact ⟨h₂.trans q₁, q₂⟩
          · exact ⟨h₂, fun h => by simp at h⟩
        generalize (if (wb && wp && decide (hint = sortedHint.increasingHint)) = true
            then partialInsertionSort_func less d₂ a b else (d₂, false)) = pis at h₃ ⊢
        obtain ⟨hw₃, hs₃⟩ := h₃
        by_cases hpis : pis.2 = true
        · rw [if_pos hpis]
          exact ⟨hs₃ hpis, hw₃⟩
        · rw [if_neg hpis]
          have hO₃ := hw₃.ordered hO
          have hL₃ := hw₃.lowerBound hL
          have hb₃ : b ≤ pis.1.length := by rw [hw₃.1]; exact hb
          generalize pis.1 = d₃ at hw₃ hO₃ hL₃ hb₃ ⊢
          by_cases hpe : (decide (a > 0) && !less (elem d₃ (a - 1)) (elem d₃ pivot)) = true
          · rw [if_pos hpe]
            simp only [Bool.and_eq_true, decide_eq_true_eq, Bool.not_eq_true'] at hpe
            obtain ⟨ha0, hnl⟩ := hpe
            have hple : key (elem d₃ pivot) ≤ key (elem d₃ (a - 1)) := by
              apply not_lt.mp
              rw [← hO₃, hnl]
              simp
            have hmin : ∀ k, a ≤ k → k < b → key (elem d₃ pivot) ≤ key (elem d₃ k) :=
              fun k hk hkb => hple.trans (hL₃ ha0 k hk hkb)
            obtain ⟨e₁, e₂, e₃, e₄, e₅⟩ := partitionEqual_func_spec less key d₃ a b pivot hO₃ hb₃
              hpv.1 hpv.2
            have hmin' := e₁.forall (P := fun x => key (elem d₃ pivot) ≤ key x) hmin
            have hO₄ := e₁.ordered hO₃
            have hb₄ : b ≤ (partitionEqual_func less d₃ a b pivot).1.length := by
              rw [e₁.1]; exact hb₃
            generalize partitionEqual_func less d₃ a b pivot = r at e₁ e₂ e₃ e₄ e₅ hmin' hO₄ hb₄ ⊢
            obtain ⟨ih₁, ih₂⟩ := pdqsort_loop_spec n r.1 r.2 b limit₁ wb wp hO₄ e₃ hb₄ (by omega)
              (fun _ k hk hkb =>
                (not_lt.mp (e₄ (r.2 - 1) (by omega) (by omega))).trans (le_of_lt (e₅ k hk hkb)))
            refine ⟨fun k hk hkb => ?_, hw₃.trans (e₁.trans (ih₂.mono (by omega) (le_refl _)))⟩
            by_cases hk₁ : k + 1 < r.2
            · rw [ih₂.2.1 k (Or.inl (by omega)), ih₂.2.1 (k + 1) (Or.inl hk₁)]
              exact (not_lt.mp (e₄ k hk (by omega))).trans (hmin' (k + 1) (by omega) hkb)
            · by_cases hk₂ : k + 1 = r.2
              · rw [ih₂.2.1 k (Or.inl (by omega))]
                have := ih₂.forall (P := fun x => key (elem d₃ pivot) < key x) e₅ (k + 1)
                  (by omega) hkb
                exact (not_lt.mp (e₄ k hk (by omega))).trans (le_of_lt this)
              · exact ih₁ k (by omega) hkb
          · rw [if_neg hpe]
            obtain ⟨t₁, t₂, t₃, t₄, t₅⟩ := partition_func_spec less key d₃ a b pivot hO₃ hb₃
              hpv.1 hpv.2
            have hO₄ := t₁.ordered hO₃
            have hL₄ := t₁.lowerBound hL₃
            have hb₄ : b ≤ (partition_func less d₃ a b pivot).1.length := by
              rw [t₁.1]; exact hb₃
            generalize partition_func less d₃ a b pivot = r at t₁ t₂ t₃ t₄ t₅ hO₄ hL₄ hb₄ ⊢
            obtain ⟨d₄, mid, wp'⟩ := r
            simp only at t₁ t₂ t₃ t₄ t₅ hO₄ hL₄ hb₄ ⊢
            by_cases hlr : mid - a < b - mid
            · rw [if_pos hlr]
              obtain ⟨l₁, l₂⟩ := pdqsort_loop_spec n d₄ a mid limit₁ true true hO₄ t₂ (by omega)
                (by omega) (LowerBound.shrink key hL₄ (by omega))
              generalize pdqsort_loop less n d₄ a mid limit₁ true true = d₅ at l₁ l₂ ⊢
              obtain ⟨r₁, r₂⟩ := pdqsort_loop_spec n d₅ (mid + 1) b limit₁
                (decide (mid - a ≥ (b - a) / 8)) wp' (l₂.ordered hO₄) (by omega)
                (by rw [l₂.1]; exact hb₄) (by omega)
                (fun _ k hk hkb => by
                  rw [show mid + 1 - 1 = mid by omega, l₂.2.1 mid (Or.inr (le_refl _)),
                    l₂.2.1 k (Or.inr (by omega))]
                  exact t₅ k (by omega) hkb)
              generalize pdqsort_loop less n d₅ (mid + 1) b limit₁
                (decide (mid - a ≥ (b - a) / 8)) wp' = res at r₁ r₂ ⊢
              refine ⟨sortedOn_of_partitioned key t₄ t₅ ?_ ?_ ?_
                (r₂.sortedOn_outside l₁ (Or.inl (by omega))) r₁,
                hw₃.trans (t₁.trans ((l₂.mono (le_refl _) (by omega)).trans
                  (r₂.mono (by omega) (le_refl _))))⟩
              · rw [r₂.2.1 mid (Or.inl (by omega)), l₂.2.1 mid (Or.inr (le_refl _))]
              · intro k hk hkm
                obtain ⟨k', hk', hk'm, he⟩ := l₂.2.2 k hk hkm
                exact ⟨k', hk', hk'm, by rw [r₂.2.1 k (Or.inl (by omega)), he]⟩
              · intro k hk hkb
                obtain ⟨k', hk', hk'b, he⟩ := r₂.2.2 k (by omega) hkb
                exact ⟨k', by omega, hk'b, by rw [he, l₂.2.1 k' (Or.inr (by omega))]⟩
            · rw [if_neg hlr]
              obtain ⟨r₁, r₂⟩ := pdqsort_loop_spec n d₄ (mid + 1) b limit₁ true true hO₄
                (by omega) hb₄ (by omega)
                (fun _ k hk hkb => by
                  rw [show mid + 1 - 1 = mid by omega]
                  exact t₅ k (by omega) hkb)
              generalize pdqsort_loop less n d₄ (mid + 1) b limit₁ true true = d₅ at r₁ r₂ ⊢
              obtain ⟨l₁, l₂⟩ := pdqsort_loop_spec n d₅ a mid limit₁
                (decide (b - mid ≥ (b - a) / 8)) wp' (r₂.ordered hO₄) t₂
                (by rw [r₂.1]; omega) (by omega)
                (fun ha k hk hkb => by
                  rw [r₂.2.1 (a - 1) (Or.inl (by omega)), r₂.2.1 k (Or.inl (by omega))]
                  exact hL₄ ha k hk (by omega))
              generalize pdqsort_loop less n d₅ a mid limit₁
                (decide (b - mid ≥ (b - a) / 8)) wp' = res at l₁ l₂ ⊢
              refine ⟨sortedOn_of_partitioned key t₄ t₅ ?_ ?_ ?_ l₁
                (l₂.sortedOn_outside r₁ (Or.inr (by omega))),
                hw₃.trans (t₁.trans ((r₂.mono (by omega) (le_refl _)).trans
                  (l₂.mono (le_refl _) (by omega))))⟩
              · rw [l₂.2.1 mid (Or.inr (le_refl _)), r₂.2.1 mid (Or.inl (by omega))]
              · intro k hk hkm
                obtain ⟨k', hk', hk'm, he⟩ := l₂.2.2 k hk hkm
                exact ⟨k', hk', hk'm, by rw [he, r₂.2.1 k' (Or.inl (by omega))]⟩
              · intro k hk hkb
                obtain ⟨k', hk', hk'b, he⟩ := r₂.2.2 k (by omega) hkb
                exact ⟨k', by omega, hk'b, by rw [l₂.2.1 k (Or.inr (by omega)), he]⟩

theorem Slice_sorted (x : List α) (hO : Ordered less key x) :
    SortedOn key (Slice x less) 0 x.length ∧ (Slice x less).length = x.length := by
  unfold Slice pdqsort_func
  simp only
  obtain ⟨h₁, h₂⟩ := pdqsort_loop_spec less key (x.length - 0 + 1) x 0 x.length
    (bits_Len x.length) true true hO (Nat.zero_le _) (le_refl _) (by omega)
    (fun h => absurd h (lt_irrefl _))
  exact ⟨h₁, h₂.1⟩

end Pdqsort

/-! ## Ranking: descending order of volume -/

theorem elem_mem_or_default {α : Type} [Inhabited α] (data : List α) (i : ℕ) :
    elem data i ∈ data ∨ elem data i = default := by
  unfold elem
  by_cases h : i < data.length
  · left
    rw [List.getD_eq_getElem _ _ h]
    exact List.getElem_mem h
  · right
    rw [List.getD_eq_default _ _ (by omega)]

theorem elem_eq_getElem {α : Type} [Inhabited α] (data : List α) (i : ℕ)
    (h : i < data.length) : elem data i = data[i] := by
  unfold elem
  exact List.getD_eq_getElem _ _ h

theorem quoteVolume_default_not_isNaN : (quoteVolume default).isNaN = false := by
  decide

theorem ordered_lessByQuoteVolume (tickerData : List TickerData)
    (h : ∀ t ∈ tickerData, (quoteVolume t).isNaN = false) :
    Ordered lessByQuoteVolume (fun t => OrderDual.toDual (quoteVolume t).rank) tickerData := by
  have hn : ∀ i, (quoteVolume (elem tickerData i)).isNaN = false := by
    intro i
    rcases elem_mem_or_default tickerData i with hm | hd
    · exact h _ hm
    · rw [hd]
      exact quoteVolume_default_not_isNaN
  intro i j
  show (quoteVolume (elem tickerData i)).gt (quoteVolume (elem tickerData j)) = true ↔ _
  rw [Float64.gt_iff_of_not_isNaN (hn i) (hn j)]
  exact Iff.rfl

theorem sortByQuoteVolume_pairwise (tickerData : List TickerData)
    (h : ∀ t ∈ tickerData, (quoteVolume t).isNaN = false) :
    (sortByQuoteVolume tickerData).Pairwise
      (fun x y => (quoteVolume x).ge (quoteVolume y) = true) := by
  obtain ⟨hs, hlen⟩ := Slice_sorted lessByQuoteVolume
    (fun t => OrderDual.toDual (quoteVolume t).rank) tickerData
    (ordered_lessByQuoteVolume tickerData h)
  have hperm := sortByQuoteVolume_perm tickerData
  rw [List.pairwise_iff_getElem]
  intro i j hi hj hij
  have hle := hs.le (Nat.zero_le i) (le_of_lt hij) (by
    show j < tickerData.length
    rw [← hlen]
    exact hj)
  have ei : elem (Slice tickerData lessByQuoteVolume) i = (sortByQuoteVolume tickerData)[i] :=
    elem_eq_getElem _ i hi
  have ej : elem (Slice tickerData lessByQuoteVolume) j = (sortByQuoteVolume tickerData)[j] :=
    elem_eq_getElem _ j hj
  rw [ei, ej] at hle
  have hni := h _ (hperm.mem_iff.mp (List.getElem_mem hi))
  have hnj := h _ (hperm.mem_iff.mp (List.getElem_mem hj))
  rw [Float64.ge_iff_of_not_isNaN hni hnj]
  exact OrderDual.toDual_le_toDual.mp hle

theorem roundFloat64_not_errSyntax (neg : Bool) (num den : ℕ) :
    (roundFloat64 neg num den).2 ≠ some NumError.ErrSyntax := by
  unfold roundFloat64
  simp only
  split_ifs <;> simp

theorem ParseFloat_errSyntax {s : String}
    (h : (ParseFloat s).2 = some NumError.ErrSyntax) : (ParseFloat s).1 = Float64.fin 0 0 := by
  unfold ParseFloat at h ⊢
  simp only at h ⊢
  split at h
  · split at h
    · next hn => rw [if_pos hn]
    · simp at h
  · split at h
    · rfl
    · split at h
      · next hr => rw [if_pos hr]
      · exact absurd h (roundFloat64_not_errSyntax _ _ _)

theorem roundFloat64_not_isNaN (neg : Bool) (num den : ℕ) :
    (roundFloat64 neg num den).1.isNaN = false := by
  unfold roundFloat64
  simp only
  split_ifs <;> rfl

theorem special_isNaN {b : List ℕ} {v : Float64} {n : ℕ} (h : special b = some (v, n))
    (hv : v.isNaN = true) :
    n = 3 ∧ commonPrefixLenIgnoreCase b (bytes "nan") = 3 := by
  cases v with
  | Inf neg => simp [Float64.isNaN] at hv
  | fin m e => simp [Float64.isNaN] at hv
  | NaN =>
    unfold special at h
    simp only at h
    split at h
    · simp at h
    · split_ifs at h with h₁ h₂ h₃ h₄ h₅ h₆ h₇ h₈ h₉
      all_goals first
        | (simp only [Option.some.injEq, Prod.mk.injEq, false_and] at h; done)
        | (simp only [Option.some.injEq, Prod.mk.injEq, true_and] at h
           exact ⟨h.symm, by assumption⟩)
        | simp at h

theorem ParseFloat_isNaN {s : String} (h : (ParseFloat s).1.isNaN = true) :
    (bytes s).length = 3 ∧ commonPrefixLenIgnoreCase (bytes s) (bytes "nan") = 3 := by
  unfold ParseFloat at h
  simp only at h
  split at h
  · next val n heq =>
    split at h
    · simp [Float64.isNaN] at h
    · next hn =>
      obtain ⟨h₁, h₂⟩ := special_isNaN heq h
      simp only [ne_eq, not_not] at hn
      exact ⟨by omega, h₂⟩
  · split at h
    · simp [Float64.isNaN] at h
    · split at h
      · simp [Float64.isNaN] at h
      · rw [roundFloat64_not_isNaN] at h
        simp at h

/-- C3, counterexample. A volume string that parses to NaN breaks the order: on the tickers
`A` of volume `"NaN"` and `B` of volume `"1"` the sort leaves `A` in front of `B`, although
the volume of `A` (NaN, or 0 if NaN is read as unparsable) is not `>=` the volume 1 of `B`.
An out-of-range string does not count as 0 either: `ParseFloat "1e999"` returns `+Inf`
together with a range error, the code discards the error, and `B` of volume `"1e999"` is
ranked in front of `A` of volume `"1"`. -/
theorem C3_order_counterexample :
    sortByQuoteVolume [⟨"A", "NaN"⟩, ⟨"B", "1"⟩] = [⟨"A", "NaN"⟩, ⟨"B", "1"⟩] ∧
    getTop50SymbolsByQuoteVolume [⟨"A", "NaN"⟩, ⟨"B", "1"⟩] = ["A", "B"] ∧
    ParseFloat "NaN" = (Float64.NaN, none) ∧
    (claimedVolume ⟨"A", "NaN"⟩).ge (claimedVolume ⟨"B", "1"⟩) = false ∧
    (Float64.fin 0 0).ge (claimedVolume ⟨"B", "1"⟩) = false ∧
    ¬ (sortByQuoteVolume [⟨"A", "NaN"⟩, ⟨"B", "1"⟩]).Pairwise
        (fun x y => (claimedVolume x).ge (claimedVolume y) = true) ∧
    ParseFloat "1e999" = (Float64.Inf false, some NumError.ErrRange) ∧
    getTop50SymbolsByQuoteVolume [⟨"A", "1"⟩, ⟨"B", "1e999"⟩] = ["B", "A"] ∧
    (claimedVolume ⟨"B", "1e999"⟩).ge (claimedVolume ⟨"A", "1"⟩) = false := by
  refine ⟨by decide, by decide, by decide, by decide, by decide, by decide, by decide!,
    by decide!, by decide!⟩

/-- C3, amended. For every ticker list in which no `quoteVolume` string parses to NaN, the
slice sorted by `getTop50SymbolsByQuoteVolume` is a permutation of the input in descending
order of volume, the volume of a ticker being the value `strconv.ParseFloat` returns for
its `quoteVolume` string with the error discarded (0 for a syntactically invalid string):
for any two positions `i < j` the volume at `i` is `>=` the volume at `j`. The output is the
symbols of the first 50 tickers of that slice, so it is in descending order of volume and
every ticker left out has a volume `<=` that of every ticker in it. Only the three-byte
strings spelling `nan` in some letter case parse to NaN. -/
theorem C3_descending_by_volume (tickerData : List TickerData)
    (h : ∀ t ∈ tickerData, (quoteVolume t).isNaN = false) :
    getTop50SymbolsByQuoteVolume tickerData =
      ((sortByQuoteVolume tickerData).take 50).map TickerData.Symbol ∧
    (sortByQuoteVolume tickerData).Perm tickerData ∧
    (sortByQuoteVolume tickerData).Pairwise
      (fun x y => (quoteVolume x).ge (quoteVolume y) = true) ∧
    ((sortByQuoteVolume tickerData).take 50).Pairwise
      (fun x y => (quoteVolume x).ge (quoteVolume y) = true) ∧
    (∀ x ∈ (sortByQuoteVolume tickerData).take 50, ∀ y ∈ (sortByQuoteVolume tickerData).drop 50,
      (quoteVolume x).ge (quoteVolume y) = true) ∧
    (∀ t : TickerData, (ParseFloat t.QuoteVolume).2 = some NumError.ErrSyntax →
      quoteVolume t = Float64.fin 0 0) ∧
    (∀ t : TickerData, (quoteVolume t).isNaN = true →
      (bytes t.QuoteVolume).length = 3 ∧
        commonPrefixLenIgnoreCase (bytes t.QuoteVolume) (bytes "nan") = 3) := by
  have hp := sortByQuoteVolume_pairwise tickerData h
  refine ⟨getTop50_eq tickerData, sortByQuoteVolume_perm tickerData, hp,
    hp.sublist (List.take_sublist _ _), ?_, fun t ht => ParseFloat_errSyntax ht,
    fun t ht => ParseFloat_isNaN ht⟩
  have hsplit := List.take_append_drop 50 (sortByQuoteVolume tickerData)
  rw [← hsplit, List.pairwise_append] at hp
  exact hp.2.2

theorem C3_descending_witness :
    (∀ t ∈ ([⟨"A", "500"⟩, ⟨"B", "oops"⟩, ⟨"C", "1000000"⟩] : List TickerData),
      (quoteVolume t).isNaN = false) ∧
    getTop50SymbolsByQuoteVolume [⟨"A", "500"⟩, ⟨"B", "oops"⟩, ⟨"C", "1000000"⟩] =
      ["C", "A", "B"] ∧
    (sortByQuoteVolume [⟨"A", "500"⟩, ⟨"B", "oops"⟩, ⟨"C", "1000000"⟩]).Pairwise
      (fun x y => (quoteVolume x).ge (quoteVolume y) = true) :=
  ⟨by decide, by decide,
    (C3_descending_by_volume [⟨"A", "500"⟩, ⟨"B", "oops"⟩, ⟨"C", "1000000"⟩] (by decide)).2.2.1⟩

/-! ## Candlestick rows -/

theorem Float64.truncatesTo_of_isInt {f : Float64} {n : ℤ} (h : f.IsInt n) :
    f.TruncatesTo n := by
  cases f with
  | NaN => exact absurd h (by simp [Float64.IsInt])
  | Inf neg => exact absurd h (by simp [Float64.IsInt])
  | fin m e =>
    simp only [Float64.IsInt] at h
    simp only [Float64.TruncatesTo]
    by_cases he : 0 ≤ e
    · rw [if_pos he] at h
      rw [if_pos he]
      exact h
    · rw [if_neg he] at h
      rw [if_neg he]
      have hK : (0 : ℤ) < 2 ^ (-e).toNat := by positivity
      subst h
      refine ⟨fun _ => ⟨le_refl _, ?_⟩, fun _ => ⟨?_, le_refl _⟩⟩
      · nlinarith
      · nlinarith

theorem Float64.tdiv_of_truncatesTo {m e n : ℤ} (he : ¬ 0 ≤ e)
    (h : (Float64.fin m e).TruncatesTo n) : Int.tdiv m (2 ^ (-e).toNat) = n := by
  simp only [Float64.TruncatesTo, if_neg he] at h
  have hK : (0 : ℤ) < 2 ^ (-e).toNat := by positivity
  rcases le_or_lt 0 m with hm | hm
  · obtain ⟨h₁, h₂⟩ := h.1 hm
    rw [Int.tdiv_eq_ediv hm hK.le]
    exact le_antisymm (Int.lt_add_one_iff.mp (Int.ediv_lt_of_lt_mul hK h₂))
      (Int.le_ediv_of_mul_le hK h₁)
  · obtain ⟨h₁, h₂⟩ := h.2 hm
    have hneg : Int.tdiv m (2 ^ (-e).toNat) = -Int.tdiv (-m) (2 ^ (-e).toNat) := by
      rw [Int.neg_tdiv, neg_neg]
    have hdiv : -m / 2 ^ (-e).toNat = -n := by
      refine le_antisymm (Int.lt_add_one_iff.mp (Int.ediv_lt_of_lt_mul hK ?_))
        (Int.le_ediv_of_mul_le hK ?_)
      · nlinarith
      · nlinarith
    rw [hneg, Int.tdiv_eq_ediv (by omega) hK.le, hdiv, neg_neg]

theorem Float64.toInt64_of_truncatesTo {f : Float64} {n : ℤ} (h : f.TruncatesTo n)
    (hlo : -2 ^ 63 ≤ n) (hhi : n < 2 ^ 63) : f.toInt64 = n := by
  cases f with
  | NaN => exact absurd h (by simp [Float64.TruncatesTo])
  | Inf neg => exact absurd h (by simp [Float64.TruncatesTo])
  | fin m e =>
    simp only [Float64.toInt64]
    by_cases he : 0 ≤ e
    · simp only [Float64.TruncatesTo, if_pos he] at h
      simp only [if_pos he, ← h]
      rw [if_pos ⟨hlo, hhi⟩]
    · simp only [if_neg he, Float64.tdiv_of_truncatesTo he h]
      rw [if_pos ⟨hlo, hhi⟩]

theorem Float64.convertsTo_toInt64 (f : Float64) : f.ConvertsTo f.toInt64 :=
  fun _ h hlo hhi => Float64.toInt64_of_truncatesTo h hlo hhi

theorem Float64.isInt_ofInt (n : ℤ) : (Float64.ofInt n).IsInt n := by
  simp [Float64.ofInt, Float64.IsInt]

theorem index_eq_ok {data : List JSONValue} {i : ℕ} {v : JSONValue} (h : data[i]? = some v) :
    index data i = .ok v := by
  simp [index, h]

theorem buildOHLCV_of_wellTyped (symbol : String) {data : List JSONValue}
    (h : WellTypedRow data) : ∃ r, buildOHLCV symbol data = .ok r ∧ RecordOf symbol data r := by
  obtain ⟨hn, hs⟩ := h
  obtain ⟨f0, h0⟩ := hn 0 (by simp)
  obtain ⟨f6, h6⟩ := hn 6 (by simp)
  obtain ⟨f8, h8⟩ := hn 8 (by simp)
  obtain ⟨s1, h1⟩ := hs 1 (by simp)
  obtain ⟨s2, h2⟩ := hs 2 (by simp)
  obtain ⟨s3, h3⟩ := hs 3 (by simp)
  obtain ⟨s4, h4⟩ := hs 4 (by simp)
  obtain ⟨s5, h5⟩ := hs 5 (by simp)
  obtain ⟨s7, h7⟩ := hs 7 (by simp)
  obtain ⟨s9, h9⟩ := hs 9 (by simp)
  obtain ⟨s10, h10⟩ := hs 10 (by simp)
  refine ⟨OHLCVData.mk symbol f0.toInt64 s1 s2 s3 s4 s5 f6.toInt64 s7 f8.toInt64 s9 s10,
    ?_, ?_⟩
  · unfold buildOHLCV
    simp only [index_eq_ok h0, index_eq_ok h1, index_eq_ok h2, index_eq_ok h3, index_eq_ok h4,
      index_eq_ok h5, index_eq_ok h6, index_eq_ok h7, index_eq_ok h8, index_eq_ok h9,
      index_eq_ok h10, bind, Except.bind, assertFloat64, assertString, pure, Except.pure]
  · exact ⟨rfl, ⟨f0, h0, f0.convertsTo_toInt64⟩, h1, h2, h3, h4, h5,
      ⟨f6, h6, f6.convertsTo_toInt64⟩, h7, ⟨f8, h8, f8.convertsTo_toInt64⟩, h9, h10⟩

theorem fetchOHLCVForSymbol_rows_of_wellTyped (symbol : String) :
    ∀ (rawData : List (List JSONValue)) (ohlcvData : List OHLCVData),
    (∀ data ∈ rawData, 11 ≤ data.length → WellTypedRow data) →
    ∃ records, fetchOHLCVForSymbol_rows symbol rawData ohlcvData = .ok (ohlcvData ++ records) ∧
      List.Forall₂ (RecordOf symbol)
        (rawData.filter (fun data => decide (11 ≤ data.length))) records
  | [], ohlcvData, _ => ⟨[], by simp [fetchOHLCVForSymbol_rows, pure, Except.pure], by simp⟩
  | data :: rest, ohlcvData, h => by
    unfold fetchOHLCVForSymbol_rows fetchOHLCVForSymbol_row
    by_cases hlen : data.length < 11
    · obtain ⟨records, hr, hf⟩ := fetchOHLCVForSymbol_rows_of_wellTyped symbol rest ohlcvData
        (fun d hd => h d (List.mem_cons_of_mem _ hd))
      refine ⟨records, ?_, ?_⟩
      · simp only [if_pos hlen, bind, Except.bind, pure, Except.pure]
        exact hr
      · have : ¬ 11 ≤ data.length := by omega
        simpa [List.filter_cons, this] using hf
    · obtain ⟨r, hb, hrec⟩ := buildOHLCV_of_wellTyped symbol
        (h data (List.mem_cons_self _ _) (by omega))
      obtain ⟨records, hr, hf⟩ := fetchOHLCVForSymbol_rows_of_wellTyped symbol rest
        (ohlcvData ++ [r]) (fun d hd => h d (List.mem_cons_of_mem _ hd))
      refine ⟨r :: records, ?_, ?_⟩
      · simp only [if_neg hlen, hb, bind, Except.bind, pure, Except.pure]
        rw [hr]
        simp
      · have : 11 ≤ data.length := by omega
        simpa [List.filter_cons, this] using And.intro hrec hf

theorem wellTypedRow_klinesRow : WellTypedRow klinesRow := by
  constructor
  · intro i hi
    simp only [List.mem_cons, List.mem_singleton, List.not_mem_nil, or_false] at hi
    rcases hi with rfl | rfl | rfl <;> exact ⟨_, rfl⟩
  · intro i hi
    simp only [List.mem_cons, List.mem_singleton, List.not_mem_nil, or_false] at hi
    rcases hi with rfl | rfl | rfl | rfl | rfl | rfl | rfl | rfl <;> exact ⟨_, rfl⟩

theorem wellTypedRow_hugeTradesRow : WellTypedRow hugeTradesRow := by
  constructor
  · intro i hi
    simp only [List.mem_cons, List.mem_singleton, List.not_mem_nil, or_false] at hi
    rcases hi with rfl | rfl | rfl <;> exact ⟨_, rfl⟩
  · intro i hi
    simp only [List.mem_cons, List.mem_singleton, List.not_mem_nil, or_false] at hi
    rcases hi with rfl | rfl | rfl | rfl | rfl | rfl | rfl | rfl <;> exact ⟨_, rfl⟩

theorem wellTypedRow_fractionalRow : WellTypedRow fractionalRow := by
  constructor
  · intro i hi
    simp only [List.mem_cons, List.mem_singleton, List.not_mem_nil, or_false] at hi
    rcases hi with rfl | rfl | rfl <;> exact ⟨_, rfl⟩
  · intro i hi
    simp only [List.mem_cons, List.mem_singleton, List.not_mem_nil, or_false] at hi
    rcases hi with rfl | rfl | rfl | rfl | rfl | rfl | rfl | rfl <;> exact ⟨_, rfl⟩

/-- C6, counterexample. Two responses of one well-typed row of eleven elements. In the first
the number of trades at position 8 is the JSON number `9223372036854775807`, which
`json.Unmarshal` decodes to the `float64` of value `2 ^ 63`; the record gets
`NumberOfTrades = -9223372036854775808`, which is neither. In the second the open time at
position 0 is the JSON number `1.5`; the record gets `OpenTime = 1`. -/
theorem C6_integer_fields_counterexample :
    (WellTypedRow hugeTradesRow ∧ hugeTradesRow.length = 11 ∧
      hugeTradesRow[8]? = some (jsonNumber "9223372036854775807") ∧
      jsonNumber "9223372036854775807" = JSONValue.number (Float64.fin 9007199254740992 10) ∧
      (Float64.fin 9007199254740992 10).IsInt 9223372036854775808 ∧
      fetchOHLCVForSymbol_rows "BTCUSDT" [hugeTradesRow] [] =
        .ok [{ klinesRecord "BTCUSDT" with NumberOfTrades := -9223372036854775808 }]) ∧
    (WellTypedRow fractionalRow ∧ fractionalRow.length = 11 ∧
      fractionalRow[0]? = some (jsonNumber "1.5") ∧
      jsonNumber "1.5" = JSONValue.number (Float64.fin 6755399441055744 (-52)) ∧
      (Float64.fin 6755399441055744 (-52)).TruncatesTo 1 ∧
      (∀ n, ¬ (Float64.fin 6755399441055744 (-52)).IsInt n) ∧
      fetchOHLCVForSymbol_rows "BTCUSDT" [fractionalRow] [] =
        .ok [{ klinesRecord "BTCUSDT" with OpenTime := 1 }]) := by
  refine ⟨⟨wellTypedRow_hugeTradesRow, rfl, rfl, ?_, ?_, ?_⟩,
    ⟨wellTypedRow_fractionalRow, rfl, rfl, ?_, ?_, ?_, ?_⟩⟩
  · show JSONValue.number (ParseFloat "9223372036854775807").1 = _
    have h : (ParseFloat "9223372036854775807").1 = Float64.fin 9007199254740992 10 := by
      decide
    rw [h]
  · simp [Float64.IsInt]
  · rfl
  · show JSONValue.number (ParseFloat "1.5").1 = _
    have h : (ParseFloat "1.5").1 = Float64.fin 6755399441055744 (-52) := by decide
    rw [h]
  · simp [Float64.TruncatesTo]
  · intro n hn
    simp only [Float64.IsInt] at hn
    have h52 : Int.toNat 52 = 52 := rfl
    norm_num [h52] at hn
    omega
  · rfl

/-- C6, amended. For every symbol, every prior content of the store and every klines response
whose rows of length at least 11 are well-typed, the row loop of `fetchOHLCVForSymbol`
returns the prior store followed, in row order, by one record per row of length at least 11
and none for a shorter row. Each record carries the symbol, the strings at positions 1, 2, 3,
4, 5, 7, 9, 10 unchanged, and as `OpenTime`, `CloseTime`, `NumberOfTrades` the numbers at
positions 0, 6, 8 truncated toward zero, whenever the truncated number lies in the `int64`
range; a number that is an integer truncates to itself. -/
theorem C6_rows_append_one_record_per_long_row (symbol : String)
    (ohlcvData : List OHLCVData) (rawData : List (List JSONValue))
    (h : ∀ data ∈ rawData, 11 ≤ data.length → WellTypedRow data) :
    (∃ records, fetchOHLCVForSymbol_rows symbol rawData ohlcvData = .ok (ohlcvData ++ records) ∧
      List.Forall₂ (RecordOf symbol)
        (rawData.filter (fun data => decide (11 ≤ data.length))) records) ∧
    (∀ (f : Float64) (n : ℤ), f.IsInt n → f.TruncatesTo n) :=
  ⟨fetchOHLCVForSymbol_rows_of_wellTyped symbol rawData ohlcvData h,
    fun _ _ hf => Float64.truncatesTo_of_isInt hf⟩

theorem C6_rows_witness :
    (∀ data ∈ [klinesRow, [JSONValue.null], fractionalRow], 11 ≤ data.length →
      WellTypedRow data) ∧
    ((∃ records, fetchOHLCVForSymbol_rows "BTCUSDT" [klinesRow, [JSONValue.null], fractionalRow]
        [klinesRecord "ETHUSDT"] = .ok ([klinesRecord "ETHUSDT"] ++ records) ∧
      List.Forall₂ (RecordOf "BTCUSDT")
        ([klinesRow, [JSONValue.null], fractionalRow].filter
          (fun data => decide (11 ≤ data.length))) records) ∧
    (∀ (f : Float64) (n : ℤ), f.IsInt n → f.TruncatesTo n)) := by
  have hw : ∀ data ∈ [klinesRow, [JSONValue.null], fractionalRow], 11 ≤ data.length →
      WellTypedRow data := by
    intro data hd hlen
    simp only [List.mem_cons, List.mem_singleton, List.not_mem_nil, or_false] at hd
    rcases hd with rfl | rfl | rfl
    · exact wellTypedRow_klinesRow
    · simp at hlen
    · exact wellTypedRow_fractionalRow
  exact ⟨hw, C6_rows_append_one_record_per_long_row "BTCUSDT" [klinesRecord "ETHUSDT"] _ hw⟩

/-- C7, the code at a failing input. For the response `[klinesRow, mistypedRow, klinesRow]`
(valid row, row with a JSON number at position 1, valid row) `fetchOHLCVForSymbol` panics in
the type assertion of the second row: the row is not skipped, the fetch does not return, and
the third row is never processed. The same response without the mistyped row yields two
records. -/
theorem C7_mistyped_row_panics :
    fetchOHLCVForSymbol (.decoded [klinesRow, mistypedRow, klinesRow]) "BTCUSDT" [] =
      .error "interface conversion: interface {} is not string" ∧
    fetchOHLCVForSymbol (.decoded [klinesRow, klinesRow]) "BTCUSDT" [] =
      .ok [klinesRecord "BTCUSDT", klinesRecord "BTCUSDT"] ∧
    11 ≤ mistypedRow.length ∧ ¬ WellTypedRow mistypedRow := by
  refine ⟨rfl, rfl, by decide, ?_⟩
  intro h
  obtain ⟨s, hs⟩ := h.2 1 (by simp)
  simp [mistypedRow] at hs

/-- C8, counterexample. For the klines response of scenario 2 as written, with the close
time at position 6 a JSON string, `fetchOHLCVForSymbol` panics in the type assertion
`data[6].(float64)`; it does not append a record. And a single row of eleven elements with
numbers at positions 0, 6, 8 does not always give the number at position 0 as `OpenTime` or
the number at position 8 as `NumberOfTrades`: the JSON number `1.5` at position 0 gives
`OpenTime = 1`, the JSON number `9223372036854775807` at position 8 gives
`NumberOfTrades = -9223372036854775808`. -/
theorem C8_scenario2_counterexample :
    fetchOHLCVForSymbol (.decoded [scenario2Row]) "BTCUSDT" [] =
      .error "interface conversion: interface {} is not float64" ∧
    (¬ ∃ r, fetchOHLCVForSymbol (.decoded [scenario2Row]) "BTCUSDT" [] = .ok [r]) ∧
    fetchOHLCVForSymbol (.decoded [fractionalRow]) "BTCUSDT" [] =
      .ok [{ klinesRecord "BTCUSDT" with OpenTime := 1 }] ∧
    fetchOHLCVForSymbol (.decoded [hugeTradesRow]) "BTCUSDT" [] =
      .ok [{ klinesRecord "BTCUSDT" with NumberOfTrades := -9223372036854775808 }] := by
  have h : fetchOHLCVForSymbol (.decoded [scenario2Row]) "BTCUSDT" [] =
      .error "interface conversion: interface {} is not float64" := rfl
  refine ⟨h, ?_, rfl, rfl⟩
  rintro ⟨r, hr⟩
  rw [h] at hr
  cases hr

/-- C8, amended. For every response made of a single 11-element row with numbers at
positions 0, 6 and 8 (the close time a JSON number) and strings at positions 1, 2, 3, 4, 5, 7,
9, 10, where the numbers at positions 0 and 8, truncated toward zero, are `n₀` and `n₈` and
lie in the `int64` range, `fetchOHLCVForSymbol` appends exactly one record to the store, with
the requested symbol, `OpenTime = n₀`, `Open` the string at position 1 and
`NumberOfTrades = n₈`; a number that is an integer truncates to itself. For the values of
scenario 2 and symbol `"BTCUSDT"` the record has 1600000000000, `"1.0"` and 10. -/
theorem C8_single_row_appends_one_record (symbol : String) (ohlcvData : List OHLCVData)
    (f₀ f₆ f₈ : Float64) (s₁ s₂ s₃ s₄ s₅ s₇ s₉ s₁₀ : String) (n₀ n₈ : ℤ)
    (h₀ : f₀.TruncatesTo n₀) (h₀lo : -2 ^ 63 ≤ n₀) (h₀hi : n₀ < 2 ^ 63)
    (h₈ : f₈.TruncatesTo n₈) (h₈lo : -2 ^ 63 ≤ n₈) (h₈hi : n₈ < 2 ^ 63) :
    (∃ r, fetchOHLCVForSymbol
        (.decoded [[.number f₀, .string s₁, .string s₂, .string s₃, .string s₄, .string s₅,
          .number f₆, .string s₇, .number f₈, .string s₉, .string s₁₀]]) symbol ohlcvData =
        .ok (ohlcvData ++ [r]) ∧
      r.Symbol = symbol ∧ r.OpenTime = n₀ ∧ r.Open = s₁ ∧ r.NumberOfTrades = n₈) ∧
    (∀ (f : Float64) (n : ℤ), f.IsInt n → f.TruncatesTo n) ∧
    (∃ r, fetchOHLCVForSymbol (.decoded [klinesRow]) "BTCUSDT" [] = .ok [r] ∧
      r.Symbol = "BTCUSDT" ∧ r.OpenTime = 1600000000000 ∧ r.Open = "1.0" ∧
      r.NumberOfTrades = 10) :=
  ⟨⟨_, rfl, rfl, Float64.toInt64_of_truncatesTo h₀ h₀lo h₀hi, rfl,
      Float64.toInt64_of_truncatesTo h₈ h₈lo h₈hi⟩,
    fun _ _ hf => Float64.truncatesTo_of_isInt hf,
    ⟨klinesRecord "BTCUSDT", rfl, rfl, rfl, rfl, rfl⟩⟩

theorem C8_single_row_witness :
    (Float64.ofInt 1600000000000).TruncatesTo 1600000000000 ∧
    (Float64.ofInt 10).TruncatesTo 10 ∧
    ((∃ r, fetchOHLCVForSymbol
        (.decoded [[.number (.ofInt 1600000000000), .string "1.0", .string "2.0",
          .string "0.5", .string "1.5", .string "100", .number (.ofInt 1600000059999),
          .string "150.0", .number (.ofInt 10), .string "50", .string "75"]]) "BTCUSDT" [] =
        .ok ([] ++ [r]) ∧
      r.Symbol = "BTCUSDT" ∧ r.OpenTime = 1600000000000 ∧ r.Open = "1.0" ∧
      r.NumberOfTrades = 10) ∧
    (∀ (f : Float64) (n : ℤ), f.IsInt n → f.TruncatesTo n) ∧
    (∃ r, fetchOHLCVForSymbol (.decoded [klinesRow]) "BTCUSDT" [] = .ok [r] ∧
      r.Symbol = "BTCUSDT" ∧ r.OpenTime = 1600000000000 ∧ r.Open = "1.0" ∧
      r.NumberOfTrades = 10)) :=
  ⟨Float64.truncatesTo_of_isInt (Float64.isInt_ofInt _),
    Float64.truncatesTo_of_isInt (Float64.isInt_ofInt _),
    C8_single_row_appends_one_record "BTCUSDT" [] (.ofInt 1600000000000)
      (.ofInt 1600000059999) (.ofInt 10) "1.0" "2.0" "0.5" "1.5" "100" "150.0" "50" "75"
      1600000000000 10
      (Float64.truncatesTo_of_isInt (Float64.isInt_ofInt _)) (by norm_num) (by norm_num)
      (Float64.truncatesTo_of_isInt (Float64.isInt_ofInt _)) (by norm_num) (by norm_num)⟩

/-! ## Goroutines: every interleaving appends what the sequential run appends -/

theorem except_bind_eq_ok {ε α β : Type} {x : Except ε α} {f : α → Except ε β} {b : β} :
    (x >>= f) = .ok b ↔ ∃ a, x = .ok a ∧ f a = .ok b := by
  cases x with
  | error e => simp [bind, Except.bind]
  | ok a => simp [bind, Except.bind]

theorem index_assertFloat64_eq_ok {data : List JSONValue} {i : ℕ} {f : Float64} :
    (index data i >>= assertFloat64) = .ok f ↔ data[i]? = some (JSONValue.number f) := by
  rw [except_bind_eq_ok]
  unfold index
  cases h : data[i]? with
  | none => simp
  | some v => cases v <;> simp [assertFloat64]

theorem index_assertString_eq_ok {data : List JSONValue} {i : ℕ} {s : String} :
    (index data i >>= assertString) = .ok s ↔ data[i]? = some (JSONValue.string s) := by
  rw [except_bind_eq_ok]
  unfold index
  cases h : data[i]? with
  | none => simp
  | some v => cases v <;> simp [assertString]

theorem recordOf_of_buildOHLCV {symbol : String} {data : List JSONValue} {r : OHLCVData}
    (h : buildOHLCV symbol data = .ok r) : RecordOf symbol data r := by
  unfold buildOHLCV at h
  simp only [except_bind_eq_ok] at h
  obtain ⟨f0, h0, s1, h1, s2, h2, s3, h3, s4, h4, s5, h5, f6, h6, s7, h7, f8, h8, s9, h9,
    s10, h10, hr⟩ := h
  have hr' : r = OHLCVData.mk symbol f0.toInt64 s1 s2 s3 s4 s5 f6.toInt64 s7 f8.toInt64 s9 s10 := by
    simpa [pure, Except.pure] using hr.symm
  subst hr'
  have F := fun (i : ℕ) (f : Float64) (hx : ∃ a, index data i = .ok a ∧ assertFloat64 a = .ok f) =>
    index_assertFloat64_eq_ok.mp (except_bind_eq_ok.mpr hx)
  have S := fun (i : ℕ) (s : String) (hx : ∃ a, index data i = .ok a ∧ assertString a = .ok s) =>
    index_assertString_eq_ok.mp (except_bind_eq_ok.mpr hx)
  exact ⟨rfl, ⟨f0, F _ _ h0, f0.convertsTo_toInt64⟩, S _ _ h1, S _ _ h2, S _ _ h3, S _ _ h4,
    S _ _ h5, ⟨f6, F _ _ h6, f6.convertsTo_toInt64⟩, S _ _ h7,
    ⟨f8, F _ _ h8, f8.convertsTo_toInt64⟩, S _ _ h9, S _ _ h10⟩

theorem fetchOHLCVForSymbol_row_append (symbol : String) (data : List JSONValue)
    (ohlcvData : List OHLCVData) :
    fetchOHLCVForSymbol_row symbol data ohlcvData =
      (fetchOHLCVForSymbol_row symbol data []).map (ohlcvData ++ ·) := by
  unfold fetchOHLCVForSymbol_row
  split
  · simp [pure, Except.pure, Except.map]
  · cases buildOHLCV symbol data <;> simp [bind, Except.bind, pure, Except.pure, Except.map]

theorem fetchOHLCVForSymbol_rows_append (symbol : String) :
    ∀ (rawData : List (List JSONValue)) (ohlcvData : List OHLCVData),
    fetchOHLCVForSymbol_rows symbol rawData ohlcvData =
      (fetchOHLCVForSymbol_rows symbol rawData []).map (ohlcvData ++ ·)
  | [], ohlcvData => by simp [fetchOHLCVForSymbol_rows, pure, Except.pure, Except.map]
  | data :: rest, ohlcvData => by
    unfold fetchOHLCVForSymbol_rows
    rw [fetchOHLCVForSymbol_row_append symbol data ohlcvData]
    cases h : fetchOHLCVForSymbol_row symbol data [] with
    | error e => simp [bind, Except.bind, Except.map]
    | ok new =>
      simp only [bind, Except.bind, Except.map]
      rw [fetchOHLCVForSymbol_rows_append symbol rest (ohlcvData ++ new),
        fetchOHLCVForSymbol_rows_append symbol rest new]
      cases fetchOHLCVForSymbol_rows symbol rest [] <;> simp [Except.map]

theorem fetchOHLCVForSymbol_unwind_nil (symbol : String) (ohlcvData : List OHLCVData) :
    fetchOHLCVForSymbol_unwind symbol [] ohlcvData = (ohlcvData, none) := by
  rw [fetchOHLCVForSymbol_unwind]

theorem fetchOHLCVForSymbol_unwind_cons_ok {symbol : String} {data : List JSONValue}
    {rest : List (List JSONValue)} {ohlcvData out : List OHLCVData}
    (h : fetchOHLCVForSymbol_row symbol data ohlcvData = .ok out) :
    fetchOHLCVForSymbol_unwind symbol (data :: rest) ohlcvData =
      fetchOHLCVForSymbol_unwind symbol rest out := by
  rw [fetchOHLCVForSymbol_unwind, h]

theorem fetchOHLCVForSymbol_unwind_cons_error {symbol : String} {data : List JSONValue}
    {rest : List (List JSONValue)} {ohlcvData : List OHLCVData} {msg : String}
    (h : fetchOHLCVForSymbol_row symbol data ohlcvData = .error msg) :
    fetchOHLCVForSymbol_unwind symbol (data :: rest) ohlcvData = (ohlcvData, some msg) := by
  rw [fetchOHLCVForSymbol_unwind, h]

theorem fetchOHLCVForSymbol_unwind_append (symbol : String) :
    ∀ (rawData : List (List JSONValue)) (ohlcvData : List OHLCVData),
    fetchOHLCVForSymbol_unwind symbol rawData ohlcvData =
      (ohlcvData ++ (fetchOHLCVForSymbol_unwind symbol rawData []).1,
        (fetchOHLCVForSymbol_unwind symbol rawData []).2)
  | [], ohlcvData => by simp [fetchOHLCVForSymbol_unwind]
  | data :: rest, ohlcvData => by
    have hrow := fetchOHLCVForSymbol_row_append symbol data ohlcvData
    cases h : fetchOHLCVForSymbol_row symbol data [] with
    | error msg =>
      rw [h] at hrow
      rw [fetchOHLCVForSymbol_unwind_cons_error hrow, fetchOHLCVForSymbol_unwind_cons_error h]
      simp
    | ok new =>
      rw [h] at hrow
      rw [fetchOHLCVForSymbol_unwind_cons_ok hrow, fetchOHLCVForSymbol_unwind_cons_ok h,
        fetchOHLCVForSymbol_unwind_append symbol rest (ohlcvData ++ new),
        fetchOHLCVForSymbol_unwind_append symbol rest new]
      simp

theorem fetchOHLCVForSymbol_unwind_of_rows (symbol : String) :
    ∀ (rawData : List (List JSONValue)) (ohlcvData out : List OHLCVData),
    fetchOHLCVForSymbol_rows symbol rawData ohlcvData = .ok out →
    fetchOHLCVForSymbol_unwind symbol rawData ohlcvData = (out, none)
  | [], ohlcvData, out, h => by
    simp only [fetchOHLCVForSymbol_rows, pure, Except.pure, Except.ok.injEq] at h
    simp [fetchOHLCVForSymbol_unwind, h]
  | data :: rest, ohlcvData, out, h => by
    unfold fetchOHLCVForSymbol_rows at h
    rw [except_bind_eq_ok] at h
    obtain ⟨mid, hrow, hrest⟩ := h
    rw [fetchOHLCVForSymbol_unwind_cons_ok hrow]
    exact fetchOHLCVForSymbol_unwind_of_rows symbol rest mid out hrest

theorem fetchOHLCVForSymbol_unwind_records (symbol : String) :
    ∀ (rawData : List (List JSONValue)), ∀ r ∈ (fetchOHLCVForSymbol_unwind symbol rawData []).1,
      ∃ data ∈ rawData, 11 ≤ data.length ∧ buildOHLCV symbol data = .ok r
  | [], r, hr => by simp [fetchOHLCVForSymbol_unwind] at hr
  | data :: rest, r, hr => by
    cases h : fetchOHLCVForSymbol_row symbol data [] with
    | error msg =>
      rw [fetchOHLCVForSymbol_unwind_cons_error h] at hr
      simp at hr
    | ok new =>
      rw [fetchOHLCVForSymbol_unwind_cons_ok h, fetchOHLCVForSymbol_unwind_append] at hr
      rcases List.mem_append.mp hr with hr | hr
      · unfold fetchOHLCVForSymbol_row at h
        by_cases hlen : data.length < 11
        · rw [if_pos hlen] at h
          simp only [pure, Except.pure, Except.ok.injEq] at h
          subst h
          simp at hr
        · rw [if_neg hlen, except_bind_eq_ok] at h
          obtain ⟨r', hb, hnew⟩ := h
          simp only [pure, Except.pure, Except.ok.injEq, List.nil_append] at hnew
          subst hnew
          rw [List.mem_singleton] at hr
          subst hr
          exact ⟨data, List.mem_cons_self _ _, by omega, hb⟩
      · obtain ⟨d, hd, hlen, hb⟩ := fetchOHLCVForSymbol_unwind_records symbol rest r hr
        exact ⟨d, List.mem_cons_of_mem _ hd, hlen, hb⟩

theorem recordsOf_cons (g : Goroutine) (gs : List Goroutine) :
    recordsOf (g :: gs) = (fetchOHLCVForSymbol_unwind g.symbol g.pending []).1 ++ recordsOf gs := by
  simp [recordsOf]

theorem recordsOf_append (gs₁ gs₂ : List Goroutine) :
    recordsOf (gs₁ ++ gs₂) = recordsOf gs₁ ++ recordsOf gs₂ := by
  simp [recordsOf]

theorem panicsOf_cons (g : Goroutine) (gs : List Goroutine) :
    panicsOf (g :: gs) =
      (fetchOHLCVForSymbol_unwind g.symbol g.pending []).2.toList ++ panicsOf gs := by
  simp [panicsOf]

theorem panicsOf_append (gs₁ gs₂ : List Goroutine) :
    panicsOf (gs₁ ++ gs₂) = panicsOf gs₁ ++ panicsOf gs₂ := by
  simp [panicsOf]

theorem runToCompletion_eq : ∀ (gs : List Goroutine) (ohlcvData : List OHLCVData)
    (panics : List String),
    runToCompletion gs ohlcvData panics = (ohlcvData ++ recordsOf gs, panics ++ panicsOf gs)
  | [], ohlcvData, panics => by simp [runToCompletion, recordsOf, panicsOf]
  | g :: gs, ohlcvData, panics => by
    rw [runToCompletion, runToCompletion_eq gs, recordsOf_cons, panicsOf_cons,
      fetchOHLCVForSymbol_unwind_append g.symbol g.pending ohlcvData]
    simp

theorem getElem?_split {α : Type} {l : List α} {k : ℕ} {x : α} (h : l[k]? = some x) :
    ∃ pre post, l = pre ++ x :: post ∧ ∀ y, l.set k y = pre ++ y :: post := by
  obtain ⟨hk, hx⟩ := List.getElem?_eq_some.mp h
  refine ⟨l.take k, l.drop (k + 1), ?_, ?_⟩
  · rw [← hx, List.getElem_cons_drop, List.take_append_drop]
  · intro y
    rw [List.set_eq_take_append_cons_drop, if_pos hk]

theorem stepGoroutine_spec (k : ℕ) (run : Run) :
    ∃ new newPanics, (stepGoroutine k run).ohlcvData = run.ohlcvData ++ new ∧
      (stepGoroutine k run).panics = run.panics ++ newPanics ∧
      (new ++ recordsOf (stepGoroutine k run).goroutines).Perm (recordsOf run.goroutines) ∧
      (newPanics ++ panicsOf (stepGoroutine k run).goroutines).Perm
        (panicsOf run.goroutines) := by
  cases hk : run.goroutines[k]? with
  | none => exact ⟨[], [], by simp [stepGoroutine, hk]⟩
  | some g =>
    obtain ⟨symbol, pending⟩ := g
    cases pending with
    | nil => exact ⟨[], [], by simp [stepGoroutine, hk]⟩
    | cons data rest =>
      obtain ⟨pre, post, hsplit, hset⟩ := getElem?_split hk
      have hrow := fetchOHLCVForSymbol_row_append symbol data run.ohlcvData
      cases h : fetchOHLCVForSymbol_row symbol data [] with
      | error msg =>
        rw [h] at hrow
        have hstep : stepGoroutine k run =
            ⟨run.goroutines.set k ⟨symbol, []⟩, run.ohlcvData, run.panics ++ [msg]⟩ := by
          simp only [stepGoroutine, hk, hrow, Except.map]
        refine ⟨[], [msg], by rw [hstep]; simp, by rw [hstep], ?_, ?_⟩
        · rw [hstep, hset]
          rw [hsplit]
          simp only [recordsOf_append, recordsOf_cons, fetchOHLCVForSymbol_unwind_cons_error h,
            fetchOHLCVForSymbol_unwind_nil, List.nil_append]
          exact List.Perm.refl _
        · rw [hstep, hset]
          rw [hsplit]
          simp only [panicsOf_append, panicsOf_cons, fetchOHLCVForSymbol_unwind_cons_error h,
            fetchOHLCVForSymbol_unwind_nil, Option.toList, List.nil_append]
          rw [List.perm_iff_count]
          intro a
          simp only [List.count_append]
          omega
      | ok new =>
        rw [h] at hrow
        have hstep : stepGoroutine k run =
            ⟨run.goroutines.set k ⟨symbol, rest⟩, run.ohlcvData ++ new, run.panics⟩ := by
          simp only [stepGoroutine, hk, hrow, Except.map]
        refine ⟨new, [], by rw [hstep], by rw [hstep]; simp, ?_, ?_⟩
        · rw [hstep, hset]
          rw [hsplit]
          simp only [recordsOf_append, recordsOf_cons, fetchOHLCVForSymbol_unwind_cons_ok h]
          rw [fetchOHLCVForSymbol_unwind_append symbol rest new, List.perm_iff_count]
          intro a
          simp only [List.count_append]
          omega
        · rw [hstep, hset]
          rw [hsplit]
          simp only [panicsOf_append, panicsOf_cons, fetchOHLCVForSymbol_unwind_cons_ok h,
            List.nil_append]
          rw [fetchOHLCVForSymbol_unwind_append symbol rest new]

theorem runEvents_passes_spec : ∀ (schedule : List ℕ) (run : Run),
    ∃ added newPanics,
      (runEvents (schedule.map Event.pass) run).ohlcvData = run.ohlcvData ++ added ∧
      (runEvents (schedule.map Event.pass) run).panics = run.panics ++ newPanics ∧
      (added ++ recordsOf (runEvents (schedule.map Event.pass) run).goroutines).Perm
        (recordsOf run.goroutines) ∧
      (newPanics ++ panicsOf (runEvents (schedule.map Event.pass) run).goroutines).Perm
        (panicsOf run.goroutines)
  | [], run => ⟨[], [], by simp [runEvents]⟩
  | k :: schedule, run => by
    obtain ⟨new, np, h₁, h₂, h₃, h₄⟩ := stepGoroutine_spec k run
    obtain ⟨added, ap, a₁, a₂, a₃, a₄⟩ := runEvents_passes_spec schedule (stepGoroutine k run)
    refine ⟨new ++ added, np ++ ap, ?_, ?_, ?_, ?_⟩
    · rw [List.map_cons, runEvents, stepEvent, a₁, h₁, List.append_assoc]
    · rw [List.map_cons, runEvents, stepEvent, a₂, h₂, List.append_assoc]
    · rw [List.map_cons, runEvents, stepEvent, List.append_assoc]
      exact (List.Perm.append_left _ a₃).trans h₃
    · rw [List.map_cons, runEvents, stepEvent, List.append_assoc]
      exact (List.Perm.append_left _ a₄).trans h₄

/-- Goroutines whose passes are interleaved by an arbitrary schedule, with no other request
at work on the slice: at the barrier the slice holds its prior content followed by a
permutation of what the goroutines append when run one after the other, and the panics
raised are those of the sequential run. -/
theorem runGoroutines_passes (schedule : List ℕ) (gs : List Goroutine)
    (ohlcvData : List OHLCVData) :
    ∃ added, (runGoroutines (schedule.map Event.pass) gs ohlcvData).1 = ohlcvData ++ added ∧
      added.Perm (recordsOf gs) ∧
      (runGoroutines (schedule.map Event.pass) gs ohlcvData).2.Perm (panicsOf gs) := by
  obtain ⟨added, np, h₁, h₂, h₃, h₄⟩ := runEvents_passes_spec schedule ⟨gs, ohlcvData, []⟩
  refine ⟨added ++ recordsOf (runEvents (schedule.map Event.pass) ⟨gs, ohlcvData, []⟩).goroutines,
    ?_, h₃, ?_⟩
  · simp only [runGoroutines, runToCompletion_eq, h₁, List.append_assoc]
  · simp only [runGoroutines, runToCompletion_eq, h₂, List.nil_append]
    exact h₄

theorem forall₂_exists_of_mem_right {α β : Type} {R : α → β → Prop} {l₁ : List α}
    {l₂ : List β} (h : List.Forall₂ R l₁ l₂) {b : β} (hb : b ∈ l₂) : ∃ a ∈ l₁, R a b := by
  induction h with
  | nil => simp at hb
  | cons hh _ ih =>
    rcases List.mem_cons.mp hb with rfl | hb'
    · exact ⟨_, List.mem_cons_self _ _, hh⟩
    · obtain ⟨a, ha, hr⟩ := ih hb'
      exact ⟨a, List.mem_cons_of_mem _ ha, hr⟩

/-- Every record the goroutines append is whole: it is the record built from one row, of
length at least 11, of the goroutine whose symbol it carries. -/
theorem recordsOf_whole : ∀ (gs : List Goroutine), ∀ r ∈ recordsOf gs,
    ∃ g ∈ gs, ∃ data ∈ g.pending, 11 ≤ data.length ∧ r.Symbol = g.symbol ∧
      buildOHLCV g.symbol data = .ok r ∧ RecordOf g.symbol data r
  | [], r, hr => by simp [recordsOf] at hr
  | g :: gs, r, hr => by
    rw [recordsOf_cons] at hr
    rcases List.mem_append.mp hr with hr | hr
    · obtain ⟨data, hd, hlen, hb⟩ := fetchOHLCVForSymbol_unwind_records g.symbol g.pending r hr
      have hrec := recordOf_of_buildOHLCV hb
      exact ⟨g, List.mem_cons_self _ _, data, hd, hlen, hrec.1, hb, hrec⟩
    · obtain ⟨g', hg', rest⟩ := recordsOf_whole gs r hr
      exact ⟨g', List.mem_cons_of_mem _ hg', rest⟩

/-- With well-typed rows no goroutine panics, and what the goroutines append is the
concatenation of the per-symbol record lists, one record per row of length at least 11. -/
theorem recordsOf_of_wellTyped : ∀ (gs : List Goroutine),
    (∀ g ∈ gs, ∀ data ∈ g.pending, 11 ≤ data.length → WellTypedRow data) →
    panicsOf gs = [] ∧
    ∃ perSymbol : List (List OHLCVData),
      List.Forall₂ (fun g recs => fetchOHLCVForSymbol_rows g.symbol g.pending [] = .ok recs ∧
        List.Forall₂ (RecordOf g.symbol)
          (g.pending.filter (fun data => decide (11 ≤ data.length))) recs) gs perSymbol ∧
      recordsOf gs = perSymbol.flatten
  | [], _ => ⟨by simp [panicsOf], [], List.Forall₂.nil, by simp [recordsOf]⟩
  | g :: gs, h => by
    obtain ⟨records, hr, hf⟩ := fetchOHLCVForSymbol_rows_of_wellTyped g.symbol g.pending []
      (h g (List.mem_cons_self _ _))
    rw [List.nil_append] at hr
    have hu := fetchOHLCVForSymbol_unwind_of_rows g.symbol g.pending [] records hr
    obtain ⟨hp, ps, hps, hrec⟩ := recordsOf_of_wellTyped gs
      (fun g' hg' => h g' (List.mem_cons_of_mem _ hg'))
    refine ⟨by rw [panicsOf_cons, hu, hp]; rfl, records :: ps, List.Forall₂.cons ⟨hr, hf⟩ hps, ?_⟩
    rw [recordsOf_cons, hu, hrec, List.flatten_cons]

/-- C10, the code at a failing input. Two goroutines run against one store; the response for
`BTCUSDT` is a valid row, a row with a JSON number at position 1, and a valid row; the
response for `ETHUSDT` is one valid row. Under every interleaving of the passes the goroutine
of `BTCUSDT` panics at its second row, the barrier opens, and the store read after it holds
two records, the first of `BTCUSDT` and the one of `ETHUSDT`: the record of the third row of
`BTCUSDT`, a valid row, is missing. Without the mistyped row the store holds the three
records of the three valid rows. -/
theorem C10_mistyped_row_leaves_the_store_short :
    (∀ schedule : List ℕ,
      (runGoroutines (schedule.map Event.pass) mistypedTasks []).1.Perm
        [klinesRecord "BTCUSDT", klinesRecord "ETHUSDT"] ∧
      (runGoroutines (schedule.map Event.pass) mistypedTasks []).1.length = 2 ∧
      (runGoroutines (schedule.map Event.pass) mistypedTasks []).2 =
        ["interface conversion: interface {} is not string"]) ∧
    runGoroutines [.pass 1, .pass 0, .pass 0, .pass 0] mistypedTasks [] =
      ([klinesRecord "ETHUSDT", klinesRecord "BTCUSDT"],
        ["interface conversion: interface {} is not string"]) ∧
    runGoroutines [.pass 1, .pass 0, .pass 0]
        [⟨"BTCUSDT", [klinesRow, klinesRow]⟩, ⟨"ETHUSDT", [klinesRow]⟩] [] =
      ([klinesRecord "ETHUSDT", klinesRecord "BTCUSDT", klinesRecord "BTCUSDT"], []) ∧
    (mistypedTasks.map (fun g => g.pending.length)).sum = 4 ∧
    WellTypedRow klinesRow ∧ ¬ WellTypedRow mistypedRow := by
  refine ⟨fun schedule => ?_, rfl, rfl, rfl, wellTypedRow_klinesRow, ?_⟩
  · obtain ⟨added, h₁, h₂, h₃⟩ := runGoroutines_passes schedule mistypedTasks []
    have hrec : recordsOf mistypedTasks = [klinesRecord "BTCUSDT", klinesRecord "ETHUSDT"] := rfl
    have hpan : panicsOf mistypedTasks =
        ["interface conversion: interface {} is not string"] := rfl
    rw [List.nil_append] at h₁
    rw [hrec] at h₂
    rw [hpan] at h₃
    rw [h₁]
    exact ⟨h₂, h₂.length_eq, List.perm_singleton.mp h₃⟩
  · intro h
    obtain ⟨s, hs⟩ := h.2 1 (by simp)
    simp [mistypedRow] at hs

/-! ## The handler -/

theorem fetch24hTickerData_decoded (tickerData : List TickerData) :
    fetch24hTickerData (.decoded tickerData) =
      .ok (some (tickerData.filter (fun t => decide (bytes "USDT" <:+ bytes t.Symbol)))) := by
  unfold fetch24hTickerData
  simp only [fetch24hTickerData_filter_eq, List.nil_append]
  rfl

theorem getOHLCVData_ticker_failed (ticker : TickerFetch) (klines : ℕ → String → KlinesFetch)
    (events : List Event) (ohlcvData : List OHLCVData) (h : ∀ td, ticker ≠ .decoded td) :
    getOHLCVData ticker klines events ohlcvData =
      .ok ⟨Response.status500 "Failed to fetch 24-hour ticker data", ohlcvData, [], []⟩ := by
  cases ticker with
  | decoded td => exact absurd rfl (h td)
  | getError => rfl
  | readError => rfl
  | unmarshalError => rfl

theorem getOHLCVData_decoded (tickerData : List TickerData) (klines : ℕ → String → KlinesFetch)
    (events : List Event) (ohlcvData : List OHLCVData) :
    getOHLCVData (.decoded tickerData) klines events ohlcvData =
      .ok ⟨Response.status200 (runGoroutines events
          ((getTop50SymbolsByQuoteVolume
            (tickerData.filter (fun t => decide (bytes "USDT" <:+ bytes t.Symbol)))).enum.map
              (fun p => Goroutine.mk p.2 (klines p.1 p.2).rows)) []).1,
        (runGoroutines events
          ((getTop50SymbolsByQuoteVolume
            (tickerData.filter (fun t => decide (bytes "USDT" <:+ bytes t.Symbol)))).enum.map
              (fun p => Goroutine.mk p.2 (klines p.1 p.2).rows)) []).1,
        getTop50SymbolsByQuoteVolume
          (tickerData.filter (fun t => decide (bytes "USDT" <:+ bytes t.Symbol))),
        (runGoroutines events
          ((getTop50SymbolsByQuoteVolume
            (tickerData.filter (fun t => decide (bytes "USDT" <:+ bytes t.Symbol)))).enum.map
              (fun p => Goroutine.mk p.2 (klines p.1 p.2).rows)) []).2⟩ := by
  unfold getOHLCVData
  rw [fetch24hTickerData_decoded]
  rfl

/-- C9, counterexample. The ticker fetch succeeds with the pairs `BTCUSDT` and `ETHUSDT` and
both series fetches succeed. First, the response for `BTCUSDT` has a row with a JSON number
at position 1 between two valid rows: the goroutine panics at that row, its deferred
`wg.Done()` opens the barrier, and the handler writes 200 with two records, without the
record of the third row of `BTCUSDT`, before the panic ends the process; without the mistyped
row the body has the three records. Second, every row is valid, but another request resets
the global `ohlcvData` between the passes of the two goroutines, or one of its goroutines
appends a record there: the handler writes 200 without the record of `BTCUSDT`, or with a
record of a symbol it never launched. -/
theorem C9_every_outcome_counterexample :
    getOHLCVData twoTickers mistypedKlines [] [] =
      .ok ⟨Response.status200 [klinesRecord "BTCUSDT", klinesRecord "ETHUSDT"],
        [klinesRecord "BTCUSDT", klinesRecord "ETHUSDT"], ["BTCUSDT", "ETHUSDT"],
        ["interface conversion: interface {} is not string"]⟩ ∧
    getOHLCVData twoTickers (fun i _ => if i = 0 then .decoded [klinesRow, klinesRow]
        else .decoded [klinesRow]) [] [] =
      .ok ⟨Response.status200
          [klinesRecord "BTCUSDT", klinesRecord "BTCUSDT", klinesRecord "ETHUSDT"],
        [klinesRecord "BTCUSDT", klinesRecord "BTCUSDT", klinesRecord "ETHUSDT"],
        ["BTCUSDT", "ETHUSDT"], []⟩ ∧
    getOHLCVData twoTickers validKlines [.pass 0, .reset, .pass 1] [] =
      .ok ⟨Response.status200 [klinesRecord "ETHUSDT"], [klinesRecord "ETHUSDT"],
        ["BTCUSDT", "ETHUSDT"], []⟩ ∧
    getOHLCVData twoTickers validKlines [.pass 0, .append (klinesRecord "XRPUSDT"), .pass 1] [] =
      .ok ⟨Response.status200
          [klinesRecord "BTCUSDT", klinesRecord "XRPUSDT", klinesRecord "ETHUSDT"],
        [klinesRecord "BTCUSDT", klinesRecord "XRPUSDT", klinesRecord "ETHUSDT"],
        ["BTCUSDT", "ETHUSDT"], []⟩ ∧
    fetchOHLCVForSymbol (validKlines 0 "BTCUSDT") "BTCUSDT" [] = .ok [klinesRecord "BTCUSDT"] :=
  ⟨rfl, rfl, rfl, rfl, rfl⟩

/-- C9, amended. A request that no other request overlaps (the events on the global
`ohlcvData` are the passes of its own goroutines, in any interleaving), with upstream
outcomes in which every decoded klines row of length at least 11 is well-typed. When the
ticker fetch fails (transport error, unreadable body or malformed JSON) `getOHLCVData`
answers 500, launches no goroutine and leaves the store as it was; it answers 500 in no other
case. When the ticker fetch succeeds it answers 200 with the store, no goroutine panics, a
goroutine is launched for each of the top symbols, and the store holds a permutation of the
concatenation of the per-symbol record lists; a fetch that failed as a whole leaves the store
unchanged, so its symbol contributes the empty list, and the request does not fail. -/
theorem C9_failures_of_upstream_calls (ticker : TickerFetch)
    (klines : ℕ → String → KlinesFetch) (schedule : List ℕ) (ohlcvData : List OHLCVData)
    (hw : ∀ i symbol, ∀ data ∈ (klines i symbol).rows, 11 ≤ data.length → WellTypedRow data) :
    ((∀ td, ticker ≠ .decoded td) →
      getOHLCVData ticker klines (schedule.map Event.pass) ohlcvData =
        .ok ⟨Response.status500 "Failed to fetch 24-hour ticker data", ohlcvData, [], []⟩) ∧
    (∀ handled body, getOHLCVData ticker klines (schedule.map Event.pass) ohlcvData =
        .ok handled → handled.response = Response.status500 body →
      ∀ td, ticker ≠ .decoded td) ∧
    (∀ td, ticker = .decoded td →
      ∃ out, getOHLCVData ticker klines (schedule.map Event.pass) ohlcvData =
          .ok ⟨Response.status200 out, out,
            getTop50SymbolsByQuoteVolume
              (td.filter (fun t => decide (bytes "USDT" <:+ bytes t.Symbol))), []⟩ ∧
        ∃ perSymbol : List (List OHLCVData),
          List.Forall₂ (fun (p : ℕ × String) recs =>
            fetchOHLCVForSymbol (klines p.1 p.2) p.2 [] = .ok recs)
            (getTop50SymbolsByQuoteVolume
              (td.filter (fun t => decide (bytes "USDT" <:+ bytes t.Symbol)))).enum perSymbol ∧
          out.Perm perSymbol.flatten) ∧
    (∀ symbol store, fetchOHLCVForSymbol .getError symbol store = .ok store ∧
      fetchOHLCVForSymbol .readError symbol store = .ok store ∧
      fetchOHLCVForSymbol .unmarshalError symbol store = .ok store) := by
  refine ⟨getOHLCVData_ticker_failed ticker klines _ ohlcvData, ?_, ?_,
    fun _ _ => ⟨rfl, rfl, rfl⟩⟩
  · intro handled body h hresp td htd
    subst htd
    rw [getOHLCVData_decoded] at h
    simp only [Except.ok.injEq] at h
    subst h
    simp at hresp
  · intro td htd
    subst htd
    rw [getOHLCVData_decoded]
    obtain ⟨added, h₁, h₂, h₃⟩ := runGoroutines_passes schedule
      ((getTop50SymbolsByQuoteVolume
        (td.filter (fun t => decide (bytes "USDT" <:+ bytes t.Symbol)))).enum.map
          (fun p => Goroutine.mk p.2 (klines p.1 p.2).rows)) []
    obtain ⟨hp, perSymbol, hps, hrec⟩ := recordsOf_of_wellTyped
      ((getTop50SymbolsByQuoteVolume
        (td.filter (fun t => decide (bytes "USDT" <:+ bytes t.Symbol)))).enum.map
          (fun p => Goroutine.mk p.2 (klines p.1 p.2).rows)) (by
        intro g hg data hd hlen
        rw [List.mem_map] at hg
        obtain ⟨p, -, rfl⟩ := hg
        exact hw p.1 p.2 data hd hlen)
    rw [hp] at h₃
    rw [List.perm_nil] at h₃
    rw [List.nil_append] at h₁
    rw [hrec] at h₂
    refine ⟨added, by rw [h₁, h₃], perSymbol, ?_, h₂⟩
    rw [List.forall₂_map_left_iff] at hps
    exact hps.imp (fun _ _ h => h.1)

theorem C9_failures_witness :
    (∀ i symbol, ∀ data ∈ (oneFailedKlines i symbol).rows, 11 ≤ data.length →
      WellTypedRow data) ∧
    getOHLCVData twoTickers oneFailedKlines ([1, 0].map Event.pass) [klinesRecord "OLDUSDT"] =
      .ok ⟨Response.status200 [klinesRecord "ETHUSDT"], [klinesRecord "ETHUSDT"],
        ["BTCUSDT", "ETHUSDT"], []⟩ ∧
    getOHLCVData .getError oneFailedKlines ([1, 0].map Event.pass) [klinesRecord "OLDUSDT"] =
      .ok ⟨Response.status500 "Failed to fetch 24-hour ticker data", [klinesRecord "OLDUSDT"],
        [], []⟩ ∧
    (∃ out, getOHLCVData twoTickers oneFailedKlines ([1, 0].map Event.pass)
          [klinesRecord "OLDUSDT"] =
        .ok ⟨Response.status200 out, out,
          getTop50SymbolsByQuoteVolume
            ([(⟨"BTCUSDT", "1000000"⟩ : TickerData), ⟨"ETHUSDT", "500"⟩].filter
              (fun t => decide (bytes "USDT" <:+ bytes t.Symbol))), []⟩ ∧
      ∃ perSymbol : List (List OHLCVData),
        List.Forall₂ (fun (p : ℕ × String) recs =>
          fetchOHLCVForSymbol (oneFailedKlines p.1 p.2) p.2 [] = .ok recs)
          (getTop50SymbolsByQuoteVolume
            ([(⟨"BTCUSDT", "1000000"⟩ : TickerData), ⟨"ETHUSDT", "500"⟩].filter
              (fun t => decide (bytes "USDT" <:+ bytes t.Symbol)))).enum perSymbol ∧
        out.Perm perSymbol.flatten) := by
  have hw : ∀ i symbol, ∀ data ∈ (oneFailedKlines i symbol).rows, 11 ≤ data.length →
      WellTypedRow data := by
    intro i symbol data hd _
    unfold oneFailedKlines at hd
    split_ifs at hd
    · simp [KlinesFetch.rows] at hd
    · simp only [KlinesFetch.rows, List.mem_singleton] at hd
      subst hd
      exact wellTypedRow_klinesRow
  exact ⟨hw, rfl, rfl,
    (C9_failures_of_upstream_calls twoTickers oneFailedKlines [1, 0]
      [klinesRecord "OLDUSDT"] hw).2.2.1 _ rfl⟩

end Heatmap
